import Mathlib

/-! The per-account action queue and the block validator of iotex-core.

A shallow embedding of `actpool/actqueue.go` (the per-account action queue) and of
`blockchain/blockvalidator.go` (the block validator), followed by theorems about them.

Conventions of the embedding:

* `uint64` values are natural numbers; every place where the Go code can overflow
  (`nonce++`, `confirmedNonce+uint64(i+1)`) carries an explicit `% 2^64`;
* `*big.Int` values (costs, balances) are integers;
* a Go map is an association list with unique keys (`AList`), a Go slice is a `List`;
* a Go panic (nil interface, index out of range) and a loop that does not end are
  results of type `Fault`;
* mutation of the receiver is explicit state passing.
-/

set_option autoImplicit false

namespace ActPool

/-! ## Definitions: the action queue (`actpool/actqueue.go`) -/

/-- The number of `uint64` values. -/
def u64 : Nat := 2 ^ 64

/-- What the queue can observe of an `action.Action`: its `Nonce()`, its `Cost()` (the
error result of `Cost()` is discarded by the queue) and its `Hash()`, which stands for the
identity of the action. The cost is the one that a call of `Cost()` returns: an action whose
`Cost()` panics is outside this type, and the fault of the queue on it is the subject of
`Blockchain.enoughBalanceOf`. -/
structure Action where
  nonce : Nat
  cost : Int
  hash : Nat
deriving DecidableEq, Repr

/-- The ways a queue operation can fail to return: a method called on a nil action, an
index outside a slice, and a loop that never ends. -/
inductive Fault where
  | nilAction
  | indexOutOfRange
  | diverges
deriving DecidableEq, Repr

/-- The error values of `Put`. -/
inductive PutError where
  | ErrNonce
deriving DecidableEq, Repr

/-- The type `map[uint64]action.Action`. -/
abbrev Items := AList (fun _ : Nat => Action)

/-- The struct `actQueue`. `index` is the `noncePriorityQueue` slice. -/
structure actQueue where
  items : Items
  index : List Nat
  startNonce : Nat
  pendingNonce : Nat
  pendingBalance : Int

/-! ### `noncePriorityQueue` and `container/heap` -/

/-- The method `noncePriorityQueue.Less`. -/
def less (h : List Nat) (i j : Nat) : Bool := decide (h.getD i 0 < h.getD j 0)

/-- The method `noncePriorityQueue.Swap`. -/
def swap (h : List Nat) (i j : Nat) : List Nat :=
  (h.set i (h.getD j 0)).set j (h.getD i 0)

/-- The loop of `heap.up`; one unit of fuel per iteration. -/
def upLoop : Nat → List Nat → Nat → List Nat
  | 0, h, _ => h
  | fuel + 1, h, j =>
    let i := (j - 1) / 2
    if i = j ∨ ¬ less h j i then h
    else upLoop fuel (swap h i j) i

/-- The function `heap.up`: the index strictly decreases, so `j + 1` iterations suffice. -/
def up (h : List Nat) (j : Nat) : List Nat := upLoop (j + 1) h j

/-- The loop of `heap.down`; one unit of fuel per iteration. -/
def downLoop : Nat → List Nat → Nat → Nat → List Nat
  | 0, h, _, _ => h
  | fuel + 1, h, i, n =>
    let j1 := 2 * i + 1
    if n ≤ j1 then h
    else
      let j := if j1 + 1 < n ∧ less h (j1 + 1) j1 then j1 + 1 else j1
      if less h j i then downLoop fuel (swap h i j) j n else h

/-- The function `heap.down`: the index strictly increases and stays below `n`, so `n`
iterations suffice. -/
def down (h : List Nat) (i0 n : Nat) : List Nat := downLoop n h i0 n

/-- The function `heap.Init`: `down` at `n/2 - 1`, ..., `1`, `0`. -/
def heapInit (h : List Nat) : List Nat :=
  (List.range (h.length / 2)).reverse.foldl (fun acc i => down acc i h.length) h

/-- The function `heap.Push` on a `noncePriorityQueue`: append, then `up` from the last
index. -/
def heapPush (h : List Nat) (x : Nat) : List Nat :=
  up (h ++ [x]) (h ++ [x]).length.pred

/-- The function `heap.Pop` on a `noncePriorityQueue`: swap the root with the last element,
`down` on the rest, cut the last element off and return it. It panics on an empty slice. -/
def heapPop (h : List Nat) : Except Fault (Nat × List Nat) :=
  if h.length = 0 then .error .indexOutOfRange
  else
    let n := h.length - 1
    let h1 := down (swap h 0 n) 0 n
    .ok (h1.getD n 0, h1.take n)

/-- The call `sort.Sort(q.index)`: the slice in ascending order. -/
def sortIndex (h : List Nat) : List Nat := h.insertionSort (· ≤ ·)

/-! ### The queue operations -/

/-- The constructor `NewActQueue`. -/
def NewActQueue : actQueue :=
  { items := ∅, index := [], startNonce := 1, pendingNonce := 1, pendingBalance := 0 }

/-- The method `Overlaps`. -/
def Overlaps (q : actQueue) (act : Action) : Bool :=
  (q.items.lookup act.nonce).isSome

/-- The method `Put`: the queue after the call and the error returned. -/
def Put (q : actQueue) (act : Action) : actQueue × Option PutError :=
  let nonce := act.nonce
  if (q.items.lookup nonce).isSome then (q, some .ErrNonce)
  else ({ q with index := heapPush q.index nonce, items := q.items.insert nonce act }, none)

/-- The loop of `FilterNonce`; one unit of fuel per iteration. -/
def filterLoop (threshold : Nat) :
    Nat → actQueue → List (Option Action) → Except Fault (actQueue × List (Option Action))
  | 0, q, removed => .ok (q, removed)
  | fuel + 1, q, removed =>
    if 0 < q.index.length ∧ q.index.getD 0 0 < threshold then
      match heapPop q.index with
      | .error e => .error e
      | .ok (nonce, index) =>
        filterLoop threshold fuel { q with index := index, items := q.items.erase nonce }
          (removed ++ [q.items.lookup nonce])
    else .ok (q, removed)

/-- The method `FilterNonce`: every iteration pops one nonce, so `len(index)` iterations
suffice. -/
def FilterNonce (q : actQueue) (threshold : Nat) :
    Except Fault (actQueue × List (Option Action)) :=
  filterLoop threshold q.index.length q []

/-- The method `enoughBalance`: the queue after the call and the result. -/
def enoughBalance (q : actQueue) (act : Action) (updateBalance : Bool) : actQueue × Bool :=
  if q.pendingBalance < act.cost then (q, false)
  else if updateBalance then ({ q with pendingBalance := q.pendingBalance - act.cost }, true)
  else (q, true)

/-- The loop of `removeActs`, over the nonces `index[idx:]`. -/
def removeLoop : List Nat → Items → List (Option Action) → Items × List (Option Action)
  | [], items, removed => (items, removed)
  | k :: rest, items, removed => removeLoop rest (items.erase k) (removed ++ [items.lookup k])

/-- The method `removeActs`. It panics when `idx` is beyond the length of the index. -/
def removeActs (q : actQueue) (idx : Nat) : Except Fault (actQueue × List (Option Action)) :=
  if q.index.length < idx then .error .indexOutOfRange
  else
    let r := removeLoop (q.index.drop idx) q.items []
    .ok ({ q with items := r.1, index := heapInit (q.index.take idx) }, r.2)

/-- The first loop of `UpdateQueue`: the walk over consecutive nonces. Without fuel the
loop has not ended. -/
def walkLoop : Nat → actQueue → Nat → Except Fault (actQueue × Nat)
  | 0, _, _ => .error .diverges
  | fuel + 1, q, nonce =>
    match q.items.lookup nonce with
    | none => .ok (q, nonce)
    | some act =>
      let r := enoughBalance q act true
      if r.2 then walkLoop fuel r.1 ((nonce + 1) % u64) else .ok (r.1, nonce)

/-- The second loop of `UpdateQueue`: the first position of the sorted index whose nonce is
at least `nonce`, or the length of the index. -/
def findPending (index : List Nat) (nonce : Nat) : Nat :=
  index.findIdx (fun x => decide (nonce ≤ x))

/-- The third loop of `UpdateQueue` (Case II), over the nonces `index[i:]`. -/
def pruneLoop : List Nat → actQueue → Nat → Except Fault (actQueue × Nat)
  | [], q, i => .ok (q, i)
  | nonce :: rest, q, i =>
    match q.items.lookup nonce with
    | none => .error .nilAction
    | some act =>
      let r := enoughBalance q act false
      if r.2 then pruneLoop rest r.1 (i + 1) else .ok (r.1, i)

/-- The method `UpdateQueue`. The walk meets a missing nonce within `len(items) + 1`
iterations unless the map holds every `uint64`. -/
def UpdateQueue (q : actQueue) (nonce : Nat) : Except Fault (actQueue × List (Option Action)) :=
  match walkLoop (q.items.keys.length + 1) q nonce with
  | .error e => .error e
  | .ok (q1, nonce) =>
    let q2 := { q1 with pendingNonce := nonce }
    let q3 := { q2 with index := sortIndex q2.index }
    let i := findPending q3.index nonce
    if (q3.items.lookup nonce).isSome then removeActs q3 i
    else
      match pruneLoop (q3.index.drop i) q3 i with
      | .error e => .error e
      | .ok (q4, i) => removeActs q4 i

/-- The method `SetStartNonce`. -/
def SetStartNonce (q : actQueue) (nonce : Nat) : actQueue := { q with startNonce := nonce }

/-- The method `StartNonce`. -/
def StartNonce (q : actQueue) : Nat := q.startNonce

/-- The method `SetPendingNonce`. -/
def SetPendingNonce (q : actQueue) (nonce : Nat) : actQueue := { q with pendingNonce := nonce }

/-- The method `PendingNonce`. -/
def PendingNonce (q : actQueue) : Nat := q.pendingNonce

/-- The method `SetPendingBalance`. -/
def SetPendingBalance (q : actQueue) (balance : Int) : actQueue :=
  { q with pendingBalance := balance }

/-- The method `PendingBalance`. -/
def PendingBalance (q : actQueue) : Int := q.pendingBalance

/-- The method `Len`. -/
def Len (q : actQueue) : Nat := q.items.keys.length

/-- The method `Empty`. -/
def Empty (q : actQueue) : Bool := Len q == 0

/-- The loop of `PendingActs`. Without fuel the loop has not ended. -/
def pendingLoop (items : Items) : Nat → Nat → List Action → Except Fault (List Action)
  | 0, _, _ => .error .diverges
  | fuel + 1, nonce, acts =>
    match items.lookup nonce with
    | none => .ok acts
    | some act => pendingLoop items fuel ((nonce + 1) % u64) (acts ++ [act])

/-- The method `PendingActs`. -/
def PendingActs (q : actQueue) : Except Fault (List Action) :=
  if Len q = 0 then .ok []
  else pendingLoop q.items (q.items.keys.length + 1) q.startNonce []

/-- The method `AllActs`: the queue after the call (its index is sorted) and the result. -/
def AllActs (q : actQueue) : actQueue × List (Option Action) :=
  if Len q = 0 then (q, [])
  else
    let q1 := { q with index := sortIndex q.index }
    (q1, q1.index.map (fun nonce => q1.items.lookup nonce))

/-- The queues that the public operations produce from `NewActQueue`. `Overlaps`,
`PendingActs` and the getters leave the queue as it is. -/
inductive Reachable : actQueue → Prop where
  | new : Reachable NewActQueue
  | put (q : actQueue) (act : Action) :
      Reachable q → act.nonce < u64 → Reachable (Put q act).1
  | filterNonce (q q1 : actQueue) (threshold : Nat) (removed : List (Option Action)) :
      Reachable q → threshold < u64 → FilterNonce q threshold = .ok (q1, removed) →
      Reachable q1
  | updateQueue (q q1 : actQueue) (nonce : Nat) (removed : List (Option Action)) :
      Reachable q → nonce < u64 → UpdateQueue q nonce = .ok (q1, removed) → Reachable q1
  | setStartNonce (q : actQueue) (nonce : Nat) :
      Reachable q → nonce < u64 → Reachable (SetStartNonce q nonce)
  | setPendingNonce (q : actQueue) (nonce : Nat) :
      Reachable q → nonce < u64 → Reachable (SetPendingNonce q nonce)
  | setPendingBalance (q : actQueue) (balance : Int) :
      Reachable q → Reachable (SetPendingBalance q balance)
  | allActs (q : actQueue) : Reachable q → Reachable (AllActs q).1

/-! ### Notions used to state the properties of the queue -/

/-- The min-heap property on the first `n` elements of a slice: no element is smaller
than its parent. -/
def HeapUpTo (h : List Nat) (n : Nat) : Prop :=
  ∀ c, 0 < c → c < n → h.getD ((c - 1) / 2) 0 ≤ h.getD c 0

/-- The min-heap property of a slice. -/
def IsHeap (h : List Nat) : Prop := HeapUpTo h h.length

/-- The consistency of a queue: the index holds the keys of the map, each of them once;
every action is stored under its own nonce, a `uint64`; the index is a heap. -/
structure Inv (q : actQueue) : Prop where
  perm : q.index.Perm q.items.keys
  keyNonce : ∀ k a, q.items.lookup k = some a → a.nonce = k
  bound : ∀ k, k ∈ q.items.keys → k < u64
  heap : IsHeap q.index

/-- The nonces `n, n+1, ..., n+k-1` of a walk, in 64-bit arithmetic. -/
def walked (n k : Nat) : List Nat := (List.range k).map (fun i => (n + i) % u64)

/-- The cost of the action stored at a nonce, `0` when there is none. -/
def costAt (items : Items) (m : Nat) : Int := ((items.lookup m).map Action.cost).getD 0

/-- The sum of the costs of the actions stored at the nonces of a list. -/
def costSum (items : Items) (l : List Nat) : Int := (l.map (costAt items)).sum

/-- The nonces the queue holds, in ascending order. -/
def heldNonces (q : actQueue) : List Nat := sortIndex q.items.keys

/-- The queue of the scenario "balance-limited update": balance 10 and the costs 4, 5, 3 at
the nonces 1, 2, 3. -/
def scenarioBalance : actQueue :=
  SetPendingBalance (Put (Put (Put NewActQueue ⟨1, 4, 0⟩).1 ⟨2, 5, 0⟩).1 ⟨3, 3, 0⟩).1 10

/-- The queue of the scenario "gap pruning": balance 10, cost 1 at nonce 1 and cost 2 at
nonce 3. -/
def scenarioGap : actQueue :=
  SetPendingBalance (Put (Put NewActQueue ⟨1, 1, 0⟩).1 ⟨3, 2, 0⟩).1 10

/-- The queue of the scenario "FilterNonce": the nonces 2, 4, 7, 9. -/
def scenarioFilter : actQueue :=
  (Put (Put (Put (Put NewActQueue ⟨2, 0, 0⟩).1 ⟨4, 0, 0⟩).1 ⟨7, 0, 0⟩).1 ⟨9, 0, 0⟩).1

/-- A queue with start nonce 1 that holds one action, at nonce 5. -/
def scenarioLate : actQueue := (Put NewActQueue ⟨5, 0, 0⟩).1

/-- A queue with start nonce `2^64 - 1` that holds two actions, at the nonces `2^64 - 1`
and 0. -/
def scenarioWrap : actQueue :=
  SetStartNonce (Put (Put NewActQueue ⟨18446744073709551615, 0, 0⟩).1 ⟨0, 0, 1⟩).1
    18446744073709551615

end ActPool

namespace Blockchain

/-! ## Definitions: the block validator (`blockchain/blockvalidator.go`) -/

/-- Byte strings: hashes, public keys, signatures. -/
abbrev Bytes := List Nat

/-- The sentinel errors of `blockvalidator.go` and `action.go`, and the errors that come
from outside: `iotxaddress.GetPubkeyHash`, `state.Factory.Nonce`, `crypto.DKG.ShareVerify`. -/
inductive ErrorKind where
  | ErrInvalidTipHeight
  | ErrInvalidBlock
  | ErrActionNonce
  | ErrGasHigherThanLimit
  | ErrInsufficientGas
  | ErrBalance
  | ErrDKGSecretProposal
  | ErrAction
  | address (msg : String)
  | factory (msg : String)
  | dkg (msg : String)
deriving DecidableEq, Repr

/-- An error value: its cause and the messages it was wrapped with, the outermost first. -/
structure Error where
  cause : ErrorKind
  context : List String
deriving DecidableEq, Repr

/-- The call `errors.Wrap(err, msg)`. -/
def wrap (e : Error) (msg : String) : Error := { e with context := msg :: e.context }

/-- The two ways a call ends without success: it returns an error, or it panics on a nil
pointer. -/
inductive Stop where
  | error (e : Error)
  | nilPointer
deriving DecidableEq, Repr

/-- What the validator reads of an `action.Transfer`. -/
structure Transfer where
  IsCoinbase : Bool
  Sender : String
  Recipient : String
  GasLimit : Nat
  IntrinsicGas : Nat × Option String
  Nonce : Nat
  SrcPubkey : Bytes
  Hash : Bytes
  Signature : Bytes
deriving DecidableEq, Repr

/-- What the validator reads of an `action.Vote`. -/
structure Vote where
  Voter : String
  Votee : String
  GasLimit : Nat
  IntrinsicGas : Nat × Option String
  Nonce : Nat
  SrcPubkey : Bytes
  Hash : Bytes
  Signature : Bytes
deriving DecidableEq, Repr

/-- What the validator reads of an `action.Execution`. -/
structure Execution where
  Executor : String
  Contract : String
  GasLimit : Nat
  IntrinsicGas : Nat × Option String
  Amount : Int
  Nonce : Nat
  SrcPubkey : Bytes
  Hash : Bytes
  Signature : Bytes
deriving DecidableEq, Repr

/-- What the validator reads of an `action.SecretWitness`. -/
structure SecretWitness where
  SrcAddr : String
  Nonce : Nat
  Witness : List Bytes
deriving DecidableEq, Repr

/-- What the validator reads of an `action.SecretProposal`. -/
structure SecretProposal where
  SrcAddr : String
  DstAddr : String
  Nonce : Nat
  Secret : List Nat
deriving DecidableEq, Repr

/-- The fields of the block header that the validator reads. -/
structure BlockHeader where
  height : Nat
  prevBlockHash : Bytes
  txRoot : Bytes
  Pubkey : Bytes
  blockSig : Bytes
  chainID : Nat
deriving DecidableEq, Repr

/-- The struct `Block`; `SecretWitness` is a pointer that may be nil. -/
structure Block where
  Header : BlockHeader
  Transfers : List Transfer
  Votes : List Vote
  Executions : List Execution
  SecretProposals : List SecretProposal
  SecretWitness : Option SecretWitness
deriving DecidableEq, Repr

/-- The collaborators of the validator whose code is outside `blockvalidator.go`:
the constants `action.GasLimit` and `action.EmptyAddress`, `iotxaddress.GetPubkeyHash`
(its error, if any), `crypto.EC283.Verify`, the address
`address.New(chainID, keypair.HashPubKey(pubkey)).IotxAddress()`, `iotxaddress.CreateID`,
`crypto.DKG.ShareVerify`, and the methods `IsDummyBlock`, `HashBlock` and `TxRoot` of
`Block`. -/
structure Env where
  GasLimit : Nat
  EmptyAddress : String
  GetPubkeyHash : String → Option String
  ecVerify : Bytes → Bytes → Bytes → Bool
  producerAddress : Nat → Bytes → String
  CreateID : String → Bytes
  ShareVerify : Bytes → List Nat → List Bytes → Bool × Option String
  IsDummyBlock : Block → Bool
  HashBlock : Block → Bytes
  TxRoot : Block → Bytes

/-- The method `Nonce` of a `state.Factory`: the confirmed nonce of an address, or an
error. -/
abbrev Factory := String → Except String Nat

/-- The struct `validator`; `sf` may be nil. -/
structure validator where
  sf : Option Factory
  validatorAddr : String

/-- The function `action.Verify` (`action.go`): nil when the signature of the action
verifies over its hash under its public key. -/
def Verify (env : Env) (srcPubkey hash signature : Bytes) : Option Error :=
  if env.ecVerify srcPubkey hash signature then none
  else some { cause := .ErrAction, context := ["failed to verify action hash and signature"] }

deriving instance DecidableEq for Except

/-- The local state of `verifyActions`: the two maps and the two counters. -/
structure Book where
  confirmedNonceMap : AList (fun _ : String => Nat)
  accountNonceMap : AList (fun _ : String => List Nat)
  correctAction : Nat
  coinbaseCount : Nat

/-- The state at the start of `verifyActions`. -/
def Book.empty : Book :=
  { confirmedNonceMap := ∅, accountNonceMap := ∅, correctAction := 0, coinbaseCount := 0 }

/-- The slice `accountNonceMap[address]`, nil when the key is missing. -/
def Book.received (b : Book) (address : String) : List Nat :=
  (b.accountNonceMap.lookup address).getD []

/-- A check of an address with `iotxaddress.GetPubkeyHash`: its error is wrapped and
returned. -/
def checkAddress (env : Env) (address msg : String) : Except Stop Unit :=
  match env.GetPubkeyHash address with
  | some e => .error (.error { cause := .address e, context := [msg ++ address] })
  | none => .ok ()

/-- The gas checks of a transfer, a vote or an execution; `intrinsicGas` is the pair
returned by the method `IntrinsicGas`, a value and an error. -/
def checkGas (env : Env) (gasLimit : Nat) (intrinsicGas : Nat × Option String)
    (msg : String) : Except Stop Unit :=
  if gasLimit > env.GasLimit then
    .error (.error { cause := .ErrGasHigherThanLimit, context := ["gas is higher than gas limit"] })
  else if intrinsicGas.1 > gasLimit ∨ intrinsicGas.2.isSome then
    .error (.error { cause := .ErrInsufficientGas, context := [msg] })
  else .ok ()

/-- The bookkeeping of one nonce ("store the nonce of the sender and verify later"): on
the first sight of the address its confirmed nonce is fetched from the factory. -/
def recordNonce (sf : Factory) (b : Book) (address : String) (nonce : Nat) (msg : String) :
    Except Stop Book :=
  match b.confirmedNonceMap.lookup address with
  | none =>
    match sf address with
    | .error e => .error (.error { cause := .factory e, context := [msg] })
    | .ok accountNonce =>
      .ok { b with
        confirmedNonceMap := b.confirmedNonceMap.insert address accountNonce
        accountNonceMap := b.accountNonceMap.insert address ([] ++ [nonce]) }
  | some _ =>
    .ok { b with
      accountNonceMap := b.accountNonceMap.insert address (b.received address ++ [nonce]) }

/-- One iteration of the loop over `blk.Transfers`. The goroutine it starts only adds to a
counter, which is read after `wg.Wait()`. -/
def transferStep (env : Env) (sf : Factory) (blk : Block) (b : Book) (tsf : Transfer) :
    Except Stop Book :=
  match (if !tsf.IsCoinbase then
      match checkAddress env tsf.Sender "failed to validate transfer sender's address " with
      | .error e => .error e
      | .ok _ =>
        checkAddress env tsf.Recipient "failed to validate transfer recipient's address "
    else .ok () : Except Stop Unit) with
  | .error e => .error e
  | .ok _ =>
    match (if blk.Header.height > 0 && !tsf.IsCoinbase then
        match checkGas env tsf.GasLimit tsf.IntrinsicGas "insufficient gas for transfer" with
        | .error e => .error e
        | .ok _ =>
          recordNonce sf b tsf.Sender tsf.Nonce "failed to get the nonce of transfer sender"
      else .ok b : Except Stop Book) with
    | .error e => .error e
    | .ok b1 =>
      if tsf.IsCoinbase then
        if env.producerAddress blk.Header.chainID blk.Header.Pubkey ≠ tsf.Recipient then .ok b1
        else .ok { b1 with coinbaseCount := b1.coinbaseCount + 1 }
      else if (Verify env tsf.SrcPubkey tsf.Hash tsf.Signature).isSome then .ok b1
      else .ok { b1 with correctAction := b1.correctAction + 1 }

/-- One iteration of the loop over `blk.Votes`. -/
def voteStep (env : Env) (sf : Factory) (blk : Block) (b : Book) (vote : Vote) :
    Except Stop Book :=
  match checkAddress env vote.Voter "failed to validate voter's address " with
  | .error e => .error e
  | .ok _ =>
    match (if vote.Votee ≠ env.EmptyAddress then
        checkAddress env vote.Votee "failed to validate votee's address "
      else .ok () : Except Stop Unit) with
    | .error e => .error e
    | .ok _ =>
      match (if blk.Header.height > 0 then
          match checkGas env vote.GasLimit vote.IntrinsicGas "insufficient gas for vote" with
          | .error e => .error e
          | .ok _ => recordNonce sf b vote.Voter vote.Nonce "failed to get the nonce of the voter"
        else .ok b : Except Stop Book) with
      | .error e => .error e
      | .ok b1 =>
        if (Verify env vote.SrcPubkey vote.Hash vote.Signature).isSome then .ok b1
        else .ok { b1 with correctAction := b1.correctAction + 1 }

/-- One iteration of the loop over `blk.Executions`: the nonce is recorded and the
goroutine started before the gas and the amount are checked, at every height. -/
def executionStep (env : Env) (sf : Factory) (blk : Block) (b : Book) (execution : Execution) :
    Except Stop Book :=
  match checkAddress env execution.Executor "failed to validate executor's address " with
  | .error e => .error e
  | .ok _ =>
    match (if execution.Contract ≠ env.EmptyAddress then
        checkAddress env execution.Contract "failed to validate contract's address "
      else .ok () : Except Stop Unit) with
    | .error e => .error e
    | .ok _ =>
      match (if blk.Header.height > 0 then
          recordNonce sf b execution.Executor execution.Nonce
            "failed to get the nonce of the executor"
        else .ok b : Except Stop Book) with
      | .error e => .error e
      | .ok b1 =>
        let b2 :=
          if (Verify env execution.SrcPubkey execution.Hash execution.Signature).isSome then b1
          else { b1 with correctAction := b1.correctAction + 1 }
        match checkGas env execution.GasLimit execution.IntrinsicGas
            "insufficient gas for execution" with
        | .error e => .error e
        | .ok _ =>
          if execution.Amount < 0 then
            .error (.error { cause := .ErrBalance, context := ["negative value"] })
          else .ok b2

/-- A `for ... range` loop whose iterations may return early. -/
def forEach {α : Type} (step : Book → α → Except Stop Book) :
    List α → Book → Except Stop Book
  | [], b => .ok b
  | x :: rest, b =>
    match step b x with
    | .error e => .error e
    | .ok b1 => forEach step rest b1

/-- The two checks after `wg.Wait()`: the number of coinbase transfers and the number of
verified signatures. -/
def checkCounts (blk : Block) (containCoinbase : Bool) (b : Book) : Except Stop Unit :=
  if (containCoinbase && b.coinbaseCount ≠ 1) || (!containCoinbase && b.coinbaseCount ≠ 0) then
    .error (.error { cause := .ErrInvalidBlock, context := ["wrong number of coinbase transfers"] })
  else if b.correctAction + b.coinbaseCount ≠
      blk.Transfers.length + blk.Votes.length + blk.Executions.length then
    .error (.error { cause := .ErrInvalidBlock, context := ["failed to verify actions signature"] })
  else .ok ()

/-- The block "Verify Witness". -/
def witnessStep (env : Env) (sf : Factory) (blk : Block) (b : Book) : Except Stop Book :=
  match blk.SecretWitness with
  | none => .ok b
  | some sw =>
    match checkAddress env sw.SrcAddr "failed to validate witness sender's address " with
    | .error e => .error e
    | .ok _ => recordNonce sf b sw.SrcAddr sw.Nonce "failed to get the nonce of secret sender"

/-- One iteration of the loop over `blk.SecretProposals`. `blk.SecretWitness.Witness()`
dereferences the witness pointer. -/
def proposalStep (env : Env) (sf : Factory) (validatorAddr : String) (blk : Block) (b : Book)
    (sp : SecretProposal) : Except Stop Book :=
  match checkAddress env sp.SrcAddr "failed to validate secret sender's address " with
  | .error e => .error e
  | .ok _ =>
    match checkAddress env sp.DstAddr "failed to validate secret recipient's address " with
    | .error e => .error e
    | .ok _ =>
      match recordNonce sf b sp.SrcAddr sp.Nonce "failed to get the nonce of secret sender" with
      | .error e => .error e
      | .ok b1 =>
        if validatorAddr = sp.DstAddr then
          match blk.SecretWitness with
          | none => .error .nilPointer
          | some sw =>
            let r := env.ShareVerify (env.CreateID validatorAddr) sp.Secret sw.Witness
            let err : Error :=
              match r.2 with
              | none => { cause := .ErrDKGSecretProposal, context := [] }
              | some e => { cause := .dkg e, context := [] }
            if !r.1 then .error (.error (wrap err "failed to verify the DKG secret share"))
            else .ok b1
        else .ok b1

/-- The loop over one received slice: `nonce != confirmedNonce+uint64(i+1)` is a `uint64`
comparison. -/
def nonceLoop (confirmedNonce : Nat) : List Nat → Nat → Bool
  | [], _ => true
  | nonce :: rest, i =>
    if nonce ≠ (confirmedNonce + (i + 1)) % ActPool.u64 then false
    else nonceLoop confirmedNonce rest (i + 1)

/-- The call `sort.Slice(receivedNonce, ...)`: the slice in ascending order. -/
def sortNonces (l : List Nat) : List Nat := l.insertionSort (· ≤ ·)

/-- The block "Verify each account's Nonce". Every failure returns the same error, so the
order in which `range` visits the map does not matter. -/
def checkNonces (blk : Block) (b : Book) : Except Stop Unit :=
  if blk.Header.height > 0 then
    if b.confirmedNonceMap.entries.all
        (fun e => nonceLoop e.2 (sortNonces (b.received e.1)) 0) then .ok ()
    else .error (.error { cause := .ErrActionNonce,
                          context := ["the nonce of the action is invalid"] })
  else .ok ()

/-- The part of `verifyActions` before the nonces are verified: the three loops, the two
counts, the witness and the secret proposals. -/
def collectActions (env : Env) (sf : Factory) (validatorAddr : String) (blk : Block)
    (containCoinbase : Bool) : Except Stop Book :=
  match forEach (transferStep env sf blk) blk.Transfers Book.empty with
  | .error e => .error e
  | .ok b1 =>
    match forEach (voteStep env sf blk) blk.Votes b1 with
    | .error e => .error e
    | .ok b2 =>
      match forEach (executionStep env sf blk) blk.Executions b2 with
      | .error e => .error e
      | .ok b3 =>
        match checkCounts blk containCoinbase b3 with
        | .error e => .error e
        | .ok _ =>
          match witnessStep env sf blk b3 with
          | .error e => .error e
          | .ok b4 => forEach (proposalStep env sf validatorAddr blk) blk.SecretProposals b4

/-- The method `validator.verifyActions`. -/
def verifyActions (env : Env) (sf : Factory) (validatorAddr : String) (blk : Block)
    (containCoinbase : Bool) : Except Stop Unit :=
  match collectActions env sf validatorAddr blk containCoinbase with
  | .error e => .error e
  | .ok b => checkNonces blk b

/-- The function `verifyHeightAndHash`; `tipHeight+1` is a `uint64` sum. -/
def verifyHeightAndHash (blk : Option Block) (tipHeight : Nat) (tipHash : Bytes) :
    Except Stop Unit :=
  match blk with
  | none => .error (.error { cause := .ErrInvalidBlock, context := [] })
  | some blk =>
    if blk.Header.height ≠ 0 ∧ blk.Header.height ≠ (tipHeight + 1) % ActPool.u64 then
      .error (.error { cause := .ErrInvalidTipHeight, context := ["wrong block height"] })
    else if blk.Header.prevBlockHash ≠ tipHash then
      .error (.error { cause := .ErrInvalidBlock, context := ["wrong prev hash"] })
    else .ok ()

/-- The function `verifySigAndRoot`. -/
def verifySigAndRoot (env : Env) (blk : Block) : Except Stop Unit :=
  if blk.Header.height > 0 ∧
      ¬ env.ecVerify blk.Header.Pubkey (env.HashBlock blk) blk.Header.blockSig then
    .error (.error { cause := .ErrInvalidBlock,
                     context := ["failed to verify block's signature with public key"] })
  else if blk.Header.txRoot ≠ env.TxRoot blk then
    .error (.error { cause := .ErrInvalidBlock, context := ["wrong tx hash"] })
  else .ok ()

/-- The errors of an early phase are wrapped once more by `Validate`. -/
def wrapStop (r : Except Stop Unit) (msg : String) : Except Stop Unit :=
  match r with
  | .error (.error e) => .error (.error (wrap e msg))
  | other => other

/-- The method `validator.Validate`. A nil block fails the first check, so the later
phases run on a block. -/
def Validate (env : Env) (v : validator) (blk : Option Block) (tipHeight : Nat)
    (tipHash : Bytes) (containCoinbase : Bool) : Except Stop Unit :=
  match wrapStop (verifyHeightAndHash blk tipHeight tipHash)
      "failed to verify block's height and hash" with
  | .error e => .error e
  | .ok _ =>
    match blk with
    | none => .error .nilPointer
    | some blk =>
      if env.IsDummyBlock blk then .ok ()
      else
        match wrapStop (verifySigAndRoot env blk)
            "failed to verify block's signature and merkle root" with
        | .error e => .error e
        | .ok _ =>
          match v.sf with
          | some sf => verifyActions env sf v.validatorAddr blk containCoinbase
          | none => .ok ()

/-! ### Notions used to state the properties of the validator -/

/-- The pairs (sender, nonce) of the actions of a block whose nonces are recorded at a
height above 0, in the order in which `verifyActions` meets them: the transfers that are
not coinbase transfers, the votes, the executions, the secret witness and the secret
proposals. -/
def senderNonces (blk : Block) : List (String × Nat) :=
  ((blk.Transfers.filter (fun t => !t.IsCoinbase)).map (fun t => (t.Sender, t.Nonce))) ++
  (blk.Votes.map (fun v => (v.Voter, v.Nonce))) ++
  (blk.Executions.map (fun e => (e.Executor, e.Nonce))) ++
  (match blk.SecretWitness with
    | none => []
    | some sw => [(sw.SrcAddr, sw.Nonce)]) ++
  (blk.SecretProposals.map (fun sp => (sp.SrcAddr, sp.Nonce)))

/-- The nonces of the actions of one sender, in the order of `senderNonces`. -/
def noncesOf (l : List (String × Nat)) (s : String) : List Nat :=
  (l.filter (fun p => decide (p.1 = s))).map Prod.snd

/-- The two maps of `verifyActions` agree with a list of recorded (sender, nonce) pairs:
the received nonces of every sender are its nonces in the list, in order, and the
confirmed nonce of every sender of the list is the one the factory gives. -/
structure BookInv (sf : Factory) (b : Book) (l : List (String × Nat)) : Prop where
  received : ∀ s, b.received s = noncesOf l s
  confirmed : ∀ s c, b.confirmedNonceMap.lookup s = some c → sf s = .ok c
  seen : ∀ s, b.confirmedNonceMap.lookup s = none → noncesOf l s = []
  fresh : ∀ s, noncesOf l s = [] → b.confirmedNonceMap.lookup s = none

/-- The nonces `c+1, c+2, ..., c+k` as `uint64` values. -/
def consecutiveFrom (c k : Nat) : List Nat :=
  (List.range k).map (fun i => (c + (i + 1)) % ActPool.u64)

/-- Collaborators for the scenarios: every address is valid, every signature verifies,
no block is a dummy block, the computed transaction root is empty. -/
def scenarioEnv : Env :=
  { GasLimit := 1000000, EmptyAddress := "", GetPubkeyHash := fun _ => none,
    ecVerify := fun _ _ _ => true, producerAddress := fun _ _ => "producer",
    CreateID := fun _ => [], ShareVerify := fun _ _ _ => (true, none),
    IsDummyBlock := fun _ => false, HashBlock := fun _ => [], TxRoot := fun _ => [] }

/-- A factory for the scenarios: the confirmed nonce of the sender `S` is 3, that of every
other address is 0. -/
def scenarioFactory : Factory := fun s => if s = "S" then .ok 3 else .ok 0

/-- A validator for the scenarios, with the factory attached. -/
def scenarioValidator : validator := { sf := some scenarioFactory, validatorAddr := "V" }

/-- A transfer of the sender `S` with a given nonce. -/
def scenarioTransfer (nonce : Nat) : Transfer :=
  { IsCoinbase := false, Sender := "S", Recipient := "R", GasLimit := 10,
    IntrinsicGas := (10, none), Nonce := nonce, SrcPubkey := [], Hash := [], Signature := [] }

/-- The block of the scenario "block rejection on non-consecutive nonces": height 1 and
two transfers of `S` with the nonces 4 and 6. -/
def scenarioBlockGap : Block :=
  { Header := { height := 1, prevBlockHash := [], txRoot := [], Pubkey := [], blockSig := [],
                chainID := 1 },
    Transfers := [scenarioTransfer 4, scenarioTransfer 6], Votes := [], Executions := [],
    SecretProposals := [], SecretWitness := none }

/-- A block of height 1 with two transfers of `S` with the nonces 5 and 4. -/
def scenarioBlockGood : Block :=
  { Header := { height := 1, prevBlockHash := [], txRoot := [], Pubkey := [], blockSig := [],
                chainID := 1 },
    Transfers := [scenarioTransfer 5, scenarioTransfer 4], Votes := [], Executions := [],
    SecretProposals := [], SecretWitness := none }

/-- A block of height 0 with one secret proposal of `S`, with the nonce 5, addressed to
another validator. -/
def scenarioBlockGenesis : Block :=
  { Header := { height := 0, prevBlockHash := [], txRoot := [], Pubkey := [], blockSig := [],
                chainID := 1 },
    Transfers := [], Votes := [], Executions := [],
    SecretProposals := [{ SrcAddr := "S", DstAddr := "W", Nonce := 5, Secret := [] }],
    SecretWitness := none }

/-- The three loops of `verifyActions`, over the transfers, the votes and the executions:
the checks made action by action before `wg.Wait()`. -/
def actionLoops (env : Env) (sf : Factory) (blk : Block) : Except Stop Book :=
  match forEach (transferStep env sf blk) blk.Transfers Book.empty with
  | .error e => .error e
  | .ok b1 =>
    match forEach (voteStep env sf blk) blk.Votes b1 with
    | .error e => .error e
    | .ok b2 => forEach (executionStep env sf blk) blk.Executions b2

/-- The part of `verifyActions` before the loop over the secret proposals: the three
loops, the two counts and the witness. -/
def beforeProposals (env : Env) (sf : Factory) (blk : Block) (containCoinbase : Bool) :
    Except Stop Book :=
  match actionLoops env sf blk with
  | .error e => .error e
  | .ok b3 =>
    match checkCounts blk containCoinbase b3 with
    | .error e => .error e
    | .ok _ => witnessStep env sf blk b3

/-- A coinbase transfer whose recipient is the address made of the chain id and the
public key of the header. -/
def isValidCoinbase (env : Env) (blk : Block) (tsf : Transfer) : Bool :=
  tsf.IsCoinbase &&
    decide (env.producerAddress blk.Header.chainID blk.Header.Pubkey = tsf.Recipient)

/-- The number of coinbase transfers of a block whose recipient is the address made of
the chain id and the public key of the header. -/
def validCoinbases (env : Env) (blk : Block) : Nat :=
  blk.Transfers.countP (isValidCoinbase env blk)

/-- The signature verifies over the hash under the public key: `action.Verify` returns
nil. -/
def signatureOK (env : Env) (srcPubkey hash signature : Bytes) : Bool :=
  (Verify env srcPubkey hash signature).isNone

/-- The number of transfers that are not coinbase transfers, votes and executions of a
block whose signature verifies. -/
def verifiedSignatures (env : Env) (blk : Block) : Nat :=
  blk.Transfers.countP
      (fun t => !t.IsCoinbase && signatureOK env t.SrcPubkey t.Hash t.Signature) +
    blk.Votes.countP (fun v => signatureOK env v.SrcPubkey v.Hash v.Signature) +
    blk.Executions.countP (fun e => signatureOK env e.SrcPubkey e.Hash e.Signature)

/-- Collaborators for the scenarios that take every block for a dummy block and verify no
signature. -/
def scenarioEnvDummy : Env :=
  { scenarioEnv with IsDummyBlock := fun _ => true, ecVerify := fun _ _ _ => false }

/-- Collaborators for the scenarios whose share verification fails without an error of
its own. -/
def scenarioEnvReject : Env :=
  { scenarioEnv with ShareVerify := fun _ _ _ => (false, none) }

/-- A validator for the scenarios without a factory. -/
def scenarioValidatorBare : validator := { sf := none, validatorAddr := "V" }

/-- A block of height 1 with one transfer of `S`, with the nonce 4, whose gas limit is above
the limit of the scenarios. -/
def scenarioBlockOverGas : Block :=
  { Header := { height := 1, prevBlockHash := [], txRoot := [], Pubkey := [], blockSig := [],
                chainID := 1 },
    Transfers := [{ scenarioTransfer 4 with GasLimit := 2000000 }], Votes := [],
    Executions := [], SecretProposals := [], SecretWitness := none }

/-- A block of height 0 with one execution whose gas limit is above the limit of the
scenarios. -/
def scenarioBlockGenesisExecution : Block :=
  { Header := { height := 0, prevBlockHash := [], txRoot := [], Pubkey := [], blockSig := [],
                chainID := 1 },
    Transfers := [], Votes := [],
    Executions := [{ Executor := "S", Contract := "", GasLimit := 2000000,
                     IntrinsicGas := (10, none), Amount := 0, Nonce := 1, SrcPubkey := [],
                     Hash := [], Signature := [] }],
    SecretProposals := [], SecretWitness := none }

/-- A block of height 1 with one secret proposal of `S`, with the nonce 4, addressed to the
validator of the scenarios, and a secret witness of `T`, with the nonce 1. -/
def scenarioBlockProposal : Block :=
  { Header := { height := 1, prevBlockHash := [], txRoot := [], Pubkey := [], blockSig := [],
                chainID := 1 },
    Transfers := [], Votes := [], Executions := [],
    SecretProposals := [{ SrcAddr := "S", DstAddr := "V", Nonce := 4, Secret := [] }],
    SecretWitness := some { SrcAddr := "T", Nonce := 1, Witness := [] } }

/-- The block `scenarioBlockProposal` without its secret witness. -/
def scenarioBlockNoWitness : Block :=
  { scenarioBlockProposal with SecretWitness := none }

end Blockchain

namespace Blockchain

/-! ## Definitions: the action `StopSubChain` (`blockchain/action/stopsubchain.go`) -/

/-- The method `Bytes` of `big.Int` (Go standard library): the absolute value as a
big-endian byte slice without leading zero bytes; the empty slice for zero. -/
def bigBytes (x : Int) : Bytes := (Nat.digits 256 x.natAbs).reverse

/-- The method `SetBytes` of `big.Int` (Go standard library): the unsigned integer that a
big-endian byte slice stands for. -/
def bigSetBytes (buf : Bytes) : Int := (Nat.ofDigits 256 buf.reverse : Nat)

/-- The built-in `copy(dst, src)` on byte slices: the first `min(len(dst), len(src))` bytes
of `dst` are replaced by those of `src`. -/
def copyBytes (dst src : Bytes) : Bytes := src.take dst.length ++ dst.drop src.length

/-- The struct `action` (`action.go`). A Go string is a sequence of bytes; `srcPubkey` is a
byte array of the fixed length of `keypair.PublicKey`; `gasPrice` is a pointer that may be
nil; a nil slice and an empty slice are the same list. -/
structure action where
  version : Nat
  nonce : Nat
  srcAddr : Bytes
  srcPubkey : Bytes
  dstAddr : Bytes
  gasLimit : Nat
  gasPrice : Option Int
  signature : Bytes
deriving DecidableEq, Repr

/-- The struct `StopSubChain`, which embeds `action`. -/
structure StopSubChain extends action where
  chainID : Nat
  stopHeight : Nat
deriving DecidableEq, Repr

/-- The message `iproto.StopSubChainPb`. -/
structure StopSubChainPb where
  ChainID : Nat
  StopHeight : Nat
  Owner : Bytes
  OwnerPublicKey : Bytes
  SubChainAddress : Bytes
deriving DecidableEq, Repr

/-- The message `iproto.ActionPb`, as far as `StopSubChain` reads and writes it;
`StopSubChain` is what `GetStopSubChain()` returns, nil when the message carries another
action or none. -/
structure ActionPb where
  StopSubChain : Option StopSubChainPb
  Version : Nat
  Nonce : Nat
  GasLimit : Nat
  GasPrice : Bytes
  Signature : Bytes
deriving DecidableEq, Repr

/-- The collaborators of `stopsubchain.go` whose code is outside the file:
`byteutil.Uint32ToBytes`, `byteutil.Uint64ToBytes`, `blake2b.Sum256`, `proto.Marshal` and
`proto.Unmarshal` (each with its error, if any). -/
structure ActionEnv where
  Uint32ToBytes : Nat → Bytes
  Uint64ToBytes : Nat → Bytes
  Sum256 : Bytes → Bytes
  Marshal : ActionPb → Bytes × Option String
  Unmarshal : Bytes → Except String ActionPb

/-- The zero value of `StopSubChain` with a public key of a given length: what
`&StopSubChain{}` is. -/
def emptyStopSubChain (keyLength : Nat) : StopSubChain :=
  { version := 0, nonce := 0, srcAddr := [], srcPubkey := List.replicate keyLength 0,
    dstAddr := [], gasLimit := 0, gasPrice := none, signature := [], chainID := 0,
    stopHeight := 0 }

/-- The method `StopSubChain.ByteStream`. -/
def ByteStream (env : ActionEnv) (ssc : StopSubChain) : Bytes :=
  let stream := env.Uint32ToBytes ssc.version
  let stream := stream ++ env.Uint64ToBytes ssc.nonce
  let stream := stream ++ env.Uint64ToBytes ssc.gasLimit
  let stream := stream ++ ssc.srcPubkey
  let stream := stream ++ ssc.srcAddr
  let stream := stream ++ ssc.dstAddr
  let stream :=
    match ssc.gasPrice with
    | some p => if (bigBytes p).length > 0 then stream ++ bigBytes p else stream
    | none => stream
  let stream := stream ++ env.Uint32ToBytes ssc.chainID
  stream ++ env.Uint64ToBytes ssc.stopHeight

/-- The method `StopSubChain.ConvertToActionPb`. -/
def ConvertToActionPb (ssc : StopSubChain) : ActionPb :=
  let pbSSC : ActionPb :=
    { StopSubChain := some
        { ChainID := ssc.chainID, StopHeight := ssc.stopHeight, Owner := ssc.srcAddr,
          OwnerPublicKey := ssc.srcPubkey, SubChainAddress := ssc.dstAddr },
      Version := ssc.version, Nonce := ssc.nonce, GasLimit := ssc.gasLimit, GasPrice := [],
      Signature := ssc.signature }
  match ssc.gasPrice with
  | some p => { pbSSC with GasPrice := bigBytes p }
  | none => pbSSC

/-- The method `StopSubChain.Serialize`. -/
def Serialize (env : ActionEnv) (ssc : StopSubChain) : Bytes × Option String :=
  env.Marshal (ConvertToActionPb ssc)

/-- The method `StopSubChain.ConvertFromActionPb`: the receiver after the call. -/
def ConvertFromActionPb (ssc : StopSubChain) (pbAct : ActionPb) : StopSubChain :=
  let ssc := { ssc with version := pbAct.Version }
  let ssc := { ssc with nonce := pbAct.Nonce }
  let ssc := { ssc with gasLimit := pbAct.GasLimit }
  let ssc :=
    match ssc.gasPrice with
    | none => { ssc with gasPrice := some 0 }
    | some _ => ssc
  let ssc :=
    if pbAct.GasPrice.length > 0 then { ssc with gasPrice := some (bigSetBytes pbAct.GasPrice) }
    else ssc
  let ssc := { ssc with signature := pbAct.Signature }
  match pbAct.StopSubChain with
  | some pbSSC =>
    { ssc with
      chainID := pbSSC.ChainID
      stopHeight := pbSSC.StopHeight
      srcAddr := pbSSC.Owner
      srcPubkey := copyBytes ssc.srcPubkey pbSSC.OwnerPublicKey
      dstAddr := pbSSC.SubChainAddress }
  | none => ssc

/-- The method `StopSubChain.Deserialize`: the receiver after the call and the error
returned. -/
def Deserialize (env : ActionEnv) (ssc : StopSubChain) (buf : Bytes) :
    StopSubChain × Option String :=
  match env.Unmarshal buf with
  | .error err => (ssc, some err)
  | .ok pbSSC => (ConvertFromActionPb ssc pbSSC, none)

/-- The method `StopSubChain.Hash`. -/
def Hash (env : ActionEnv) (ssc : StopSubChain) : Bytes := env.Sum256 (ByteStream env ssc)

/-- A `StopSubChain` for the scenarios: a public key of 3 bytes, the gas price 258. -/
def scenarioStop : StopSubChain :=
  { version := 1, nonce := 7, srcAddr := [97, 98], srcPubkey := [4, 5, 6], dstAddr := [99],
    gasLimit := 1000, gasPrice := some 258, signature := [9, 9], chainID := 2,
    stopHeight := 300 }

/-- Collaborators for the scenarios: integers as big-endian bytes of the fixed width, and
a marshalling that knows the message of `scenarioStop` alone. -/
def scenarioActionEnv : ActionEnv :=
  { Uint32ToBytes := fun n => (List.range 4).reverse.map (fun i => n / 256 ^ i % 256),
    Uint64ToBytes := fun n => (List.range 8).reverse.map (fun i => n / 256 ^ i % 256),
    Sum256 := fun b => b,
    Marshal := fun _ => ([1], none),
    Unmarshal := fun _ => .ok (ConvertToActionPb scenarioStop) }

/-- A factory for the scenarios that knows the sender `S` alone. -/
def scenarioFactoryStrict : Factory := fun s => if s = "S" then .ok 3 else .error "no account"

/-- A validator for the scenarios with the factory that knows the sender `S` alone. -/
def scenarioValidatorStrict : validator :=
  { sf := some scenarioFactoryStrict, validatorAddr := "V" }

/-- A block of height 1 with one execution of the executor `X`, whose gas limit is above the
limit of the scenarios. -/
def scenarioBlockExecutionOverGas : Block :=
  { Header := { height := 1, prevBlockHash := [], txRoot := [], Pubkey := [], blockSig := [],
                chainID := 1 },
    Transfers := [], Votes := [],
    Executions := [{ Executor := "X", Contract := "", GasLimit := 2000000,
                     IntrinsicGas := (10, none), Amount := 0, Nonce := 1, SrcPubkey := [],
                     Hash := [], Signature := [] }],
    SecretProposals := [], SecretWitness := none }

/-- The coinbase transfer to the producer of the scenarios. -/
def scenarioCoinbase : Transfer :=
  { IsCoinbase := true, Sender := "", Recipient := "producer", GasLimit := 0,
    IntrinsicGas := (0, none), Nonce := 0, SrcPubkey := [], Hash := [], Signature := [] }

/-- A block of height 1 with the coinbase transfer to the producer of the scenarios and one
transfer of `S` with the nonce 4. -/
def scenarioBlockCoinbase : Block :=
  { Header := { height := 1, prevBlockHash := [], txRoot := [], Pubkey := [], blockSig := [],
                chainID := 1 },
    Transfers := [scenarioCoinbase, scenarioTransfer 4],
    Votes := [], Executions := [], SecretProposals := [], SecretWitness := none }

/-! ### `Sign` (`blockchain/action/action.go`) -/

/-- The collaborators of `Sign` whose code is outside `action.go`:
`address.IotxAddressToAddress` followed by `Payload()` (the payload of the address, or the
error of the conversion), `crypto.EC283.NewPubKey`, `keypair.HashPubKey` and
`crypto.EC283.Sign`, whose result may be nil. -/
structure SignEnv where
  IotxAddressToAddress : Bytes → Except String Bytes
  NewPubKey : Bytes → Except String Bytes
  HashPubKey : Bytes → Bytes
  ecSign : Bytes → Bytes → Option Bytes

/-- The errors that `Sign` returns: the error of the address conversion, the error of the
key derivation, and `ErrAction` with one of its two messages. -/
inductive SignError where
  | addressFormat (err : String)
  | publicKey (err : String)
  | keyMismatch
  | signFailed
deriving DecidableEq, Repr

/-- The function `Sign` on a `StopSubChain`: the action after the call and the error
returned. -/
def Sign (env : ActionEnv) (senv : SignEnv) (act : StopSubChain) (sk : Bytes) :
    StopSubChain × Option SignError :=
  match senv.IotxAddressToAddress act.srcAddr with
  | .error err => (act, some (.addressFormat err))
  | .ok srcAddr =>
    match senv.NewPubKey sk with
    | .error err => (act, some (.publicKey err))
    | .ok pk =>
      let pkHash := senv.HashPubKey pk
      if srcAddr ≠ pkHash then (act, some .keyMismatch)
      else
        let act := { act with srcPubkey := pk }
        let hash := Hash env act
        match senv.ecSign sk hash with
        | none => ({ act with signature := [] }, some .signFailed)
        | some signature => ({ act with signature := signature }, none)

/-- The integers of a `StopSubChain` are in the ranges of their Go types, `uint32` and
`uint64`. -/
def inRange (ssc : StopSubChain) : Prop :=
  ssc.version < 2 ^ 32 ∧ ssc.nonce < 2 ^ 64 ∧ ssc.gasLimit < 2 ^ 64 ∧ ssc.chainID < 2 ^ 32 ∧
    ssc.stopHeight < 2 ^ 64

/-- Collaborators of `Sign` for the scenarios: every address has the payload 1, every
public key is the key of `scenarioStop` and has the hash 1, the signature of a hash is the
hash. -/
def scenarioSignEnv : SignEnv :=
  { IotxAddressToAddress := fun _ => .ok [1], NewPubKey := fun _ => .ok [4, 5, 6],
    HashPubKey := fun _ => [1], ecSign := fun _ h => some h }

/-- The action `scenarioStop` with the last byte of its source address moved to the front
of its destination address. -/
def scenarioStopShifted : StopSubChain :=
  { scenarioStop with srcAddr := [97], dstAddr := [98, 99] }

/-- The action `scenarioStop` with the first byte of its gas price moved to the end of its
destination address: the gas price 2. -/
def scenarioStopPrice : StopSubChain :=
  { scenarioStop with dstAddr := [99, 1], gasPrice := some 2 }

/-- The action `scenarioStop` with the opposite gas price. -/
def scenarioStopDebt : StopSubChain := { scenarioStop with gasPrice := some (-258) }

/-- The message of `scenarioStop`. -/
def scenarioPb : ActionPb :=
  { StopSubChain := some
      { ChainID := 2, StopHeight := 300, Owner := [97, 98], OwnerPublicKey := [4, 5, 6],
        SubChainAddress := [99] },
    Version := 1, Nonce := 7, GasLimit := 1000, GasPrice := [1, 2], Signature := [9, 9] }

/-- A message without a gas price and without a `StopSubChain`. -/
def scenarioPbBare : ActionPb :=
  { StopSubChain := none, Version := 1, Nonce := 7, GasLimit := 1000, GasPrice := [],
    Signature := [9, 9] }

/-- The message of `scenarioStop` with a public key of one byte. -/
def scenarioPbShortKey : ActionPb :=
  { StopSubChain := some
      { ChainID := 2, StopHeight := 300, Owner := [97, 98], OwnerPublicKey := [7],
        SubChainAddress := [99] },
    Version := 1, Nonce := 7, GasLimit := 1000, GasPrice := [1, 2], Signature := [9, 9] }

/-! ### The cost of a `StopSubChain` and the queue -/

/-- The constructor `NewStopSubChain`; `version.ProtocolVersion` is a constant outside the
file, and the public key is the zero array of a given length. The gas price may be nil. -/
def NewStopSubChain (protocolVersion keyLength : Nat) (senderAddress : Bytes) (nonce : Nat)
    (chainID : Nat) (chainAddress : Bytes) (stopHeight gasLimit : Nat)
    (gasPrice : Option Int) : StopSubChain :=
  { version := protocolVersion, nonce := nonce, srcAddr := senderAddress,
    srcPubkey := List.replicate keyLength 0, dstAddr := chainAddress, gasLimit := gasLimit,
    gasPrice := gasPrice, signature := [], chainID := chainID, stopHeight := stopHeight }

/-- The method `StopSubChain.Cost`; `StopSubChainIntrinsicGas` is a constant outside the
file, and `IntrinsicGas` returns it without an error. `big.Int.Mul` reads its argument, the
gas price: on a nil gas price the call panics on a nil pointer. -/
def Cost (stopSubChainIntrinsicGas : Nat) (ssc : StopSubChain) : Except Stop Int :=
  match ssc.gasPrice with
  | none => .error .nilPointer
  | some gasPrice => .ok (gasPrice * stopSubChainIntrinsicGas)

/-- The method `enoughBalance` of the queue when the action is a `StopSubChain`: the call
`act.Cost()` comes first, and what follows is `enoughBalance` on the cost it returned. -/
def enoughBalanceOf (stopSubChainIntrinsicGas : Nat) (q : ActPool.actQueue)
    (act : StopSubChain) (updateBalance : Bool) : Except Stop (ActPool.actQueue × Bool) :=
  match Cost stopSubChainIntrinsicGas act with
  | .error e => .error e
  | .ok cost => .ok (ActPool.enoughBalance q ⟨act.nonce, cost, 0⟩ updateBalance)

/-- A `StopSubChain` with the nonce 1 that `NewStopSubChain` makes from a nil gas price. -/
def scenarioStopFree : StopSubChain :=
  NewStopSubChain 1 3 [97, 98] 1 2 [99] 300 1000 none

/-! ### A marshalling for the scenarios -/

/-- The fields of a message as one tuple. -/
def pbFields (m : ActionPb) :
    Option (Nat × Nat × Bytes × Bytes × Bytes) × Nat × Nat × Nat × Bytes × Bytes :=
  (m.StopSubChain.map
      (fun s => (s.ChainID, s.StopHeight, s.Owner, s.OwnerPublicKey, s.SubChainAddress)),
    m.Version, m.Nonce, m.GasLimit, m.GasPrice, m.Signature)

/-- The message that has given fields. -/
def pbOfFields
    (t : Option (Nat × Nat × Bytes × Bytes × Bytes) × Nat × Nat × Nat × Bytes × Bytes) :
    ActionPb :=
  { StopSubChain := t.1.map (fun s =>
      { ChainID := s.1, StopHeight := s.2.1, Owner := s.2.2.1, OwnerPublicKey := s.2.2.2.1,
        SubChainAddress := s.2.2.2.2 }),
    Version := t.2.1, Nonce := t.2.2.1, GasLimit := t.2.2.2.1, GasPrice := t.2.2.2.2.1,
    Signature := t.2.2.2.2.2 }

/-- A marshalling for the scenarios: a message becomes one number, the code of its
fields. -/
def scenarioMarshal (m : ActionPb) : Bytes × Option String :=
  ([Encodable.encode (pbFields m)], none)

/-- The unmarshalling for the scenarios: the message whose fields have the given code. -/
def scenarioUnmarshal (buf : Bytes) : Except String ActionPb :=
  match buf with
  | [n] =>
    match (Encodable.decode n :
        Option (Option (Nat × Nat × Bytes × Bytes × Bytes) ×
          Nat × Nat × Nat × Bytes × Bytes)) with
    | some t => .ok (pbOfFields t)
    | none => .error "no message"
  | _ => .error "no message"

/-- Collaborators for the scenarios with a marshalling that `scenarioUnmarshal` inverts on
every message. -/
def scenarioCodecEnv : ActionEnv :=
  { scenarioActionEnv with Marshal := scenarioMarshal, Unmarshal := scenarioUnmarshal }

end Blockchain

namespace ActPool

/-! ## Lemmas: `container/heap` on a `noncePriorityQueue` -/

/-! ### Lemmas: `Swap` -/

theorem getD_set_eq (l : List Nat) (i j a : Nat) :
    (l.set i a).getD j 0 = if i = j ∧ i < l.length then a else l.getD j 0 := by
  rw [List.getD_eq_getElem?_getD, List.getD_eq_getElem?_getD, List.getElem?_set]
  by_cases hij : i = j
  · subst hij
    by_cases hi : i < l.length
    · simp [hi]
    · simp [hi, List.getElem?_eq_none (not_lt.mp hi)]
  · simp [hij]

theorem length_swap (h : List Nat) (i j : Nat) : (swap h i j).length = h.length := by
  simp [swap]

theorem getD_swap (h : List Nat) (i j c : Nat) (hi : i < h.length) (hj : j < h.length) :
    (swap h i j).getD c 0 =
      if c = j then h.getD i 0 else if c = i then h.getD j 0 else h.getD c 0 := by
  unfold swap
  rw [getD_set_eq, getD_set_eq, List.length_set]
  by_cases h1 : c = j
  · subst h1; simp [hj]
  · by_cases h2 : c = i
    · subst h2
      have h3 : ¬ j = c := fun e => h1 e.symm
      simp [hi, h1, h3]
    · have h3 : ¬ j = c := fun e => h1 e.symm
      have h4 : ¬ i = c := fun e => h2 e.symm
      simp [h1, h2, h3, h4]

theorem count_set_add (x a : Nat) : ∀ (l : List Nat) (i : Nat), i < l.length →
    (l.set i a).count x + (if l.getD i 0 = x then 1 else 0) =
      l.count x + (if a = x then 1 else 0)
  | [], i, hi => by simp at hi
  | b :: t, 0, _ => by
    simp only [List.set_cons_zero, List.count_cons, List.getD_cons_zero, beq_iff_eq]
    omega
  | b :: t, i + 1, hi => by
    have ih := count_set_add x a t i (by simpa using hi)
    simp only [List.set_cons_succ, List.count_cons, List.getD_cons_succ, beq_iff_eq]
    omega

theorem swap_perm (h : List Nat) (i j : Nat) (hi : i < h.length) (hj : j < h.length) :
    (swap h i j).Perm h := by
  rw [List.perm_iff_count]
  intro x
  have h1 := count_set_add x (h.getD j 0) h i hi
  have h2 := count_set_add x (h.getD i 0) (h.set i (h.getD j 0)) j (by simpa using hj)
  have h3 : (h.set i (h.getD j 0)).getD j 0 = h.getD j 0 := by
    rw [getD_set_eq]; split
    · rfl
    · rfl
  rw [h3] at h2
  unfold swap
  omega

/-! ### Lemmas: `heap.up` and `heap.down` rearrange the slice -/

theorem upLoop_perm (fuel : Nat) : ∀ (h : List Nat) (j : Nat), j < h.length →
    (upLoop fuel h j).Perm h := by
  induction fuel with
  | zero => intro h j _; exact List.Perm.refl _
  | succ f ih =>
    intro h j hj
    unfold upLoop
    simp only
    split
    · exact List.Perm.refl _
    · have hi : (j - 1) / 2 < h.length := by omega
      exact (ih _ _ (by rw [length_swap]; exact hi)).trans (swap_perm h _ _ hi hj)

theorem downLoop_perm (fuel : Nat) : ∀ (h : List Nat) (i n : Nat), n ≤ h.length →
    (downLoop fuel h i n).Perm h := by
  induction fuel with
  | zero => intro h i n _; exact List.Perm.refl _
  | succ f ih =>
    intro h i n hn
    unfold downLoop
    simp only
    split
    · exact List.Perm.refl _
    · rename_i hlt
      by_cases hc : 2 * i + 1 + 1 < n ∧ less h (2 * i + 1 + 1) (2 * i + 1) = true
      · simp only [hc, and_self, if_true]
        split
        · exact (ih _ _ n (by rw [length_swap]; exact hn)).trans
            (swap_perm h _ _ (by omega) (by omega))
        · exact List.Perm.refl _
      · simp only [hc, if_false]
        split
        · exact (ih _ _ n (by rw [length_swap]; exact hn)).trans
            (swap_perm h _ _ (by omega) (by omega))
        · exact List.Perm.refl _

theorem heapPush_perm (h : List Nat) (x : Nat) : (heapPush h x).Perm (x :: h) := by
  unfold heapPush up
  refine (upLoop_perm _ _ _ (by simp)).trans ?_
  exact (List.perm_append_comm : (h ++ [x]).Perm ([x] ++ h))

theorem less_iff (h : List Nat) (i j : Nat) : less h i j = true ↔ h.getD i 0 < h.getD j 0 := by
  simp [less]

theorem upLoop_length (fuel : Nat) : ∀ (h : List Nat) (j : Nat),
    (upLoop fuel h j).length = h.length := by
  induction fuel with
  | zero => intro h j; rfl
  | succ f ih =>
    intro h j
    unfold upLoop
    simp only
    split
    · rfl
    · rw [ih, length_swap]

theorem downLoop_length (fuel : Nat) : ∀ (h : List Nat) (i n : Nat),
    (downLoop fuel h i n).length = h.length := by
  induction fuel with
  | zero => intro h i n; rfl
  | succ f ih =>
    intro h i n
    unfold downLoop
    simp only
    split
    · rfl
    · by_cases hcc : 2 * i + 1 + 1 < n ∧ less h (2 * i + 1 + 1) (2 * i + 1) = true
      · simp only [hcc, and_self, if_true]
        split
        · rw [ih, length_swap]
        · rfl
      · simp only [hcc, if_false]
        split
        · rw [ih, length_swap]
        · rfl

/-- The loop of `heap.up` restores the heap property when the only edge that may violate
it is the one above `j`. -/
theorem upLoop_heap (fuel : Nat) : ∀ (h : List Nat) (j : Nat), j < fuel → j < h.length →
    (∀ c, 0 < c → c < h.length → c ≠ j → h.getD ((c - 1) / 2) 0 ≤ h.getD c 0) →
    (∀ c, 0 < c → c < h.length → (c - 1) / 2 = j → 0 < j →
      h.getD ((j - 1) / 2) 0 ≤ h.getD c 0) →
    IsHeap (upLoop fuel h j) := by
  induction fuel with
  | zero => intro h j hf; omega
  | succ f ih =>
    intro h j hf hj ha hb
    unfold upLoop
    simp only
    split
    · rename_i hstop
      intro c hc0 hcl
      by_cases hcj : c = j
      · subst hcj
        rcases hstop with h0 | hnl
        · omega
        · rw [less_iff] at hnl; omega
      · exact ha c hc0 hcl hcj
    · rename_i hgo
      rw [not_or, not_not, less_iff] at hgo
      obtain ⟨hne, hlt⟩ := hgo
      have hi : (j - 1) / 2 < h.length := by omega
      have hj0 : 0 < j := by omega
      apply ih _ _ (by omega) (by rw [length_swap]; exact hi)
      · intro c hc0 hcl hci
        rw [length_swap] at hcl
        rw [getD_swap h _ _ _ hi hj, getD_swap h _ _ _ hi hj]
        by_cases hcj : c = j
        · rw [if_pos hcj, if_neg (by omega), if_pos (by rw [hcj])]
          omega
        · rw [if_neg hcj, if_neg hci]
          by_cases hp1 : (c - 1) / 2 = j
          · rw [if_pos hp1]
            exact hb c hc0 hcl hp1 hj0
          · rw [if_neg hp1]
            by_cases hp2 : (c - 1) / 2 = (j - 1) / 2
            · rw [if_pos hp2]
              have := ha c hc0 hcl hcj
              rw [hp2] at this
              omega
            · rw [if_neg hp2]
              exact ha c hc0 hcl hcj
      · intro c hc0 hcl hpc hi0
        rw [length_swap] at hcl
        rw [getD_swap h _ _ _ hi hj, getD_swap h _ _ _ hi hj]
        have hgp := ha ((j - 1) / 2) hi0 hi (by omega)
        rw [if_neg (by omega), if_neg (by omega)]
        by_cases hcj : c = j
        · rw [if_pos hcj]; exact hgp
        · rw [if_neg hcj, if_neg (by omega)]
          have := ha c hc0 hcl hcj
          rw [hpc] at this
          omega

/-- The loop of `heap.down` restores the heap property on the first `n` elements when the
only edges that may violate it are the ones below `i`. -/
theorem downLoop_heap (fuel : Nat) : ∀ (h : List Nat) (i n : Nat), n ≤ h.length →
    n ≤ i + fuel →
    (∀ c, 0 < c → c < n → (c - 1) / 2 ≠ i → h.getD ((c - 1) / 2) 0 ≤ h.getD c 0) →
    (∀ c, 0 < c → c < n → (c - 1) / 2 = i → 0 < i → h.getD ((i - 1) / 2) 0 ≤ h.getD c 0) →
    HeapUpTo (downLoop fuel h i n) n := by
  induction fuel with
  | zero =>
    intro h i n _ hf ha _ c hc0 hcn
    exact ha c hc0 hcn (by omega)
  | succ f ih =>
    intro h i n hn hf ha hb
    unfold downLoop
    simp only
    split
    · intro c hc0 hcn
      exact ha c hc0 hcn (by omega)
    · rename_i hlt
      have key : ∀ j, (j = 2 * i + 1 ∨ j = 2 * i + 1 + 1) → j < n →
          (∀ c, c < n → (c - 1) / 2 = i → 0 < c → h.getD j 0 ≤ h.getD c 0) →
          HeapUpTo (if less h j i = true then downLoop f (swap h i j) j n else h) n := by
        intro j hj hjn hmin
        have hil : i < h.length := by omega
        have hjl : j < h.length := by omega
        split
        · rename_i hl
          rw [less_iff] at hl
          apply ih _ _ _ (by rw [length_swap]; exact hn) (by omega)
          · intro c hc0 hcn hpc
            rw [getD_swap h _ _ _ hil hjl, getD_swap h _ _ _ hil hjl]
            rw [if_neg hpc]
            by_cases hpi : (c - 1) / 2 = i
            · rw [if_pos hpi]
              by_cases hcj : c = j
              · rw [if_pos hcj]; omega
              · rw [if_neg hcj, if_neg (by omega)]
                exact hmin c hcn hpi hc0
            · rw [if_neg hpi, if_neg (by omega)]
              by_cases hci : c = i
              · rw [if_pos hci]
                subst hci
                exact hb j (by omega) hjn (by omega) hc0
              · rw [if_neg hci]
                exact ha c hc0 hcn hpi
          · intro c hc0 hcn hpc hj0
            rw [getD_swap h _ _ _ hil hjl, getD_swap h _ _ _ hil hjl]
            rw [if_neg (by omega), if_pos (by omega), if_neg (by omega), if_neg (by omega)]
            have := ha c hc0 hcn (by omega)
            rw [hpc] at this
            exact this
        · rename_i hl
          rw [less_iff] at hl
          intro c hc0 hcn
          by_cases hpi : (c - 1) / 2 = i
          · rw [hpi]
            have := hmin c hcn hpi hc0
            omega
          · exact ha c hc0 hcn hpi
      by_cases hc : 2 * i + 1 + 1 < n ∧ less h (2 * i + 1 + 1) (2 * i + 1) = true
      · simp only [hc, and_self, if_true]
        have hl := (less_iff _ _ _).mp hc.2
        apply key _ (Or.inr rfl) hc.1
        intro c hcn hpc hc0
        have : c = 2 * i + 1 ∨ c = 2 * i + 1 + 1 := by omega
        rcases this with rfl | rfl
        · omega
        · exact le_refl _
      · simp only [hc, if_false]
        apply key _ (Or.inl rfl) (by omega)
        intro c hcn hpc hc0
        have : c = 2 * i + 1 ∨ c = 2 * i + 1 + 1 := by omega
        rcases this with rfl | rfl
        · exact le_refl _
        · rw [not_and, less_iff] at hc
          have := hc hcn
          omega

/-- The loop of `heap.down` leaves the elements from `n` on where they are. -/
theorem downLoop_getD_ge (fuel : Nat) : ∀ (h : List Nat) (i n c : Nat), n ≤ h.length →
    n ≤ c → (downLoop fuel h i n).getD c 0 = h.getD c 0 := by
  induction fuel with
  | zero => intro h i n c _ _; rfl
  | succ f ih =>
    intro h i n c hn hc
    unfold downLoop
    simp only
    split
    · rfl
    · rename_i hlt
      by_cases hcc : 2 * i + 1 + 1 < n ∧ less h (2 * i + 1 + 1) (2 * i + 1) = true
      · simp only [hcc, and_self, if_true]
        split
        · rw [ih _ _ _ _ (by rw [length_swap]; exact hn) hc,
            getD_swap h _ _ _ (by omega) (by omega), if_neg (by omega), if_neg (by omega)]
        · rfl
      · simp only [hcc, if_false]
        split
        · rw [ih _ _ _ _ (by rw [length_swap]; exact hn) hc,
            getD_swap h _ _ _ (by omega) (by omega), if_neg (by omega), if_neg (by omega)]
        · rfl

/-- On a slice that is a heap already, `heap.down` changes nothing. -/
theorem downLoop_of_heap (fuel : Nat) (h : List Nat) (i n : Nat) (hh : HeapUpTo h n) :
    downLoop fuel h i n = h := by
  cases fuel with
  | zero => rfl
  | succ f =>
    unfold downLoop
    simp only
    split
    · rfl
    · rename_i hlt
      by_cases hcc : 2 * i + 1 + 1 < n ∧ less h (2 * i + 1 + 1) (2 * i + 1) = true
      · simp only [hcc, and_self, if_true]
        have := hh (2 * i + 1 + 1) (by omega) hcc.1
        have hp : (2 * i + 1 + 1 - 1) / 2 = i := by omega
        rw [hp] at this
        rw [if_neg]
        rw [less_iff]; omega
      · simp only [hcc, if_false]
        have := hh (2 * i + 1) (by omega) (by omega)
        have hp : (2 * i + 1 - 1) / 2 = i := by omega
        rw [hp] at this
        rw [if_neg]
        rw [less_iff]; omega

theorem heapInit_of_heap (h : List Nat) (hh : IsHeap h) : heapInit h = h := by
  unfold heapInit
  generalize (List.range (h.length / 2)).reverse = l
  induction l with
  | nil => rfl
  | cons a t ih =>
    rw [List.foldl_cons]
    unfold down
    rw [downLoop_of_heap _ _ _ _ hh]
    exact ih

/-- The root of a heap is its least element. -/
theorem heap_root_le (h : List Nat) (hh : IsHeap h) :
    ∀ c, c < h.length → h.getD 0 0 ≤ h.getD c 0 := by
  intro c
  induction c using Nat.strong_induction_on with
  | _ c ih =>
    intro hc
    by_cases h0 : c = 0
    · subst h0; exact le_refl _
    · have h1 := hh c (by omega) hc
      have h2 := ih ((c - 1) / 2) (by omega) (by omega)
      omega

theorem heapPush_heap (h : List Nat) (x : Nat) (hh : IsHeap h) : IsHeap (heapPush h x) := by
  unfold heapPush up
  have hlen : (h ++ [x]).length.pred = h.length := by simp
  rw [hlen]
  apply upLoop_heap _ _ _ (by omega) (by simp)
  · intro c hc0 hcl hcj
    have hc : c < h.length := by
      rw [List.length_append, List.length_singleton] at hcl; omega
    rw [List.getD_append _ _ _ _ (by omega), List.getD_append _ _ _ _ hc]
    exact hh c hc0 hc
  · intro c hc0 hcl hpc _
    rw [List.length_append, List.length_singleton] at hcl
    omega

theorem getD_take_lt (l : List Nat) (n c : Nat) (hc : c < n) :
    (l.take n).getD c 0 = l.getD c 0 := by
  rw [List.getD_eq_getElem?_getD, List.getD_eq_getElem?_getD, List.getElem?_take_of_lt hc]

/-- The function `heap.Pop` on a non-empty slice returns its first element and keeps the
others; on a heap it leaves a heap. -/
theorem heapPop_ok (h : List Nat) (hne : 0 < h.length) :
    ∃ rest, heapPop h = .ok (h.getD 0 0, rest) ∧ (h.getD 0 0 :: rest).Perm h ∧
      (IsHeap h → IsHeap rest) := by
  have hn : h.length - 1 < h.length := by omega
  have hgl : (swap h 0 (h.length - 1)).length = h.length := length_swap _ _ _
  have hdl : (down (swap h 0 (h.length - 1)) 0 (h.length - 1)).length = h.length := by
    unfold down; rw [downLoop_length, hgl]
  have hlast : (down (swap h 0 (h.length - 1)) 0 (h.length - 1)).getD (h.length - 1) 0
      = h.getD 0 0 := by
    unfold down
    rw [downLoop_getD_ge _ _ _ _ _ (by omega) (le_refl _), getD_swap h _ _ _ hne hn,
      if_pos rfl]
  refine ⟨(down (swap h 0 (h.length - 1)) 0 (h.length - 1)).take (h.length - 1), ?_, ?_, ?_⟩
  · unfold heapPop
    rw [if_neg (by omega)]
    simp only [hlast]
  · have hperm : (down (swap h 0 (h.length - 1)) 0 (h.length - 1)).Perm h := by
      unfold down
      exact (downLoop_perm _ _ _ _ (by omega)).trans (swap_perm h _ _ hne hn)
    refine List.Perm.trans ?_ hperm
    generalize hd : down (swap h 0 (h.length - 1)) 0 (h.length - 1) = d at *
    have hsplit : d = d.take (h.length - 1) ++ [d.getD (h.length - 1) 0] := by
      conv_lhs => rw [← List.take_append_drop (h.length - 1) d]
      congr 1
      rw [List.drop_eq_getElem_cons (by omega), List.getD_eq_getElem _ _ (by omega),
        List.drop_of_length_le (by omega)]
    rw [← hlast]
    conv_rhs => rw [hsplit]
    exact (List.perm_append_comm : ([d.getD (h.length - 1) 0] ++ _).Perm _)
  · intro hh c hc0 hcl
    rw [List.length_take, hdl] at hcl
    have hcn : c < h.length - 1 := by omega
    rw [getD_take_lt _ _ _ (by omega), getD_take_lt _ _ _ hcn]
    unfold down
    refine downLoop_heap _ _ _ _ (by omega) (by omega) ?_ ?_ c hc0 hcn
    · intro c hc0 hcn hpc
      rw [getD_swap h _ _ _ hne hn, getD_swap h _ _ _ hne hn,
        if_neg (by omega), if_neg (by omega), if_neg (by omega), if_neg (by omega)]
      exact hh c hc0 (by omega)
    · intro c _ _ _ h0; omega

/-- A slice in ascending order is a heap. -/
theorem sorted_isHeap (h : List Nat) (hs : h.Sorted (· ≤ ·)) : IsHeap h := by
  intro c hc0 hcl
  have hp : (c - 1) / 2 < h.length := by omega
  rw [List.getD_eq_getElem _ _ hp, List.getD_eq_getElem _ _ hcl]
  exact List.Sorted.rel_get_of_le hs (a := ⟨(c - 1) / 2, hp⟩) (b := ⟨c, hcl⟩)
    (by simp only [Fin.mk_le_mk]; omega)

theorem sortIndex_perm (h : List Nat) : (sortIndex h).Perm h :=
  List.perm_insertionSort _ _

theorem sortIndex_sorted (h : List Nat) : (sortIndex h).Sorted (· ≤ ·) :=
  List.sorted_insertionSort _ _

theorem sorted_take (h : List Nat) (n : Nat) (hs : h.Sorted (· ≤ ·)) :
    (h.take n).Sorted (· ≤ ·) :=
  List.Pairwise.sublist (List.take_sublist n h) hs

theorem heapInit_take_sorted (h : List Nat) (n : Nat) (hs : h.Sorted (· ≤ ·)) :
    heapInit (h.take n) = h.take n :=
  heapInit_of_heap _ (sorted_isHeap _ (sorted_take h n hs))

end ActPool

namespace ActPool

/-! ## Lemmas: the loops of the queue operations -/

theorem walked_zero (n : Nat) : walked n 0 = [] := rfl

theorem walked_succ (n k : Nat) :
    walked n (k + 1) = n % u64 :: walked ((n + 1) % u64) k := by
  unfold walked
  rw [List.range_succ_eq_map, List.map_cons, List.map_map]
  congr 1
  apply List.map_congr_left
  intro i _
  simp only [Function.comp, u64]
  omega

theorem seq_shift (n i : Nat) : ((n + 1) % u64 + i) % u64 = (n + (i + 1)) % u64 := by
  simp only [u64]; omega

theorem enoughBalance_true (q : actQueue) (act : Action) :
    enoughBalance q act true =
      if q.pendingBalance < act.cost then (q, false)
      else ({ q with pendingBalance := q.pendingBalance - act.cost }, true) := by
  unfold enoughBalance; split <;> simp

theorem enoughBalance_false (q : actQueue) (act : Action) :
    enoughBalance q act false = (q, decide (act.cost ≤ q.pendingBalance)) := by
  unfold enoughBalance
  by_cases h : q.pendingBalance < act.cost
  · simp [h]
  · simp [h, not_lt.mp h]

/-- What the walk of `UpdateQueue` computes: it stops after `k` steps at the first nonce
that is missing or not payable, having deducted the costs of the `k` nonces before it. -/
theorem walkLoop_ok (fuel : Nat) : ∀ (q q1 : actQueue) (n m : Nat), n < u64 →
    walkLoop fuel q n = .ok (q1, m) →
    ∃ k, k < fuel ∧ m = (n + k) % u64 ∧
      q1 = { q with pendingBalance := q.pendingBalance - costSum q.items (walked n k) } ∧
      (∀ i, i < k → ∃ a, q.items.lookup ((n + i) % u64) = some a ∧
        a.cost ≤ q.pendingBalance - costSum q.items (walked n i)) ∧
      (∀ a, q.items.lookup ((n + k) % u64) = some a →
        q.pendingBalance - costSum q.items (walked n k) < a.cost) := by
  induction fuel with
  | zero => intro q q1 n m _ h; simp [walkLoop] at h
  | succ f ih =>
    intro q q1 n m hn h
    have hn0 : (n + 0) % u64 = n := by simpa using Nat.mod_eq_of_lt hn
    unfold walkLoop at h
    cases hl : q.items.lookup n with
    | none =>
      rw [hl] at h
      simp only [Except.ok.injEq, Prod.mk.injEq] at h
      refine ⟨0, Nat.succ_pos _, by rw [hn0]; exact h.2.symm, ?_, ?_, ?_⟩
      · simp [walked_zero, costSum, ← h.1]
      · intro i hi; omega
      · intro a ha; rw [hn0, hl] at ha; cases ha
    | some act =>
      rw [hl] at h
      simp only [enoughBalance_true] at h
      by_cases hc : q.pendingBalance < act.cost
      · simp only [hc, if_true] at h
        simp only [Bool.false_eq_true, if_false, Except.ok.injEq, Prod.mk.injEq] at h
        refine ⟨0, Nat.succ_pos _, by rw [hn0]; exact h.2.symm, ?_, ?_, ?_⟩
        · simp [walked_zero, costSum, ← h.1]
        · intro i hi; omega
        · intro a ha; rw [hn0, hl] at ha
          simp only [Option.some.injEq] at ha
          subst ha; simpa [walked_zero, costSum] using hc
      · simp only [hc, if_false, if_true] at h
        obtain ⟨k, hk, hm, hq1, hpay, hstop⟩ :=
          ih _ q1 _ m (Nat.mod_lt _ (by simp [u64])) h
        have hcost : ∀ j, costSum q.items (walked n (j + 1)) =
            act.cost + costSum q.items (walked ((n + 1) % u64) j) := by
          intro j
          rw [walked_succ, Nat.mod_eq_of_lt hn]
          simp [costSum, costAt, hl]
        refine ⟨k + 1, by omega, by rw [hm, seq_shift], ?_, ?_, ?_⟩
        · rw [hq1, hcost]; simp only; congr 1; ring
        · intro i hi
          cases i with
          | zero =>
            refine ⟨act, by rw [hn0]; exact hl, ?_⟩
            simpa [walked_zero, costSum] using not_lt.mp hc
          | succ j =>
            obtain ⟨a, ha, hle⟩ := hpay j (by omega)
            refine ⟨a, by rw [← seq_shift]; exact ha, ?_⟩
            rw [hcost]; simp only at hle; linarith
        · intro a ha
          rw [← seq_shift] at ha
          have := hstop a ha
          rw [hcost]; simp only at this; linarith

/-- A walk that runs out of fuel has only met stored nonces. -/
theorem walkLoop_error (fuel : Nat) : ∀ (q : actQueue) (n : Nat) (e : Fault), n < u64 →
    walkLoop fuel q n = .error e →
    ∀ i, i < fuel → (n + i) % u64 ∈ q.items.keys := by
  induction fuel with
  | zero => intro q n e _ _ i hi; omega
  | succ f ih =>
    intro q n e hn h i hi
    have hn0 : (n + 0) % u64 = n := by simpa using Nat.mod_eq_of_lt hn
    unfold walkLoop at h
    cases hl : q.items.lookup n with
    | none => rw [hl] at h; simp at h
    | some act =>
      rw [hl] at h
      simp only [enoughBalance_true] at h
      by_cases hc : q.pendingBalance < act.cost
      · simp [hc] at h
      · simp only [hc, if_false, if_true] at h
        cases i with
        | zero =>
          rw [hn0, ← AList.mem_keys, ← AList.lookup_isSome, hl]; rfl
        | succ j =>
          have := ih _ _ e (Nat.mod_lt _ (by simp [u64])) h j (by omega)
          rw [seq_shift] at this
          exact this

theorem walked_nodup (n k : Nat) (hk : k ≤ u64) : (walked n k).Nodup := by
  unfold walked
  refine List.Nodup.map_on ?_ (List.nodup_range k)
  intro i hi j hj h
  rw [List.mem_range] at hi hj
  simp only [u64] at h hk
  omega

/-- The walk ends: a map with fewer than `2^64` keys, all of them `uint64` values, has a
missing nonce among any `len + 1` consecutive ones. -/
theorem walkLoop_total (q : actQueue) (n : Nat) (hn : n < u64) (hlen : Len q < u64) :
    ∃ q1 m, walkLoop (q.items.keys.length + 1) q n = .ok (q1, m) := by
  cases h : walkLoop (q.items.keys.length + 1) q n with
  | ok r => exact ⟨r.1, r.2, rfl⟩
  | error e =>
    exfalso
    have hsub := walkLoop_error _ q n e hn h
    have hnd := walked_nodup n (q.items.keys.length + 1) (by unfold Len at hlen; omega)
    have hsp : (walked n (q.items.keys.length + 1)).Subperm q.items.keys := by
      refine hnd.subperm ?_
      intro x hx
      unfold walked at hx
      rw [List.mem_map] at hx
      obtain ⟨i, hi, rfl⟩ := hx
      exact hsub i (List.mem_range.mp hi)
    have := hsp.length_le
    simp [walked] at this

/-! ### Lemmas: `removeActs` -/

theorem removeLoop_lookup : ∀ (l : List Nat) (items : Items) (removed : List (Option Action))
    (k : Nat), (removeLoop l items removed).1.lookup k =
      if k ∈ l then none else items.lookup k
  | [], items, removed, k => by simp [removeLoop]
  | a :: t, items, removed, k => by
    rw [removeLoop, removeLoop_lookup t]
    by_cases hk : k ∈ t
    · simp [hk]
    · by_cases hka : k = a
      · subst hka; simp [hk, AList.lookup_erase]
      · simp [hk, hka, AList.lookup_erase_ne hka]

theorem removeLoop_keys : ∀ (l : List Nat) (items : Items) (removed : List (Option Action)),
    (removeLoop l items removed).1.keys = items.keys.filter (fun k => decide (k ∉ l))
  | [], items, removed => by simp [removeLoop]
  | a :: t, items, removed => by
    rw [removeLoop, removeLoop_keys t, AList.keys_erase,
      List.Nodup.erase_eq_filter (AList.keys_nodup items), List.filter_filter]
    apply List.filter_congr
    intro x _
    by_cases h1 : x ∈ t <;> by_cases h2 : x = a <;> simp [h1, h2]

theorem removeLoop_removed : ∀ (l : List Nat) (items : Items) (removed : List (Option Action)),
    l.Nodup → (removeLoop l items removed).2 = removed ++ l.map (fun k => items.lookup k)
  | [], items, removed, _ => by simp [removeLoop]
  | a :: t, items, removed, hnd => by
    rw [List.nodup_cons] at hnd
    rw [removeLoop, removeLoop_removed t _ _ hnd.2, List.append_assoc, List.map_cons]
    congr 1
    rw [List.singleton_append]
    congr 1
    apply List.map_congr_left
    intro k hk
    exact AList.lookup_erase_ne (fun e => hnd.1 (e ▸ hk))

theorem removeActs_ok (q : actQueue) (idx : Nat) (hidx : idx ≤ q.index.length) :
    removeActs q idx = .ok
      ({ q with items := (removeLoop (q.index.drop idx) q.items []).1,
                index := heapInit (q.index.take idx) },
        (removeLoop (q.index.drop idx) q.items []).2) := by
  unfold removeActs
  rw [if_neg (by omega)]

/-! ### Lemmas: the loops of `UpdateQueue` after the walk -/

theorem pruneLoop_ok : ∀ (l : List Nat) (q : actQueue) (i : Nat),
    (∀ k ∈ l, k ∈ q.items.keys) →
    pruneLoop l q i = .ok (q, i +
      (l.takeWhile (fun k => decide (costAt q.items k ≤ q.pendingBalance))).length)
  | [], q, i, _ => by simp [pruneLoop]
  | a :: t, q, i, hmem => by
    have ha : a ∈ q.items := AList.mem_keys.mpr (hmem a (List.mem_cons_self _ _))
    rw [← AList.lookup_isSome, Option.isSome_iff_exists] at ha
    obtain ⟨act, hact⟩ := ha
    unfold pruneLoop
    rw [hact]
    simp only [enoughBalance_false]
    have hc : costAt q.items a = act.cost := by simp [costAt, hact]
    by_cases hle : act.cost ≤ q.pendingBalance
    · rw [if_pos (by simpa using hle),
        pruneLoop_ok t q (i + 1) (fun k hk => hmem k (List.mem_cons_of_mem _ hk)),
        List.takeWhile_cons_of_pos (by simpa [hc] using hle), List.length_cons]
      congr 2; omega
    · rw [if_neg (by simpa using hle),
        List.takeWhile_cons_of_neg (by simpa [hc] using hle)]
      rfl

theorem findPending_le (s : List Nat) (m : Nat) : findPending s m ≤ s.length :=
  List.findIdx_le_length _

theorem findPending_take : ∀ (s : List Nat) (m : Nat), s.Sorted (· ≤ ·) →
    s.take (findPending s m) = s.filter (fun k => decide (k < m))
  | [], m, _ => by simp [findPending]
  | a :: t, m, hs => by
    have hs' := List.sorted_cons.mp hs
    unfold findPending
    rw [List.findIdx_cons]
    by_cases ha : m ≤ a
    · simp only [ha, decide_True, cond_true, List.take_zero]
      symm
      rw [List.filter_eq_nil_iff]
      intro x hx
      rcases List.mem_cons.mp hx with rfl | hx
      · simpa using ha
      · have := hs'.1 x hx
        simp only [decide_eq_true_eq, not_lt]; omega
    · simp only [ha, decide_False, cond_false, List.take_succ_cons]
      rw [List.filter_cons_of_pos (by simpa using ha)]
      congr 1
      exact findPending_take t m hs'.2

theorem findPending_drop (s : List Nat) (m : Nat) (hs : s.Sorted (· ≤ ·)) :
    s.drop (findPending s m) = s.filter (fun k => decide (m ≤ k)) := by
  induction s with
  | nil => simp [findPending]
  | cons a t ih =>
    have hs' := List.sorted_cons.mp hs
    unfold findPending
    rw [List.findIdx_cons]
    by_cases ha : m ≤ a
    · simp only [ha, decide_True, cond_true, List.drop_zero]
      symm
      rw [List.filter_eq_self]
      intro x hx
      rcases List.mem_cons.mp hx with rfl | hx
      · simpa using ha
      · have := hs'.1 x hx
        simp only [decide_eq_true_eq]; omega
    · simp only [ha, decide_False, cond_false, List.drop_succ_cons]
      rw [List.filter_cons_of_neg (by simpa using ha)]
      exact ih hs'.2

theorem UpdateQueue_ok_walk (q : actQueue) (n : Nat)
    (r : actQueue × List (Option Action)) (h : UpdateQueue q n = .ok r) :
    ∃ q1 m, walkLoop (q.items.keys.length + 1) q n = .ok (q1, m) := by
  unfold UpdateQueue at h
  cases hw : walkLoop (q.items.keys.length + 1) q n with
  | ok v => exact ⟨v.1, v.2, rfl⟩
  | error e => rw [hw] at h; cases h

/-- The method `UpdateQueue` once its walk is done: the walk takes `k` steps. -/
theorem UpdateQueue_walk (q : actQueue) (n : Nat) (hn : n < u64)
    (hw : ∃ q1 m, walkLoop (q.items.keys.length + 1) q n = .ok (q1, m)) :
    ∃ k, k ≤ Len q ∧
      (∀ i, i < k → ∃ a, q.items.lookup ((n + i) % u64) = some a ∧
        a.cost ≤ q.pendingBalance - costSum q.items (walked n i)) ∧
      (∀ a, q.items.lookup ((n + k) % u64) = some a →
        q.pendingBalance - costSum q.items (walked n k) < a.cost) ∧
      UpdateQueue q n =
        if (q.items.lookup ((n + k) % u64)).isSome then
          removeActs
            { q with pendingBalance := q.pendingBalance - costSum q.items (walked n k),
                     pendingNonce := (n + k) % u64, index := sortIndex q.index }
            (findPending (sortIndex q.index) ((n + k) % u64))
        else
          match pruneLoop
            ((sortIndex q.index).drop (findPending (sortIndex q.index) ((n + k) % u64)))
            { q with pendingBalance := q.pendingBalance - costSum q.items (walked n k),
                     pendingNonce := (n + k) % u64, index := sortIndex q.index }
            (findPending (sortIndex q.index) ((n + k) % u64)) with
          | .error e => .error e
          | .ok (q4, i) => removeActs q4 i := by
  obtain ⟨q1, m, hw⟩ := hw
  obtain ⟨k, hk, hm, hq1, hpay, hstop⟩ := walkLoop_ok _ q q1 n m hn hw
  refine ⟨k, by unfold Len; omega, hpay, hstop, ?_⟩
  unfold UpdateQueue
  rw [hw]
  subst hm
  subst hq1
  rfl

/-- The method `UpdateQueue` on a queue whose index holds stored nonces only: it returns,
having cut the sorted index in two. -/
theorem UpdateQueue_cut (q : actQueue) (n : Nat) (hn : n < u64)
    (hw : ∃ q1 m, walkLoop (q.items.keys.length + 1) q n = .ok (q1, m))
    (hidx : ∀ x ∈ q.index, x ∈ q.items.keys) :
    ∃ k keep drop q1 removed, k ≤ Len q ∧
      (∀ i, i < k → ∃ a, q.items.lookup ((n + i) % u64) = some a ∧
        a.cost ≤ q.pendingBalance - costSum q.items (walked n i)) ∧
      (∀ a, q.items.lookup ((n + k) % u64) = some a →
        q.pendingBalance - costSum q.items (walked n k) < a.cost) ∧
      UpdateQueue q n = .ok (q1, removed) ∧
      keep ++ drop = sortIndex q.index ∧
      q1.index = keep ∧
      q1.startNonce = q.startNonce ∧
      q1.pendingNonce = (n + k) % u64 ∧
      q1.pendingBalance = q.pendingBalance - costSum q.items (walked n k) ∧
      (∀ x, q1.items.lookup x = if x ∈ drop then none else q.items.lookup x) ∧
      q1.items.keys = q.items.keys.filter (fun x => decide (x ∉ drop)) ∧
      (q.index.Nodup → removed = drop.map (fun x => q.items.lookup x)) ∧
      ((q.items.lookup ((n + k) % u64)).isSome →
        keep = (sortIndex q.index).filter (fun x => decide (x < (n + k) % u64)) ∧
        drop = (sortIndex q.index).filter (fun x => decide ((n + k) % u64 ≤ x))) ∧
      (q.items.lookup ((n + k) % u64) = none →
        keep = (sortIndex q.index).filter (fun x => decide (x < (n + k) % u64)) ++
          ((sortIndex q.index).filter (fun x => decide ((n + k) % u64 ≤ x))).takeWhile
            (fun x => decide (costAt q.items x ≤
              q.pendingBalance - costSum q.items (walked n k))) ∧
        drop = ((sortIndex q.index).filter (fun x => decide ((n + k) % u64 ≤ x))).dropWhile
            (fun x => decide (costAt q.items x ≤
              q.pendingBalance - costSum q.items (walked n k)))) := by
  obtain ⟨k, hk, hpay, hstop, heq⟩ := UpdateQueue_walk q n hn hw
  have hs := sortIndex_sorted q.index
  have hp := sortIndex_perm q.index
  generalize hsdef : sortIndex q.index = s at *
  generalize hmdef : (n + k) % u64 = m at *
  generalize hbdef : q.pendingBalance - costSum q.items (walked n k) = b1 at *
  have htake := findPending_take s m hs
  have hdrop := findPending_drop s m hs
  have hnd : q.index.Nodup → s.Nodup := fun h => (List.Perm.nodup_iff hp).mpr h
  by_cases hcase : (q.items.lookup m).isSome
  · rw [if_pos hcase, removeActs_ok _ _ (findPending_le s m)] at heq
    simp only at heq
    subst hmdef hbdef
    refine ⟨k, s.take (findPending s ((n + k) % u64)),
      s.drop (findPending s ((n + k) % u64)), _, _, hk, hpay, hstop, heq,
      List.take_append_drop _ _, ?_, rfl, rfl, rfl, ?_, ?_, ?_, ?_, ?_⟩
    · exact heapInit_take_sorted s _ hs
    · intro x; exact removeLoop_lookup _ _ _ x
    · exact removeLoop_keys _ _ _
    · intro h
      rw [removeLoop_removed _ _ _ ((hnd h).sublist (List.drop_sublist _ _))]
      rfl
    · intro _; exact ⟨htake, hdrop⟩
    · intro h; rw [h] at hcase; cases hcase
  · rw [if_neg hcase] at heq
    have hmem : ∀ x ∈ s.drop (findPending s m), x ∈ q.items.keys := by
      intro x hx
      exact hidx x (hp.subset (List.mem_of_mem_drop hx))
    have hpl := pruneLoop_ok (s.drop (findPending s m))
      { items := q.items, index := s, startNonce := q.startNonce, pendingNonce := m,
        pendingBalance := b1 } (findPending s m) hmem
    simp only at hpl
    rw [hpl] at heq
    simp only at heq
    generalize hjdef : (List.takeWhile (fun x => decide (costAt q.items x ≤ b1))
      (s.drop (findPending s m))).length = j at *
    have hjle : findPending s m + j ≤ s.length := by
      have h1 : j ≤ (s.drop (findPending s m)).length := by
        rw [← hjdef]
        exact (List.takeWhile_sublist _).length_le
      rw [List.length_drop] at h1
      have := findPending_le s m
      omega
    rw [removeActs_ok _ _ hjle] at heq
    simp only at heq
    have hsplit := List.takeWhile_append_dropWhile
      (fun x => decide (costAt q.items x ≤ b1)) (s.drop (findPending s m))
    have htk : (s.drop (findPending s m)).take j =
        (s.drop (findPending s m)).takeWhile (fun x => decide (costAt q.items x ≤ b1)) := by
      conv_lhs => rw [← hsplit]
      exact List.take_left' hjdef
    have hdr : (s.drop (findPending s m)).drop j =
        (s.drop (findPending s m)).dropWhile (fun x => decide (costAt q.items x ≤ b1)) := by
      conv_lhs => rw [← hsplit]
      exact List.drop_left' hjdef
    subst hmdef hbdef
    refine ⟨k, s.take (findPending s ((n + k) % u64) + j),
      s.drop (findPending s ((n + k) % u64) + j), _, _, hk, hpay,
      hstop, heq, List.take_append_drop _ _, ?_, rfl, rfl, rfl, ?_, ?_, ?_, ?_, ?_⟩
    · exact heapInit_take_sorted s _ hs
    · intro x; exact removeLoop_lookup _ _ _ x
    · exact removeLoop_keys _ _ _
    · intro h
      rw [removeLoop_removed _ _ _ ((hnd h).sublist (List.drop_sublist _ _))]
      rfl
    · intro h; exact absurd h hcase
    · intro _
      constructor
      · rw [List.take_add, htake, htk, hdrop]
      · rw [← List.drop_drop, hdr, hdrop]

/-! ### Lemmas: `FilterNonce` -/

theorem sortIndex_cons_min (x : Nat) (h rest : List Nat) (hp : (x :: rest).Perm h)
    (hmin : ∀ y ∈ rest, x ≤ y) : sortIndex h = x :: sortIndex rest := by
  apply List.eq_of_perm_of_sorted (r := (· ≤ ·))
  · exact (sortIndex_perm h).trans (hp.symm.trans ((sortIndex_perm rest).symm.cons x))
  · exact sortIndex_sorted h
  · apply List.sorted_cons.mpr
    exact ⟨fun y hy => hmin y ((sortIndex_perm rest).subset hy), sortIndex_sorted rest⟩

theorem heap_root_le_mem (h : List Nat) (hh : IsHeap h) (y : Nat) (hy : y ∈ h) :
    h.getD 0 0 ≤ y := by
  obtain ⟨c, hc, rfl⟩ := List.getElem_of_mem hy
  have := heap_root_le h hh c hc
  rwa [List.getD_eq_getElem _ _ hc] at this

theorem filterLoop_spec (t : Nat) : ∀ (fuel : Nat) (q : actQueue)
    (removed : List (Option Action)),
    q.index.Perm q.items.keys → IsHeap q.index → q.index.length ≤ fuel →
    ∃ q1, filterLoop t fuel q removed = .ok (q1, removed ++
        ((sortIndex q.index).filter (fun x => decide (x < t))).map
          (fun x => q.items.lookup x)) ∧
      q1.index.Perm q1.items.keys ∧ IsHeap q1.index ∧
      (∀ x, q1.items.lookup x = if x < t then none else q.items.lookup x) ∧
      q1.startNonce = q.startNonce ∧ q1.pendingNonce = q.pendingNonce ∧
      q1.pendingBalance = q.pendingBalance := by
  intro fuel
  induction fuel with
  | zero =>
    intro q removed hp hh hf
    have hnil : q.index = [] := List.length_eq_zero.mp (by omega)
    refine ⟨q, ?_, hp, hh, ?_, rfl, rfl, rfl⟩
    · simp [filterLoop, hnil, sortIndex]
    · intro x
      split
      · rw [AList.lookup_eq_none, AList.mem_keys]
        intro hx
        have := hp.symm.subset hx
        rw [hnil] at this
        cases this
      · rfl
  | succ f ih =>
    intro q removed hp hh hf
    unfold filterLoop
    by_cases hc : 0 < q.index.length ∧ q.index.getD 0 0 < t
    · rw [if_pos hc]
      obtain ⟨rest, hpop, hperm, hheap⟩ := heapPop_ok q.index hc.1
      rw [hpop]
      simp only
      have hnd : (q.index.getD 0 0 :: rest).Nodup :=
        (List.Perm.nodup_iff (hperm.trans hp)).mpr (AList.keys_nodup _)
      have hnotin : q.index.getD 0 0 ∉ rest := (List.nodup_cons.mp hnd).1
      have hp' : rest.Perm (q.items.erase (q.index.getD 0 0)).keys := by
        rw [AList.keys_erase]
        have := (hperm.trans hp).erase (q.index.getD 0 0)
        rwa [List.erase_cons_head] at this
      have hlen : rest.length ≤ f := by
        have := hperm.length_eq
        rw [List.length_cons] at this
        omega
      obtain ⟨q1, hrun, hp1, hh1, hlook, hs1, hs2, hs3⟩ :=
        ih { q with index := rest, items := q.items.erase (q.index.getD 0 0) }
          (removed ++ [q.items.lookup (q.index.getD 0 0)]) hp' (hheap hh) hlen
      refine ⟨q1, ?_, hp1, hh1, ?_, hs1, hs2, hs3⟩
      · rw [hrun]
        simp only
        have hmin : ∀ y ∈ rest, q.index.getD 0 0 ≤ y := fun y hy =>
          heap_root_le_mem _ hh y (hperm.subset (List.mem_cons_of_mem _ hy))
        rw [sortIndex_cons_min _ _ _ hperm hmin,
          List.filter_cons_of_pos (by simpa using hc.2), List.map_cons, List.append_assoc,
          List.singleton_append]
        congr 4
        apply List.map_congr_left
        intro y hy
        have hy' : y ∈ rest := (sortIndex_perm rest).subset (List.mem_of_mem_filter hy)
        exact AList.lookup_erase_ne (fun e => hnotin (e ▸ hy'))
      · intro x
        rw [hlook x]
        simp only
        split
        · rfl
        · rename_i hx
          exact AList.lookup_erase_ne (by omega)
    · rw [if_neg hc]
      have hge : ∀ y ∈ q.index, t ≤ y := by
        intro y hy
        have h0 : 0 < q.index.length := List.length_pos_of_mem hy
        have := heap_root_le_mem _ hh y hy
        have := not_and.mp hc h0
        omega
      refine ⟨q, ?_, hp, hh, ?_, rfl, rfl, rfl⟩
      · congr 2
        symm
        rw [List.append_right_eq_self, List.map_eq_nil_iff, List.filter_eq_nil_iff]
        intro y hy
        have := hge y ((sortIndex_perm _).subset hy)
        simp only [decide_eq_true_eq, not_lt]; exact this
      · intro x
        split
        · rename_i hx
          rw [AList.lookup_eq_none, AList.mem_keys]
          intro hmem
          have := hge x (hp.symm.subset hmem)
          omega
        · rfl

/-! ### Lemmas: the consistency of the queue is kept by every operation -/

theorem mem_keys_iff_lookup (items : Items) (k : Nat) :
    k ∈ items.keys ↔ ∃ a, items.lookup k = some a := by
  rw [← AList.mem_keys, ← AList.lookup_isSome, Option.isSome_iff_exists]

theorem inv_new : Inv NewActQueue := by
  refine ⟨List.Perm.refl _, ?_, ?_, ?_⟩
  · intro k a h; simp [NewActQueue] at h
  · intro k h; simp [NewActQueue] at h
  · intro c _ hc; simp [NewActQueue] at hc

theorem Put_fresh (q : actQueue) (act : Action) (h : q.items.lookup act.nonce = none) :
    Put q act = ({ q with index := heapPush q.index act.nonce,
                          items := q.items.insert act.nonce act }, none) := by
  unfold Put
  simp [h]

theorem Put_dup (q : actQueue) (act : Action) (h : (q.items.lookup act.nonce).isSome) :
    Put q act = (q, some .ErrNonce) := by
  unfold Put
  simp [h]

theorem inv_put (q : actQueue) (act : Action) (hq : Inv q) (ha : act.nonce < u64) :
    Inv (Put q act).1 := by
  cases hl : q.items.lookup act.nonce with
  | some a => rw [Put_dup q act (by simp [hl])]; exact hq
  | none =>
    rw [Put_fresh q act hl]
    have hnot : act.nonce ∉ q.items.keys := by
      rw [← AList.mem_keys]; exact AList.lookup_eq_none.mp hl
    have hkeys : (q.items.insert act.nonce act).keys = act.nonce :: q.items.keys := by
      rw [AList.keys_insert, List.erase_of_not_mem hnot]
    refine ⟨?_, ?_, ?_, heapPush_heap _ _ hq.heap⟩
    · simp only
      rw [hkeys]
      exact (heapPush_perm _ _).trans (hq.perm.cons _)
    · intro k a h
      simp only at h
      by_cases hk : k = act.nonce
      · subst hk
        rw [AList.lookup_insert] at h
        cases h; rfl
      · rw [AList.lookup_insert_ne hk] at h
        exact hq.keyNonce k a h
    · intro k hk
      simp only at hk
      rw [hkeys] at hk
      rcases List.mem_cons.mp hk with rfl | hk
      · exact ha
      · exact hq.bound k hk

theorem FilterNonce_spec (q : actQueue) (t : Nat) (hq : Inv q) :
    ∃ q1, FilterNonce q t = .ok (q1,
        ((sortIndex q.index).filter (fun x => decide (x < t))).map
          (fun x => q.items.lookup x)) ∧
      Inv q1 ∧
      (∀ x, q1.items.lookup x = if x < t then none else q.items.lookup x) ∧
      q1.startNonce = q.startNonce ∧ q1.pendingNonce = q.pendingNonce ∧
      q1.pendingBalance = q.pendingBalance := by
  obtain ⟨q1, hrun, hp, hh, hlook, h1, h2, h3⟩ :=
    filterLoop_spec t q.index.length q [] hq.perm hq.heap (le_refl _)
  refine ⟨q1, by simpa [FilterNonce] using hrun, ⟨hp, ?_, ?_, hh⟩, hlook, h1, h2, h3⟩
  · intro k a h
    rw [hlook] at h
    split at h
    · cases h
    · exact hq.keyNonce k a h
  · intro k hk
    rw [mem_keys_iff_lookup] at hk
    obtain ⟨a, h⟩ := hk
    rw [hlook] at h
    split at h
    · cases h
    · exact hq.bound k ((mem_keys_iff_lookup _ _).mpr ⟨a, h⟩)

theorem inv_updateQueue (q q1 : actQueue) (n : Nat) (removed : List (Option Action))
    (hq : Inv q) (hn : n < u64) (h : UpdateQueue q n = .ok (q1, removed)) : Inv q1 := by
  obtain ⟨k, keep, drop, q1', removed', _, _, _, heq, hsplit, hidx, _, _, _, hlook, hkeys, _, _,
    _⟩ := UpdateQueue_cut q n hn (UpdateQueue_ok_walk q n _ h)
      (fun x hx => hq.perm.subset hx)
  rw [h] at heq
  simp only [Except.ok.injEq, Prod.mk.injEq] at heq
  obtain ⟨rfl, rfl⟩ := heq
  have hs := sortIndex_sorted q.index
  have hnd : (keep ++ drop).Nodup := by
    rw [hsplit]
    exact (List.Perm.nodup_iff ((sortIndex_perm _).trans hq.perm)).mpr (AList.keys_nodup _)
  refine ⟨?_, ?_, ?_, ?_⟩
  · rw [hidx, hkeys]
    have h1 : (q.items.keys.filter (fun x => decide (x ∉ drop))).Perm
        ((keep ++ drop).filter (fun x => decide (x ∉ drop))) := by
      rw [hsplit]
      exact (((sortIndex_perm _).trans hq.perm).filter _).symm
    refine List.Perm.trans ?_ h1.symm
    rw [List.filter_append]
    have h2 : drop.filter (fun x => decide (x ∉ drop)) = [] := by
      rw [List.filter_eq_nil_iff]; intro x hx; simpa using hx
    have h3 : keep.filter (fun x => decide (x ∉ drop)) = keep := by
      rw [List.filter_eq_self]; intro x hx
      have := (List.nodup_append.mp hnd).2.2
      simpa using fun hd => this hx hd
    rw [h2, h3, List.append_nil]
  · intro x a hx
    rw [hlook] at hx
    split at hx
    · cases hx
    · exact hq.keyNonce x a hx
  · intro x hx
    rw [hkeys] at hx
    exact hq.bound x (List.mem_of_mem_filter hx)
  · rw [hidx]
    apply sorted_isHeap
    rw [← hsplit] at hs
    exact List.Pairwise.sublist (List.sublist_append_left _ _) hs

theorem inv_allActs (q : actQueue) (hq : Inv q) : Inv (AllActs q).1 := by
  unfold AllActs
  split
  · exact hq
  · exact ⟨(sortIndex_perm _).trans hq.perm, hq.keyNonce, hq.bound,
      sorted_isHeap _ (sortIndex_sorted _)⟩

/-- Every queue that the public operations produce is consistent. -/
theorem reachable_inv (q : actQueue) (h : Reachable q) : Inv q := by
  induction h with
  | new => exact inv_new
  | put q act _ ha ih => exact inv_put q act ih ha
  | filterNonce q q1 t removed _ _ hrun ih =>
    obtain ⟨q1', heq, hinv, _⟩ := FilterNonce_spec q t ih
    rw [hrun] at heq
    simp only [Except.ok.injEq, Prod.mk.injEq] at heq
    rw [heq.1]; exact hinv
  | updateQueue q q1 n removed _ hn hrun ih => exact inv_updateQueue q q1 n removed ih hn hrun
  | setStartNonce q n _ _ ih => exact ⟨ih.perm, ih.keyNonce, ih.bound, ih.heap⟩
  | setPendingNonce q n _ _ ih => exact ⟨ih.perm, ih.keyNonce, ih.bound, ih.heap⟩
  | setPendingBalance q b _ ih => exact ⟨ih.perm, ih.keyNonce, ih.bound, ih.heap⟩
  | allActs q _ ih => exact inv_allActs q ih

/-! ### Lemmas: the actions behind a list of nonces -/

theorem heldNonces_eq (q : actQueue) (hp : q.index.Perm q.items.keys) :
    sortIndex q.index = heldNonces q :=
  List.eq_of_perm_of_sorted (r := (· ≤ ·))
    ((sortIndex_perm _).trans (hp.trans (sortIndex_perm _).symm))
    (sortIndex_sorted _) (sortIndex_sorted _)

theorem heldNonces_mem (q : actQueue) (x : Nat) : x ∈ heldNonces q ↔ x ∈ q.items.keys :=
  (sortIndex_perm _).mem_iff

theorem heldNonces_strict (q : actQueue) : (heldNonces q).Sorted (· < ·) := by
  have hs : (heldNonces q).Sorted (· ≤ ·) := sortIndex_sorted _
  have hn : (heldNonces q).Nodup :=
    (List.Perm.nodup_iff (sortIndex_perm _)).mpr (AList.keys_nodup _)
  exact (List.Sorted.lt_of_le hs hn)

/-- The actions behind a list of stored nonces. -/
theorem actions_of_nonces (q : actQueue) (hk : ∀ k a, q.items.lookup k = some a → a.nonce = k) :
    ∀ (l : List Nat), (∀ x ∈ l, x ∈ q.items.keys) →
    ∃ acts : List Action, l.map (fun x => q.items.lookup x) = acts.map some ∧
      acts.map Action.nonce = l ∧
      (∀ a, a ∈ acts ↔ (q.items.lookup a.nonce = some a ∧ a.nonce ∈ l))
  | [], _ => ⟨[], rfl, rfl, by simp⟩
  | x :: t, hl => by
    obtain ⟨acts, h1, h2, h3⟩ := actions_of_nonces q hk t
      (fun y hy => hl y (List.mem_cons_of_mem _ hy))
    obtain ⟨a, ha⟩ := (mem_keys_iff_lookup _ _).mp (hl x (List.mem_cons_self _ _))
    have hax := hk x a ha
    refine ⟨a :: acts, by simp [ha, h1], by simp [hax, h2], ?_⟩
    intro b
    rw [List.mem_cons, h3 b, List.mem_cons]
    constructor
    · rintro (rfl | ⟨hb, hbt⟩)
      · exact ⟨by rw [hax]; exact ha, Or.inl hax⟩
      · exact ⟨hb, Or.inr hbt⟩
    · rintro ⟨hb, hbx | hbt⟩
      · left
        rw [hbx, ha] at hb
        exact (Option.some.inj hb).symm
      · exact Or.inr ⟨hb, hbt⟩

/-! ### Lemmas: the scenarios -/

theorem scenarioBalance_reachable : Reachable scenarioBalance :=
  Reachable.setPendingBalance _ _
    (Reachable.put _ _ (Reachable.put _ _ (Reachable.put _ _ Reachable.new (by decide))
      (by decide)) (by decide))

theorem scenarioGap_reachable : Reachable scenarioGap :=
  Reachable.setPendingBalance _ _
    (Reachable.put _ _ (Reachable.put _ _ Reachable.new (by decide)) (by decide))

theorem scenarioFilter_reachable : Reachable scenarioFilter :=
  Reachable.put _ _ (Reachable.put _ _ (Reachable.put _ _ (Reachable.put _ _ Reachable.new
    (by decide)) (by decide)) (by decide)) (by decide)

theorem scenarioLate_reachable : Reachable scenarioLate :=
  Reachable.put _ _ Reachable.new (by decide)

theorem ok_of_toOption {ε α β : Type} {r : Except ε α} {f : α → β} {b : β}
    (h : r.toOption.map f = some b) : ∃ a, r = .ok a ∧ f a = b := by
  cases r with
  | error e => simp [Except.toOption] at h
  | ok a => exact ⟨a, rfl, by simpa [Except.toOption] using h⟩

/-! ### Lemmas: walks that do not wrap around -/

theorem walked_eq_range' (n j : Nat) (h : n + j ≤ u64) : walked n j = List.range' n j := by
  unfold walked
  rw [List.range'_eq_map_range]
  apply List.map_congr_left
  intro i hi
  rw [List.mem_range] at hi
  exact Nat.mod_eq_of_lt (by omega)

theorem walked_snoc (n j : Nat) : walked n (j + 1) = walked n j ++ [(n + j) % u64] := by
  unfold walked
  rw [List.range_succ, List.map_append, List.map_singleton]

theorem costSum_congr (items1 items2 : Items) (l : List Nat)
    (h : ∀ x ∈ l, items1.lookup x = items2.lookup x) : costSum items1 l = costSum items2 l := by
  unfold costSum
  congr 1
  apply List.map_congr_left
  intro x hx
  unfold costAt
  rw [h x hx]

end ActPool

namespace ActPool

/-! ## The claims about the action queue -/

/-- C1: for every queue (a map with fewer than `2^64` entries, an index that holds stored nonces
only), every 64-bit starting nonce `n` and every pending balance, `UpdateQueue n` returns;
it sets the pending nonce to the first nonce `m = n + k` of the sequence `n, n+1, n+2, ...`
(64-bit values, as `nonce++` computes them) at which the map has no action or has an action
whose cost exceeds the balance minus the costs of the `k` actions before it, and it sets the
pending balance to the balance minus the sum of those `k` costs: nothing else is deducted. -/
theorem C1_updateQueue_pending (q : actQueue) (n : Nat) (hn : n < u64) (hlen : Len q < u64)
    (hidx : ∀ x ∈ q.index, x ∈ q.items.keys) :
    ∃ k q1 removed, UpdateQueue q n = .ok (q1, removed) ∧ k ≤ Len q ∧
      (∀ i, i < k → ∃ a, q.items.lookup ((n + i) % u64) = some a ∧
        a.cost ≤ q.pendingBalance - costSum q.items (walked n i)) ∧
      (q.items.lookup ((n + k) % u64) = none ∨
        ∃ a, q.items.lookup ((n + k) % u64) = some a ∧
          q.pendingBalance - costSum q.items (walked n k) < a.cost) ∧
      q1.pendingNonce = (n + k) % u64 ∧
      (n + k < u64 → q1.pendingNonce = n + k) ∧
      q1.pendingBalance = q.pendingBalance - costSum q.items (walked n k) := by
  obtain ⟨k, _, _, q1, removed, hk, hpay, hstop, heq, _, _, _, hpn, hpb, _⟩ :=
    UpdateQueue_cut q n hn (walkLoop_total q n hn hlen) hidx
  refine ⟨k, q1, removed, heq, hk, hpay, ?_, hpn,
    fun h => by rw [hpn, Nat.mod_eq_of_lt h], hpb⟩
  cases hl : q.items.lookup ((n + k) % u64) with
  | none => exact Or.inl rfl
  | some a => exact Or.inr ⟨a, rfl, hstop a hl⟩

theorem C1_updateQueue_pending_witness :
    1 < u64 ∧ Len scenarioBalance < u64 ∧
    (∀ x ∈ scenarioBalance.index, x ∈ scenarioBalance.items.keys) ∧
    ∃ k q1 removed, UpdateQueue scenarioBalance 1 = .ok (q1, removed) ∧
      k ≤ Len scenarioBalance ∧
      (∀ i, i < k → ∃ a, scenarioBalance.items.lookup ((1 + i) % u64) = some a ∧
        a.cost ≤ scenarioBalance.pendingBalance - costSum scenarioBalance.items (walked 1 i)) ∧
      (scenarioBalance.items.lookup ((1 + k) % u64) = none ∨
        ∃ a, scenarioBalance.items.lookup ((1 + k) % u64) = some a ∧
          scenarioBalance.pendingBalance - costSum scenarioBalance.items (walked 1 k) < a.cost) ∧
      q1.pendingNonce = (1 + k) % u64 ∧
      (1 + k < u64 → q1.pendingNonce = 1 + k) ∧
      q1.pendingBalance =
        scenarioBalance.pendingBalance - costSum scenarioBalance.items (walked 1 k) :=
  ⟨by decide, by decide, by decide,
    C1_updateQueue_pending scenarioBalance 1 (by decide) (by decide) (by decide)⟩

/-- C2 (Case I of `UpdateQueue`): for every reachable queue (with fewer than `2^64` entries) and
64-bit starting nonce, `UpdateQueue` returns, and if the walk stops at a nonce `m` (the new
pending nonce) whose action exists, then that action is not affordable, the returned list is
exactly the actions with nonce `>= m` in ascending nonce order, they are gone from both the
map and the index, and every action with nonce `< m` is kept. A queue holding a single
unaffordable action at its start nonce ends with the pending nonce equal to the start nonce
and the action dropped; with balance 10 and costs 4, 5, 3 at nonces 1, 2, 3, `UpdateQueue 1`
gives pending nonce 3, balance 1 and returns the action of nonce 3. -/
theorem C2_updateQueue_unpayable (q : actQueue) (n : Nat) (hr : Reachable q) (hn : n < u64)
    (hlen : Len q < u64) :
    (∃ q1 removed, UpdateQueue q n = .ok (q1, removed) ∧
      ((q.items.lookup q1.pendingNonce).isSome →
        (∃ a, q.items.lookup q1.pendingNonce = some a ∧ q1.pendingBalance < a.cost) ∧
        (∃ acts : List Action, removed = acts.map some ∧
          (acts.map Action.nonce).Sorted (· < ·) ∧
          (∀ a, a ∈ acts ↔ (q.items.lookup a.nonce = some a ∧ q1.pendingNonce ≤ a.nonce))) ∧
        (∀ x, q1.items.lookup x = if q1.pendingNonce ≤ x then none else q.items.lookup x) ∧
        (∀ x, x ∈ q1.index ↔ (x ∈ q.index ∧ x < q1.pendingNonce)))) ∧
    (∀ (a : Action) (b : Int), b < a.cost →
      ∃ q1, UpdateQueue (SetPendingBalance (SetStartNonce (Put NewActQueue a).1 a.nonce) b)
          a.nonce = .ok (q1, [some a]) ∧
        q1.startNonce = a.nonce ∧ q1.pendingNonce = a.nonce ∧ Len q1 = 0 ∧ q1.index = [] ∧
        q1.pendingBalance = b) ∧
    (∃ q1, UpdateQueue scenarioBalance 1 = .ok (q1, [some ⟨3, 3, 0⟩]) ∧
      q1.pendingNonce = 3 ∧ q1.pendingBalance = 1 ∧ q1.index = [1, 2] ∧
      q1.items.lookup 1 = some ⟨1, 4, 0⟩ ∧ q1.items.lookup 2 = some ⟨2, 5, 0⟩ ∧
      q1.items.lookup 3 = none) := by
  refine ⟨?_, ?_, ?_⟩
  · have hinv := reachable_inv q hr
    obtain ⟨k, keep, drop, q1, removed, _, _, hstop, heq, _, hidx, _, hpn, hpb, hlook, _,
      hrem, hI, _⟩ := UpdateQueue_cut q n hn (walkLoop_total q n hn hlen)
        (fun x hx => hinv.perm.subset hx)
    refine ⟨q1, removed, heq, ?_⟩
    rw [hpn]
    intro hcase
    obtain ⟨hkeep, hdrop⟩ := hI hcase
    rw [heldNonces_eq q hinv.perm] at hkeep hdrop
    have hmemdrop : ∀ x, x ∈ drop ↔ x ∈ q.items.keys ∧ (n + k) % u64 ≤ x := by
      intro x
      rw [hdrop, List.mem_filter, heldNonces_mem]
      simp
    refine ⟨?_, ?_, ?_, ?_⟩
    · obtain ⟨a, ha⟩ := Option.isSome_iff_exists.mp hcase
      exact ⟨a, ha, by rw [hpb]; exact hstop a ha⟩
    · obtain ⟨acts, h1, h2, h3⟩ := actions_of_nonces q hinv.keyNonce drop
        (fun x hx => ((hmemdrop x).mp hx).1)
      refine ⟨acts, ?_, ?_, ?_⟩
      · rw [hrem ((List.Perm.nodup_iff hinv.perm).mpr (AList.keys_nodup _)), h1]
      · rw [h2, hdrop]
        exact List.Sorted.filter _ (heldNonces_strict q)
      · intro a
        rw [h3 a, hmemdrop]
        constructor
        · rintro ⟨h, _, hle⟩; exact ⟨h, hle⟩
        · rintro ⟨h, hle⟩
          exact ⟨h, (mem_keys_iff_lookup _ _).mpr ⟨a, h⟩, hle⟩
    · intro x
      rw [hlook x]
      by_cases hx : (n + k) % u64 ≤ x
      · rw [if_pos hx]
        split
        · rfl
        · rename_i hnd
          rw [hmemdrop] at hnd
          cases hl : q.items.lookup x with
          | none => rfl
          | some a => exact absurd ⟨(mem_keys_iff_lookup _ _).mpr ⟨a, hl⟩, hx⟩ hnd
      · rw [if_neg hx, if_neg]
        intro hd
        exact hx ((hmemdrop x).mp hd).2
    · intro x
      rw [hidx, hkeep, List.mem_filter, heldNonces_mem, ← hinv.perm.mem_iff]
      simp
  · intro a b h
    have hl : (∅ : Items).lookup a.nonce = none := rfl
    have hput : (Put NewActQueue a).1 =
        { NewActQueue with index := [a.nonce], items := (∅ : Items).insert a.nonce a } := by
      rw [Put_fresh _ _ hl]
      simp [NewActQueue, heapPush, up, upLoop]
    rw [hput]
    have hlook : ((∅ : Items).insert a.nonce a).lookup a.nonce = some a :=
      AList.lookup_insert _
    refine ⟨{ items := (((∅ : Items).insert a.nonce a).erase a.nonce), index := [],
              startNonce := a.nonce, pendingNonce := a.nonce, pendingBalance := b },
      ?_, rfl, rfl, ?_, rfl, rfl⟩
    · simp only [UpdateQueue, SetPendingBalance, SetStartNonce, NewActQueue, walkLoop, hlook,
        enoughBalance, h, if_true, Bool.false_eq_true, if_false, sortIndex,
        List.insertionSort, List.orderedInsert, findPending, List.findIdx_cons, le_refl,
        decide_True, cond_true, Option.isSome_some, removeActs, List.length_cons,
        List.length_nil, List.drop_zero, removeLoop, List.take_zero, heapInit]
      rfl
    · simp [Len]
  · obtain ⟨⟨q1, removed⟩, hrun, hf⟩ := ok_of_toOption
      (by decide : (UpdateQueue scenarioBalance 1).toOption.map
        (fun r => (r.2, r.1.pendingNonce, r.1.pendingBalance, r.1.index)) =
        some ([some ⟨3, 3, 0⟩], 3, 1, [1, 2]))
    obtain ⟨⟨q2, removed2⟩, hrun2, hg⟩ := ok_of_toOption
      (by decide : (UpdateQueue scenarioBalance 1).toOption.map
        (fun r => ((r.1.items.lookup 1 : Option Action), (r.1.items.lookup 2 : Option Action),
          (r.1.items.lookup 3 : Option Action))) =
        some (some ⟨1, 4, 0⟩, some ⟨2, 5, 0⟩, none))
    rw [hrun] at hrun2
    simp only [Except.ok.injEq, Prod.mk.injEq] at hrun2
    obtain ⟨rfl, rfl⟩ := hrun2
    simp only [Prod.mk.injEq] at hf hg
    obtain ⟨h1, h2, h3, h4⟩ := hf
    obtain ⟨h5, h6, h7⟩ := hg
    exact ⟨q1, by rw [hrun, h1], h2, h3, h4, h5, h6, h7⟩

theorem C2_updateQueue_unpayable_witness :
    Reachable scenarioBalance ∧ 1 < u64 ∧ Len scenarioBalance < u64 ∧
    ∃ q1 removed, UpdateQueue scenarioBalance 1 = .ok (q1, removed) ∧
      ((scenarioBalance.items.lookup q1.pendingNonce).isSome →
        (∃ a, scenarioBalance.items.lookup q1.pendingNonce = some a ∧
          q1.pendingBalance < a.cost) ∧
        (∃ acts : List Action, removed = acts.map some ∧
          (acts.map Action.nonce).Sorted (· < ·) ∧
          (∀ a, a ∈ acts ↔
            (scenarioBalance.items.lookup a.nonce = some a ∧ q1.pendingNonce ≤ a.nonce))) ∧
        (∀ x, q1.items.lookup x =
          if q1.pendingNonce ≤ x then none else scenarioBalance.items.lookup x) ∧
        (∀ x, x ∈ q1.index ↔ (x ∈ scenarioBalance.index ∧ x < q1.pendingNonce))) :=
  ⟨scenarioBalance_reachable, by decide, by decide,
    (C2_updateQueue_unpayable scenarioBalance 1 scenarioBalance_reachable (by decide)
      (by decide)).1⟩

/-- C3 (Case II of `UpdateQueue`): for every reachable queue (with fewer than `2^64` entries)
and 64-bit starting nonce, `UpdateQueue` returns, and if the walk stops at a nonce `m` (the
new pending nonce) that the map does not hold, then, `above` being the held nonces `> m` in
ascending order, the returned list is the actions of `above` from the first one whose cost
exceeds the post-walk balance on, exactly these are gone from the map and the index, the
others are kept, and the balance is the post-walk balance; hence every kept action with
nonce `>= m` costs at most the pending balance. With balance 10, cost 1 at nonce 1 and cost
2 at nonce 3, `UpdateQueue 1` gives pending nonce 2, balance 9, keeps nonce 3 and returns
the empty list. -/
theorem C3_updateQueue_gap (q : actQueue) (n : Nat) (hr : Reachable q) (hn : n < u64)
    (hlen : Len q < u64) :
    (∃ k q1 removed, UpdateQueue q n = .ok (q1, removed) ∧
      q1.pendingNonce = (n + k) % u64 ∧
      q1.pendingBalance = q.pendingBalance - costSum q.items (walked n k) ∧
      (q.items.lookup q1.pendingNonce = none →
        (∃ acts : List Action, removed = acts.map some ∧
          acts.map Action.nonce =
            ((heldNonces q).filter (fun x => decide (q1.pendingNonce < x))).dropWhile
              (fun x => decide (costAt q.items x ≤ q1.pendingBalance)) ∧
          (∀ a, a ∈ acts → q.items.lookup a.nonce = some a)) ∧
        (∀ x, q1.items.lookup x =
          if x ∈ ((heldNonces q).filter (fun x => decide (q1.pendingNonce < x))).dropWhile
              (fun x => decide (costAt q.items x ≤ q1.pendingBalance))
          then none else q.items.lookup x) ∧
        q1.index = (heldNonces q).filter (fun x => decide (x < q1.pendingNonce)) ++
          ((heldNonces q).filter (fun x => decide (q1.pendingNonce < x))).takeWhile
              (fun x => decide (costAt q.items x ≤ q1.pendingBalance)) ∧
        (∀ x a, q1.items.lookup x = some a → q1.pendingNonce ≤ x →
          a.cost ≤ q1.pendingBalance))) ∧
    (∃ q1, UpdateQueue scenarioGap 1 = .ok (q1, []) ∧
      q1.pendingNonce = 2 ∧ q1.pendingBalance = 9 ∧
      q1.items.lookup 1 = some ⟨1, 1, 0⟩ ∧ q1.items.lookup 3 = some ⟨3, 2, 0⟩ ∧
      q1.index = [1, 3]) := by
  refine ⟨?_, ?_⟩
  · have hinv := reachable_inv q hr
    obtain ⟨k, keep, drop, q1, removed, _, _, _, heq, _, hidx, _, hpn, hpb, hlook, _,
      hrem, _, hII⟩ := UpdateQueue_cut q n hn (walkLoop_total q n hn hlen)
        (fun x hx => hinv.perm.subset hx)
    refine ⟨k, q1, removed, heq, hpn, hpb, ?_⟩
    rw [hpn, hpb]
    intro hcase
    obtain ⟨hkeep, hdrop⟩ := hII hcase
    rw [heldNonces_eq q hinv.perm] at hkeep hdrop
    have hfil : (heldNonces q).filter (fun x => decide ((n + k) % u64 ≤ x)) =
        (heldNonces q).filter (fun x => decide ((n + k) % u64 < x)) := by
      apply List.filter_congr
      intro x hx
      have hne : x ≠ (n + k) % u64 := by
        intro e
        rw [heldNonces_mem, mem_keys_iff_lookup, e, hcase] at hx
        obtain ⟨a, ha⟩ := hx
        cases ha
      by_cases h1 : (n + k) % u64 ≤ x
      · simp only [h1, decide_True]; symm; simp only [decide_eq_true_eq]; omega
      · simp only [h1, decide_False]; symm; simp only [decide_eq_false_iff_not]; omega
    rw [hfil] at hkeep hdrop
    have hsub : ∀ x ∈ drop, x ∈ q.items.keys := by
      intro x hx
      rw [hdrop] at hx
      exact (heldNonces_mem q x).mp
        (List.mem_of_mem_filter ((List.dropWhile_sublist _).subset hx))
    refine ⟨?_, ?_, ?_, ?_⟩
    · obtain ⟨acts, h1, h2, h3⟩ := actions_of_nonces q hinv.keyNonce drop hsub
      refine ⟨acts, ?_, by rw [h2, hdrop], fun a ha => ((h3 a).mp ha).1⟩
      rw [hrem ((List.Perm.nodup_iff hinv.perm).mpr (AList.keys_nodup _)), h1]
    · intro x; rw [hlook x, hdrop]
    · rw [hidx, hkeep]
    · intro x a hx hle
      rw [hlook x] at hx
      split at hx
      · cases hx
      · rename_i hnd
        have hxk : x ∈ heldNonces q :=
          (heldNonces_mem q x).mpr ((mem_keys_iff_lookup _ _).mpr ⟨a, hx⟩)
        have hne : x ≠ (n + k) % u64 := by
          intro e; rw [e, hcase] at hx; cases hx
        have hxf : x ∈ (heldNonces q).filter (fun x => decide ((n + k) % u64 < x)) := by
          rw [List.mem_filter]; exact ⟨hxk, by simp only [decide_eq_true_eq]; omega⟩
        rw [← List.takeWhile_append_dropWhile
          (fun x => decide (costAt q.items x ≤
            q.pendingBalance - costSum q.items (walked n k)))
          ((heldNonces q).filter (fun x => decide ((n + k) % u64 < x))),
          List.mem_append] at hxf
        rcases hxf with htw | hdw
        · have := List.mem_takeWhile_imp htw
          simpa [costAt, hx] using this
        · rw [hdrop] at hnd; exact absurd hdw hnd
  · obtain ⟨⟨q1, removed⟩, hrun, hf⟩ := ok_of_toOption
      (by decide : (UpdateQueue scenarioGap 1).toOption.map
        (fun r => (r.2, r.1.pendingNonce, r.1.pendingBalance, r.1.index)) =
        some ([], 2, 9, [1, 3]))
    obtain ⟨⟨q2, removed2⟩, hrun2, hg⟩ := ok_of_toOption
      (by decide : (UpdateQueue scenarioGap 1).toOption.map
        (fun r => ((r.1.items.lookup 1 : Option Action),
          (r.1.items.lookup 3 : Option Action))) =
        some (some ⟨1, 1, 0⟩, some ⟨3, 2, 0⟩))
    rw [hrun] at hrun2
    simp only [Except.ok.injEq, Prod.mk.injEq] at hrun2
    obtain ⟨rfl, rfl⟩ := hrun2
    simp only [Prod.mk.injEq] at hf hg
    obtain ⟨h1, h2, h3, h4⟩ := hf
    obtain ⟨h5, h6⟩ := hg
    exact ⟨q1, by rw [hrun, h1], h2, h3, h5, h6, h4⟩

theorem C3_updateQueue_gap_witness :
    Reachable scenarioGap ∧ 1 < u64 ∧ Len scenarioGap < u64 ∧
    ∃ k q1 removed, UpdateQueue scenarioGap 1 = .ok (q1, removed) ∧
      q1.pendingNonce = (1 + k) % u64 ∧
      q1.pendingBalance = scenarioGap.pendingBalance - costSum scenarioGap.items (walked 1 k) ∧
      (scenarioGap.items.lookup q1.pendingNonce = none →
        (∃ acts : List Action, removed = acts.map some ∧
          acts.map Action.nonce =
            ((heldNonces scenarioGap).filter (fun x => decide (q1.pendingNonce < x))).dropWhile
              (fun x => decide (costAt scenarioGap.items x ≤ q1.pendingBalance)) ∧
          (∀ a, a ∈ acts → scenarioGap.items.lookup a.nonce = some a)) ∧
        (∀ x, q1.items.lookup x =
          if x ∈ ((heldNonces scenarioGap).filter
              (fun x => decide (q1.pendingNonce < x))).dropWhile
              (fun x => decide (costAt scenarioGap.items x ≤ q1.pendingBalance))
          then none else scenarioGap.items.lookup x) ∧
        q1.index = (heldNonces scenarioGap).filter (fun x => decide (x < q1.pendingNonce)) ++
          ((heldNonces scenarioGap).filter (fun x => decide (q1.pendingNonce < x))).takeWhile
              (fun x => decide (costAt scenarioGap.items x ≤ q1.pendingBalance)) ∧
        (∀ x a, q1.items.lookup x = some a → q1.pendingNonce ≤ x →
          a.cost ≤ q1.pendingBalance)) :=
  ⟨scenarioGap_reachable, by decide, by decide,
    (C3_updateQueue_gap scenarioGap 1 scenarioGap_reachable (by decide) (by decide)).1⟩

/-- C4: for every queue and action, `Put` fails with `ErrNonce` if and only if the map already
has an action at the nonce of the action; a failed `Put` leaves the queue as it was; a
successful one stores the action at its nonce, makes the map one entry longer and leaves
every other entry, the nonces and the balance as they were. Putting nonce 5 twice into a new
queue succeeds once, fails once and leaves the length 1. -/
theorem C4_put (q : actQueue) (act : Action) :
    ((Put q act).2 = some .ErrNonce ↔ (q.items.lookup act.nonce).isSome) ∧
    ((Put q act).2 = none ↔ q.items.lookup act.nonce = none) ∧
    ((Put q act).2 = some .ErrNonce → (Put q act).1 = q) ∧
    ((Put q act).2 = none →
      (Put q act).1.items.lookup act.nonce = some act ∧
      Len (Put q act).1 = Len q + 1 ∧
      (∀ k, k ≠ act.nonce → (Put q act).1.items.lookup k = q.items.lookup k) ∧
      (Put q act).1.index.Perm (act.nonce :: q.index) ∧
      (Put q act).1.startNonce = q.startNonce ∧
      (Put q act).1.pendingNonce = q.pendingNonce ∧
      (Put q act).1.pendingBalance = q.pendingBalance) ∧
    (∀ a b : Action, a.nonce = 5 → b.nonce = 5 →
      (Put NewActQueue a).2 = none ∧
      (Put (Put NewActQueue a).1 b).2 = some .ErrNonce ∧
      Len (Put (Put NewActQueue a).1 b).1 = 1) := by
  have hcases : ∀ (q : actQueue) (act : Action),
      ((Put q act).2 = some .ErrNonce ↔ (q.items.lookup act.nonce).isSome) ∧
      ((Put q act).2 = none ↔ q.items.lookup act.nonce = none) := by
    intro q act
    cases hl : q.items.lookup act.nonce with
    | some a => rw [Put_dup q act (by simp [hl])]; simp
    | none => rw [Put_fresh q act hl]; simp
  have hfresh : ∀ (q : actQueue) (act : Action), (Put q act).2 = none →
      (Put q act).1.items.lookup act.nonce = some act ∧
      Len (Put q act).1 = Len q + 1 ∧
      (∀ k, k ≠ act.nonce → (Put q act).1.items.lookup k = q.items.lookup k) ∧
      (Put q act).1.index.Perm (act.nonce :: q.index) ∧
      (Put q act).1.startNonce = q.startNonce ∧
      (Put q act).1.pendingNonce = q.pendingNonce ∧
      (Put q act).1.pendingBalance = q.pendingBalance := by
    intro q act h
    have hl := (hcases q act).2.mp h
    have hnot : act.nonce ∉ q.items.keys := by
      rw [← AList.mem_keys]; exact AList.lookup_eq_none.mp hl
    rw [Put_fresh q act hl]
    refine ⟨AList.lookup_insert _, ?_, fun k hk => AList.lookup_insert_ne hk,
      heapPush_perm _ _, rfl, rfl, rfl⟩
    simp only [Len]
    rw [AList.keys_insert, List.erase_of_not_mem hnot, List.length_cons]
  refine ⟨(hcases q act).1, (hcases q act).2, ?_, hfresh q act, ?_⟩
  · intro h
    rw [Put_dup q act ((hcases q act).1.mp h)]
  · intro a b ha hb
    have h1 : (Put NewActQueue a).2 = none := by
      rw [(hcases _ _).2]; rfl
    have h2 : ((Put NewActQueue a).1.items.lookup b.nonce).isSome := by
      rw [hb, ← ha, (hfresh _ _ h1).1]; rfl
    refine ⟨h1, (hcases _ _).1.mpr h2, ?_⟩
    rw [Put_dup _ b h2, (hfresh _ _ h1).2.1]
    rfl

/-- C5: in every queue reachable from `NewActQueue` through the public operations the index
contains exactly the keys of the map, each of them once: the two have the same length, the
same elements, and the index has no duplicate. -/
theorem C5_index_matches_items (q : actQueue) (h : Reachable q) :
    q.index.length = Len q ∧ (∀ k, k ∈ q.index ↔ k ∈ q.items.keys) ∧ q.index.Nodup ∧
      q.index.Perm q.items.keys := by
  have hp := (reachable_inv q h).perm
  exact ⟨hp.length_eq, fun k => hp.mem_iff, (List.Perm.nodup_iff hp).mpr (AList.keys_nodup _),
    hp⟩

theorem C5_index_matches_items_witness :
    Reachable scenarioFilter ∧
    (scenarioFilter.index.length = Len scenarioFilter ∧
      (∀ k, k ∈ scenarioFilter.index ↔ k ∈ scenarioFilter.items.keys) ∧
      scenarioFilter.index.Nodup ∧ scenarioFilter.index.Perm scenarioFilter.items.keys) :=
  ⟨scenarioFilter_reachable, C5_index_matches_items scenarioFilter scenarioFilter_reachable⟩

/-- C6: for every queue reachable from `NewActQueue` through the public operations and every
threshold `t`, `FilterNonce t` returns exactly the held actions with nonce `< t`, in
strictly ascending nonce order, and afterwards the queue holds exactly the actions that had
nonce `>= t`, in the map and in the index. With the nonces 2, 4, 7, 9, `FilterNonce 5`
returns the actions of nonces 2 and 4 and leaves 7 and 9. -/
theorem C6_filterNonce (q : actQueue) (t : Nat) (hr : Reachable q) :
    (∃ q1 removed, FilterNonce q t = .ok (q1, removed) ∧
      (∃ acts : List Action, removed = acts.map some ∧
        (acts.map Action.nonce).Sorted (· < ·) ∧
        (∀ a, a ∈ acts ↔ (q.items.lookup a.nonce = some a ∧ a.nonce < t))) ∧
      (∀ x, q1.items.lookup x = if x < t then none else q.items.lookup x) ∧
      (∀ x, x ∈ q1.index ↔ (x ∈ q.index ∧ t ≤ x)) ∧
      (∀ x, x ∈ q1.items.keys → t ≤ x) ∧
      q1.startNonce = q.startNonce ∧ q1.pendingNonce = q.pendingNonce ∧
      q1.pendingBalance = q.pendingBalance) ∧
    (∃ q1, FilterNonce scenarioFilter 5 = .ok (q1, [some ⟨2, 0, 0⟩, some ⟨4, 0, 0⟩]) ∧
      q1.index = [7, 9] ∧ (∀ x, x ∈ q1.items.keys ↔ x = 7 ∨ x = 9)) := by
  refine ⟨?_, ?_⟩
  · have hinv := reachable_inv q hr
    obtain ⟨q1, hrun, hinv1, hlook, h1, h2, h3⟩ := FilterNonce_spec q t hinv
    have hkeys1 : ∀ x, x ∈ q1.items.keys ↔ (x ∈ q.items.keys ∧ t ≤ x) := by
      intro x
      rw [mem_keys_iff_lookup, mem_keys_iff_lookup, hlook]
      by_cases hx : x < t
      · simp only [hx, if_true]
        constructor
        · rintro ⟨a, ha⟩; cases ha
        · rintro ⟨_, hle⟩; omega
      · simp only [hx, if_false]
        constructor
        · intro h; exact ⟨h, by omega⟩
        · rintro ⟨h, _⟩; exact h
    refine ⟨q1, _, hrun, ?_, hlook, ?_, fun x hx => ((hkeys1 x).mp hx).2, h1, h2, h3⟩
    · rw [heldNonces_eq q hinv.perm]
      have hmem : ∀ x, x ∈ (heldNonces q).filter (fun x => decide (x < t)) ↔
          x ∈ q.items.keys ∧ x < t := by
        intro x; rw [List.mem_filter, heldNonces_mem]; simp
      obtain ⟨acts, h1, h2, h3⟩ := actions_of_nonces q hinv.keyNonce
        ((heldNonces q).filter (fun x => decide (x < t))) (fun x hx => ((hmem x).mp hx).1)
      refine ⟨acts, h1, ?_, ?_⟩
      · rw [h2]; exact List.Sorted.filter _ (heldNonces_strict q)
      · intro a
        rw [h3 a, hmem]
        constructor
        · rintro ⟨h, _, hlt⟩; exact ⟨h, hlt⟩
        · rintro ⟨h, hlt⟩
          exact ⟨h, (mem_keys_iff_lookup _ _).mpr ⟨a, h⟩, hlt⟩
    · intro x
      rw [hinv1.perm.mem_iff, hkeys1, hinv.perm.mem_iff]
  · obtain ⟨⟨q1, removed⟩, hrun, hf⟩ := ok_of_toOption
      (by decide : (FilterNonce scenarioFilter 5).toOption.map
        (fun r => (r.2, r.1.index, r.1.items.keys)) =
        some ([some ⟨2, 0, 0⟩, some ⟨4, 0, 0⟩], [7, 9], [9, 7]))
    simp only [Prod.mk.injEq] at hf
    obtain ⟨h1, h2, h3⟩ := hf
    refine ⟨q1, by rw [hrun, h1], h2, ?_⟩
    intro x
    rw [h3]
    simp only [List.mem_cons, List.mem_singleton, List.not_mem_nil, or_false]
    exact or_comm

theorem C6_filterNonce_witness :
    Reachable scenarioFilter ∧
    ∃ q1 removed, FilterNonce scenarioFilter 5 = .ok (q1, removed) ∧
      (∃ acts : List Action, removed = acts.map some ∧
        (acts.map Action.nonce).Sorted (· < ·) ∧
        (∀ a, a ∈ acts ↔ (scenarioFilter.items.lookup a.nonce = some a ∧ a.nonce < 5))) ∧
      (∀ x, q1.items.lookup x = if x < 5 then none else scenarioFilter.items.lookup x) ∧
      (∀ x, x ∈ q1.index ↔ (x ∈ scenarioFilter.index ∧ 5 ≤ x)) ∧
      (∀ x, x ∈ q1.items.keys → 5 ≤ x) ∧
      q1.startNonce = scenarioFilter.startNonce ∧
      q1.pendingNonce = scenarioFilter.pendingNonce ∧
      q1.pendingBalance = scenarioFilter.pendingBalance :=
  ⟨scenarioFilter_reachable, (C6_filterNonce scenarioFilter 5 scenarioFilter_reachable).1⟩

/-- C7 (counterexample): the queue with start nonce 1 that holds one action, at nonce 5: after
`UpdateQueue 5` the pending nonce is 6, and the nonce 1, which lies between the start nonce
and the pending nonce, is not in the map. -/
theorem C7_counterexample :
    ∃ q1 removed, UpdateQueue scenarioLate 5 = .ok (q1, removed) ∧
      scenarioLate.startNonce ≤ 1 ∧ 1 < q1.pendingNonce ∧ q1.items.lookup 1 = none := by
  obtain ⟨⟨q1, removed⟩, hrun, hf⟩ := ok_of_toOption
    (by decide : (UpdateQueue scenarioLate 5).toOption.map
      (fun r => (r.1.pendingNonce, (r.1.items.lookup 1 : Option Action))) = some (6, none))
  simp only [Prod.mk.injEq] at hf
  exact ⟨q1, removed, hrun, by decide, by rw [hf.1]; decide, hf.2⟩

/-- C7 (amended): for every queue (a map with fewer than `2^64` entries, an index that holds
stored nonces only) and every 64-bit argument `n` of `UpdateQueue`, the call returns, and
afterwards every nonce `x` with `n <= x < pending_nonce` is in the map and the sum of the
costs of the actions at `n, ..., x` is at most the pending balance the queue had before the
call. -/
theorem C7_updateQueue_prefix (q : actQueue) (n : Nat) (hn : n < u64) (hlen : Len q < u64)
    (hidx : ∀ x ∈ q.index, x ∈ q.items.keys) :
    ∃ q1 removed, UpdateQueue q n = .ok (q1, removed) ∧
      ∀ x, n ≤ x → x < q1.pendingNonce →
        (∃ a, q1.items.lookup x = some a ∧ q.items.lookup x = some a) ∧
        costSum q1.items (List.range' n (x + 1 - n)) ≤ q.pendingBalance := by
  obtain ⟨k, keep, drop, q1, removed, hk, hpay, _, heq, _, _, _, hpn, _, hlook, _,
    _, hI, hII⟩ := UpdateQueue_cut q n hn (walkLoop_total q n hn hlen) hidx
  refine ⟨q1, removed, heq, ?_⟩
  rw [hpn]
  intro x hnx hxm
  have hnowrap : n + k < u64 := by
    by_contra hc
    have : (n + k) % u64 = n + k - u64 := by
      rw [Nat.mod_eq_sub_mod (by omega), Nat.mod_eq_of_lt (by omega)]
    omega
  rw [Nat.mod_eq_of_lt hnowrap] at hxm
  have hdrop : ∀ y ∈ drop, n + k ≤ y := by
    intro y hy
    cases hl : q.items.lookup ((n + k) % u64) with
    | some a =>
      rw [(hI (by simp [hl])).2, List.mem_filter, Nat.mod_eq_of_lt hnowrap] at hy
      simpa using hy.2
    | none =>
      rw [(hII hl).2] at hy
      have := List.mem_filter.mp ((List.dropWhile_sublist _).subset hy)
      rw [Nat.mod_eq_of_lt hnowrap] at this
      simpa using this.2
  have hsame : ∀ y, y < n + k → q1.items.lookup y = q.items.lookup y := by
    intro y hy
    rw [hlook y, if_neg]
    intro hd
    have := hdrop y hd
    omega
  obtain ⟨a, ha, hle⟩ := hpay (x - n) (by omega)
  have hx : (n + (x - n)) % u64 = x := by
    rw [Nat.mod_eq_of_lt (by omega)]; omega
  rw [hx] at ha
  refine ⟨⟨a, by rw [hsame x hxm]; exact ha, ha⟩, ?_⟩
  have h1 : x + 1 - n = (x - n) + 1 := by omega
  rw [h1, ← walked_eq_range' n _ (by omega),
    costSum_congr q1.items q.items _ (fun y hy => hsame y (by
      rw [walked_eq_range' n _ (by omega), List.mem_range'_1] at hy; omega)),
    walked_snoc, hx]
  unfold costSum at hle ⊢
  rw [List.map_append, List.sum_append]
  simp only [List.map_singleton, List.sum_singleton, costAt, ha, Option.map_some',
    Option.getD_some]
  linarith

theorem C7_updateQueue_prefix_witness :
    1 < u64 ∧ Len scenarioBalance < u64 ∧
    (∀ x ∈ scenarioBalance.index, x ∈ scenarioBalance.items.keys) ∧
    ∃ q1 removed, UpdateQueue scenarioBalance 1 = .ok (q1, removed) ∧
      ∀ x, 1 ≤ x → x < q1.pendingNonce →
        (∃ a, q1.items.lookup x = some a ∧ scenarioBalance.items.lookup x = some a) ∧
        costSum q1.items (List.range' 1 (x + 1 - 1)) ≤ scenarioBalance.pendingBalance :=
  ⟨by decide, by decide, by decide,
    C7_updateQueue_prefix scenarioBalance 1 (by decide) (by decide) (by decide)⟩

/-- C8 (counterexample): in the scenario "gap pruning", after `UpdateQueue 1` the pending nonce
is 2 and the action of nonce 3 remains in the queue, although the nonce 2, which lies
between the start nonce 1 and 3, is missing. -/
theorem C8_counterexample :
    ∃ q1 removed, UpdateQueue scenarioGap 1 = .ok (q1, removed) ∧
      q1.pendingNonce ≤ 3 ∧ (q1.items.lookup 3).isSome ∧
      scenarioGap.startNonce ≤ 2 ∧ 2 < 3 ∧ scenarioGap.items.lookup 2 = none := by
  obtain ⟨⟨q1, removed⟩, hrun, hf⟩ := ok_of_toOption
    (by decide : (UpdateQueue scenarioGap 1).toOption.map
      (fun r => (r.1.pendingNonce, (r.1.items.lookup 3 : Option Action))) =
      some (2, some ⟨3, 2, 0⟩))
  simp only [Prod.mk.injEq] at hf
  exact ⟨q1, removed, hrun, by rw [hf.1]; decide, by rw [hf.2]; rfl, by decide, by decide,
    by decide⟩

/-- C8 (amended): for every queue (a map with fewer than `2^64` entries, an index that holds the
keys of the map) and every 64-bit argument, `UpdateQueue` returns, and afterwards: if the
walk stopped at a held action that is not payable, no action with nonce `>= pending_nonce`
remains; if it stopped at a missing nonce, no action with nonce `x >= pending_nonce` remains
when some held action with a nonce between the pending nonce and `x` costs more than the
pending balance. -/
theorem C8_updateQueue_pruned (q : actQueue) (n : Nat) (hn : n < u64) (hlen : Len q < u64)
    (hperm : q.index.Perm q.items.keys) :
    ∃ q1 removed, UpdateQueue q n = .ok (q1, removed) ∧
      ((q.items.lookup q1.pendingNonce).isSome →
        ∀ x, q1.pendingNonce ≤ x → q1.items.lookup x = none) ∧
      (q.items.lookup q1.pendingNonce = none →
        ∀ x y a, q1.pendingNonce ≤ y → y ≤ x → q.items.lookup y = some a →
          q1.pendingBalance < a.cost → q1.items.lookup x = none) := by
  obtain ⟨k, keep, drop, q1, removed, _, _, _, heq, _, _, _, hpn, hpb, hlook, _,
    _, hI, hII⟩ := UpdateQueue_cut q n hn (walkLoop_total q n hn hlen)
      (fun x hx => hperm.subset hx)
  refine ⟨q1, removed, heq, ?_, ?_⟩
  · rw [hpn]
    intro hcase x hx
    rw [hlook x]
    split
    · rfl
    · rename_i hnd
      cases hl : q.items.lookup x with
      | none => rfl
      | some a =>
        exfalso
        apply hnd
        rw [(hI hcase).2, heldNonces_eq q hperm, List.mem_filter, heldNonces_mem,
          mem_keys_iff_lookup]
        exact ⟨⟨a, hl⟩, by simpa using hx⟩
  · rw [hpn, hpb]
    intro hcase x y a hy hyx hya hcost
    rw [hlook x]
    split
    · rfl
    · rename_i hnd
      cases hl : q.items.lookup x with
      | none => rfl
      | some b =>
        exfalso
        apply hnd
        rw [(hII hcase).2, heldNonces_eq q hperm]
        have hsorted : ((heldNonces q).filter
            (fun x => decide ((n + k) % u64 ≤ x))).Sorted (· < ·) :=
          List.Sorted.filter _ (heldNonces_strict q)
        have hmem : ∀ z c, q.items.lookup z = some c → (n + k) % u64 ≤ z →
            z ∈ (heldNonces q).filter (fun x => decide ((n + k) % u64 ≤ x)) := by
          intro z c hz hle
          rw [List.mem_filter, heldNonces_mem, mem_keys_iff_lookup]
          exact ⟨⟨c, hz⟩, by simpa using hle⟩
        have hxm := hmem x b hl (by omega)
        have hym := hmem y a hya hy
        rw [← List.takeWhile_append_dropWhile
          (fun x => decide (costAt q.items x ≤
            q.pendingBalance - costSum q.items (walked n k)))
          ((heldNonces q).filter (fun x => decide ((n + k) % u64 ≤ x)))] at hsorted hxm hym
        rw [List.mem_append] at hxm hym
        have hyd : y ∈ List.dropWhile (fun x => decide (costAt q.items x ≤
            q.pendingBalance - costSum q.items (walked n k)))
            ((heldNonces q).filter (fun x => decide ((n + k) % u64 ≤ x))) := by
          rcases hym with htw | hdw
          · have := List.mem_takeWhile_imp htw
            simp only [costAt, hya, Option.map_some', Option.getD_some,
              decide_eq_true_eq] at this
            omega
          · exact hdw
        rcases hxm with htw | hdw
        · have := (List.pairwise_append.mp hsorted).2.2 x htw y hyd
          omega
        · exact hdw

theorem C8_updateQueue_pruned_witness :
    1 < u64 ∧ Len scenarioBalance < u64 ∧
    scenarioBalance.index.Perm scenarioBalance.items.keys ∧
    ∃ q1 removed, UpdateQueue scenarioBalance 1 = .ok (q1, removed) ∧
      ((scenarioBalance.items.lookup q1.pendingNonce).isSome →
        ∀ x, q1.pendingNonce ≤ x → q1.items.lookup x = none) ∧
      (scenarioBalance.items.lookup q1.pendingNonce = none →
        ∀ x y a, q1.pendingNonce ≤ y → y ≤ x → scenarioBalance.items.lookup y = some a →
          q1.pendingBalance < a.cost → q1.items.lookup x = none) :=
  ⟨by decide, by decide, by decide,
    C8_updateQueue_pruned scenarioBalance 1 (by decide) (by decide) (by decide)⟩

end ActPool

namespace Blockchain

/-! ## Lemmas: the bookkeeping of nonces in `verifyActions` -/

theorem noncesOf_append (l1 l2 : List (String × Nat)) (s : String) :
    noncesOf (l1 ++ l2) s = noncesOf l1 s ++ noncesOf l2 s := by
  simp [noncesOf]

theorem noncesOf_single (a s : String) (n : Nat) :
    noncesOf [(a, n)] s = if a = s then [n] else [] := by
  by_cases h : a = s <;> simp [noncesOf, h]

theorem bookInv_empty (sf : Factory) : BookInv sf Book.empty [] := by
  refine ⟨fun s => rfl, ?_, fun s _ => rfl, fun s _ => rfl⟩
  intro s c h
  simp [Book.empty] at h

theorem bookInv_counters (sf : Factory) (b : Book) (l : List (String × Nat)) (x y : Nat)
    (h : BookInv sf b l) :
    BookInv sf { b with correctAction := x, coinbaseCount := y } l :=
  ⟨h.received, h.confirmed, h.seen, h.fresh⟩

theorem recordNonce_inv (sf : Factory) (b b1 : Book) (a msg : String) (n : Nat)
    (l : List (String × Nat)) (hb : BookInv sf b l)
    (h : recordNonce sf b a n msg = .ok b1) : BookInv sf b1 (l ++ [(a, n)]) := by
  unfold recordNonce at h
  cases hl : b.confirmedNonceMap.lookup a with
  | none =>
    rw [hl] at h
    cases hsf : sf a with
    | error e => rw [hsf] at h; cases h
    | ok c =>
      rw [hsf] at h
      simp only [Except.ok.injEq] at h
      subst h
      refine ⟨?_, ?_, ?_, ?_⟩
      · intro s
        rw [noncesOf_append, noncesOf_single, ← hb.received s]
        simp only [Book.received]
        by_cases hs : a = s
        · subst hs
          rw [AList.lookup_insert, if_pos rfl]
          have := hb.received a
          rw [hb.seen a hl] at this
          simp only [Book.received] at this
          simp [this]
        · rw [AList.lookup_insert_ne (Ne.symm hs), if_neg hs, List.append_nil]
      · intro s c' hs
        simp only at hs
        by_cases hsa : s = a
        · subst hsa
          rw [AList.lookup_insert] at hs
          cases hs; exact hsf
        · rw [AList.lookup_insert_ne hsa] at hs
          exact hb.confirmed s c' hs
      · intro s hs
        simp only at hs
        by_cases hsa : s = a
        · subst hsa
          rw [AList.lookup_insert] at hs
          cases hs
        · rw [AList.lookup_insert_ne hsa] at hs
          rw [noncesOf_append, hb.seen s hs, noncesOf_single, if_neg (Ne.symm hsa)]
          rfl
      · intro s hs
        rw [noncesOf_append, noncesOf_single] at hs
        by_cases hsa : a = s
        · rw [if_pos hsa] at hs; simp at hs
        · rw [if_neg hsa, List.append_nil] at hs
          simp only
          rw [AList.lookup_insert_ne (Ne.symm hsa)]
          exact hb.fresh s hs
  | some c =>
    rw [hl] at h
    simp only [Except.ok.injEq] at h
    subst h
    refine ⟨?_, hb.confirmed, ?_, ?_⟩
    · intro s
      rw [noncesOf_append, noncesOf_single, ← hb.received s]
      simp only [Book.received]
      by_cases hs : a = s
      · subst hs
        rw [AList.lookup_insert, if_pos rfl]
        rfl
      · rw [AList.lookup_insert_ne (Ne.symm hs), if_neg hs, List.append_nil]
    · intro s hs
      simp only at hs
      have hsa : a ≠ s := by
        intro e; rw [← e, hl] at hs; cases hs
      rw [noncesOf_append, hb.seen s hs, noncesOf_single, if_neg hsa]
      rfl
    · intro s hs
      rw [noncesOf_append, noncesOf_single] at hs
      by_cases hsa : a = s
      · rw [if_pos hsa] at hs; simp at hs
      · rw [if_neg hsa, List.append_nil] at hs
        exact hb.fresh s hs

theorem recordNonce_counters (sf : Factory) (b b1 : Book) (a msg : String) (n : Nat)
    (h : recordNonce sf b a n msg = .ok b1) :
    b1.correctAction = b.correctAction ∧ b1.coinbaseCount = b.coinbaseCount := by
  unfold recordNonce at h
  split at h
  · split at h
    · cases h
    · simp only [Except.ok.injEq] at h; subst h; exact ⟨rfl, rfl⟩
  · simp only [Except.ok.injEq] at h; subst h; exact ⟨rfl, rfl⟩

theorem transferStep_inv (env : Env) (sf : Factory) (blk : Block) (b b1 : Book)
    (tsf : Transfer) (l : List (String × Nat)) (hh : 0 < blk.Header.height)
    (hb : BookInv sf b l) (h : transferStep env sf blk b tsf = .ok b1) :
    BookInv sf b1 (l ++ if tsf.IsCoinbase then [] else [(tsf.Sender, tsf.Nonce)]) := by
  unfold transferStep at h
  split at h
  · cases h
  · split at h
    · cases h
    · rename_i b2 hrec
      have hb2 : BookInv sf b2 (l ++ if tsf.IsCoinbase then [] else [(tsf.Sender, tsf.Nonce)]) := by
        cases hc : tsf.IsCoinbase with
        | true =>
          simp only [hc, Bool.not_true, Bool.and_false, Bool.false_eq_true, if_false,
            Except.ok.injEq, if_true, List.append_nil] at hrec ⊢
          rw [← hrec]; exact hb
        | false =>
          simp only [hc, hh, decide_True, Bool.not_false, Bool.and_self, if_true,
            Bool.false_eq_true, if_false] at hrec ⊢
          split at hrec
          · cases hrec
          · exact recordNonce_inv sf b b2 _ _ _ l hb hrec
      split at h
      · split at h
        · simp only [Except.ok.injEq] at h; rw [← h]; exact hb2
        · simp only [Except.ok.injEq] at h; rw [← h]
          exact ⟨hb2.received, hb2.confirmed, hb2.seen, hb2.fresh⟩
      · split at h
        · simp only [Except.ok.injEq] at h; rw [← h]; exact hb2
        · simp only [Except.ok.injEq] at h; rw [← h]
          exact ⟨hb2.received, hb2.confirmed, hb2.seen, hb2.fresh⟩

theorem voteStep_inv (env : Env) (sf : Factory) (blk : Block) (b b1 : Book)
    (vote : Vote) (l : List (String × Nat)) (hh : 0 < blk.Header.height)
    (hb : BookInv sf b l) (h : voteStep env sf blk b vote = .ok b1) :
    BookInv sf b1 (l ++ [(vote.Voter, vote.Nonce)]) := by
  unfold voteStep at h
  split at h
  · cases h
  · split at h
    · cases h
    · split at h
      · cases h
      · rename_i b2 hrec
        have hb2 : BookInv sf b2 (l ++ [(vote.Voter, vote.Nonce)]) := by
          simp only [hh, if_true] at hrec
          split at hrec
          · cases hrec
          · exact recordNonce_inv sf b b2 _ _ _ l hb hrec
        split at h
        · simp only [Except.ok.injEq] at h; rw [← h]; exact hb2
        · simp only [Except.ok.injEq] at h; rw [← h]
          exact ⟨hb2.received, hb2.confirmed, hb2.seen, hb2.fresh⟩

theorem executionStep_inv (env : Env) (sf : Factory) (blk : Block) (b b1 : Book)
    (execution : Execution) (l : List (String × Nat)) (hh : 0 < blk.Header.height)
    (hb : BookInv sf b l) (h : executionStep env sf blk b execution = .ok b1) :
    BookInv sf b1 (l ++ [(execution.Executor, execution.Nonce)]) := by
  unfold executionStep at h
  split at h
  · cases h
  · split at h
    · cases h
    · split at h
      · cases h
      · rename_i b2 hrec
        have hb2 : BookInv sf b2 (l ++ [(execution.Executor, execution.Nonce)]) := by
          simp only [hh, if_true] at hrec
          exact recordNonce_inv sf b b2 _ _ _ l hb hrec
        simp only at h
        split at h
        · cases h
        · split at h
          · cases h
          · simp only [Except.ok.injEq] at h; rw [← h]
            split
            · exact hb2
            · exact ⟨hb2.received, hb2.confirmed, hb2.seen, hb2.fresh⟩

theorem witnessStep_inv (env : Env) (sf : Factory) (blk : Block) (b b1 : Book)
    (l : List (String × Nat)) (hb : BookInv sf b l)
    (h : witnessStep env sf blk b = .ok b1) :
    BookInv sf b1 (l ++ match blk.SecretWitness with
      | none => []
      | some sw => [(sw.SrcAddr, sw.Nonce)]) := by
  unfold witnessStep at h
  cases hw : blk.SecretWitness with
  | none =>
    rw [hw] at h
    simp only [Except.ok.injEq] at h
    rw [← h, List.append_nil]; exact hb
  | some sw =>
    rw [hw] at h
    simp only at h
    split at h
    · cases h
    · exact recordNonce_inv sf b b1 _ _ _ l hb h

theorem proposalStep_inv (env : Env) (sf : Factory) (va : String) (blk : Block) (b b1 : Book)
    (sp : SecretProposal) (l : List (String × Nat))
    (hb : BookInv sf b l) (h : proposalStep env sf va blk b sp = .ok b1) :
    BookInv sf b1 (l ++ [(sp.SrcAddr, sp.Nonce)]) := by
  unfold proposalStep at h
  split at h
  · cases h
  · split at h
    · cases h
    · split at h
      · cases h
      · rename_i b2 hrec
        have hb2 := recordNonce_inv sf b b2 _ _ _ l hb hrec
        split at h
        · split at h
          · cases h
          · simp only at h
            split at h
            · cases h
            · simp only [Except.ok.injEq] at h; rw [← h]; exact hb2
        · simp only [Except.ok.injEq] at h; rw [← h]; exact hb2

/-- A loop keeps the agreement of the maps with the recorded pairs when each of its
iterations does. -/
theorem forEach_inv {α : Type} (sf : Factory) (step : Book → α → Except Stop Book)
    (f : α → List (String × Nat))
    (hstep : ∀ b b1 x l, BookInv sf b l → step b x = .ok b1 → BookInv sf b1 (l ++ f x)) :
    ∀ (xs : List α) (b b1 : Book) (l : List (String × Nat)), BookInv sf b l →
      forEach step xs b = .ok b1 → BookInv sf b1 (l ++ (xs.map f).flatten)
  | [], b, b1, l, hb, h => by
    simp only [forEach, Except.ok.injEq] at h
    rw [← h]; simpa using hb
  | x :: rest, b, b1, l, hb, h => by
    unfold forEach at h
    split at h
    · cases h
    · rename_i b2 hx
      have := forEach_inv sf step f hstep rest b2 b1 _ (hstep b b2 x l hb hx) h
      simpa [List.append_assoc] using this

theorem join_filter_map {α β : Type} (p : α → Bool) (g : α → β) (xs : List α) :
    (xs.map (fun x => if p x then [] else [g x])).flatten =
      (xs.filter (fun x => !p x)).map g := by
  induction xs with
  | nil => rfl
  | cons x t ih =>
    rw [List.map_cons, List.flatten_cons, ih]
    cases hp : p x <;> simp [hp]

theorem join_map_single {α β : Type} (g : α → β) (xs : List α) :
    (xs.map (fun x => [g x])).flatten = xs.map g := by
  induction xs with
  | nil => rfl
  | cons x t ih => rw [List.map_cons, List.flatten_cons, ih]; rfl

/-- At a height above 0 the maps of `verifyActions`, once the secret proposals are
done, hold the nonces of the block sender by sender. -/
theorem collectActions_inv (env : Env) (sf : Factory) (va : String) (blk : Block)
    (cb : Bool) (b : Book) (hh : 0 < blk.Header.height)
    (h : collectActions env sf va blk cb = .ok b) : BookInv sf b (senderNonces blk) := by
  unfold collectActions at h
  split at h
  · cases h
  · rename_i b1 h1
    split at h
    · cases h
    · rename_i b2 h2
      split at h
      · cases h
      · rename_i b3 h3
        split at h
        · cases h
        · split at h
          · cases h
          · rename_i b4 h4
            have i1 := forEach_inv sf (transferStep env sf blk)
              (fun t => if t.IsCoinbase then [] else [(t.Sender, t.Nonce)])
              (fun b b1 x l hb hs => transferStep_inv env sf blk b b1 x l hh hb hs)
              _ _ _ _ (bookInv_empty sf) h1
            have i2 := forEach_inv sf (voteStep env sf blk)
              (fun v => [(v.Voter, v.Nonce)])
              (fun b b1 x l hb hs => voteStep_inv env sf blk b b1 x l hh hb hs)
              _ _ _ _ i1 h2
            have i3 := forEach_inv sf (executionStep env sf blk)
              (fun e => [(e.Executor, e.Nonce)])
              (fun b b1 x l hb hs => executionStep_inv env sf blk b b1 x l hh hb hs)
              _ _ _ _ i2 h3
            have i4 := witnessStep_inv env sf blk _ _ _ i3 h4
            have i5 := forEach_inv sf (proposalStep env sf va blk)
              (fun sp => [(sp.SrcAddr, sp.Nonce)])
              (fun b b1 x l hb hs => proposalStep_inv env sf va blk b b1 x l hb hs)
              _ _ _ _ i4 h
            rw [join_filter_map, join_map_single, join_map_single, join_map_single,
              List.nil_append] at i5
            exact i5

/-! ## Lemmas: the verification of the nonces -/

theorem consecutiveFrom_succ (c k : Nat) :
    consecutiveFrom c (k + 1) = (c + 1) % ActPool.u64 :: consecutiveFrom (c + 1) k := by
  unfold consecutiveFrom
  rw [List.range_succ_eq_map, List.map_cons, List.map_map]
  congr 1
  apply List.map_congr_left
  intro i _
  simp only [Function.comp]
  congr 1
  omega

theorem length_consecutiveFrom (c k : Nat) : (consecutiveFrom c k).length = k := by
  simp [consecutiveFrom]

theorem nonceLoop_iff (c : Nat) : ∀ (l : List Nat) (i : Nat),
    nonceLoop c l i = true ↔ l = consecutiveFrom (c + i) l.length
  | [], i => by simp [nonceLoop, consecutiveFrom]
  | x :: t, i => by
    unfold nonceLoop
    rw [List.length_cons, consecutiveFrom_succ, List.cons.injEq]
    have hadd : c + (i + 1) = c + i + 1 := by omega
    by_cases hx : x = (c + (i + 1)) % ActPool.u64
    · rw [if_neg (by simpa using hx), nonceLoop_iff c t (i + 1), hadd]
      constructor
      · intro h; exact ⟨by rw [← hadd]; exact hx, h⟩
      · intro h; exact h.2
    · rw [if_pos (by simpa using hx)]
      constructor
      · intro h; cases h
      · intro h; rw [← hadd] at h; exact absurd h.1 hx

theorem sortNonces_perm (l : List Nat) : (sortNonces l).Perm l :=
  List.perm_insertionSort _ _

theorem sortNonces_sorted (l : List Nat) : (sortNonces l).Sorted (· ≤ ·) :=
  List.sorted_insertionSort _ _

theorem sortNonces_length (l : List Nat) : (sortNonces l).length = l.length :=
  (sortNonces_perm l).length_eq

/-- A run `c+1, c+2, ...` of `uint64` sums that is in ascending order does not wrap
around after its first element. -/
theorem consecutiveFrom_sorted : ∀ (k c : Nat), (consecutiveFrom c k).Sorted (· ≤ ·) →
    consecutiveFrom c k = List.range' ((c + 1) % ActPool.u64) k
  | 0, c, _ => rfl
  | k + 1, c, hs => by
    rw [consecutiveFrom_succ] at hs ⊢
    have hs' := List.sorted_cons.mp hs
    rw [consecutiveFrom_sorted k (c + 1) hs'.2, List.range'_succ]
    cases k with
    | zero => rfl
    | succ j =>
      have hmem : (c + 1 + 1) % ActPool.u64 ∈ consecutiveFrom (c + 1) (j + 1) := by
        rw [consecutiveFrom_succ]; exact List.mem_cons_self _ _
      have hle := hs'.1 _ hmem
      have : (c + 1 + 1) % ActPool.u64 = (c + 1) % ActPool.u64 + 1 := by
        simp only [ActPool.u64] at hle ⊢
        omega
      rw [this]

/-- The verification of the nonces, on maps that agree with the recorded pairs: it
passes when the sorted nonces of every sender are the `uint64` values that follow its
confirmed nonce. -/
theorem checkNonces_ok_iff (sf : Factory) (blk : Block) (b : Book) (l : List (String × Nat))
    (hh : 0 < blk.Header.height) (hb : BookInv sf b l) :
    (checkNonces blk b = .ok () ↔
      ∀ s c, sf s = .ok c →
        sortNonces (noncesOf l s) = consecutiveFrom c (noncesOf l s).length) ∧
    (checkNonces blk b ≠ .ok () →
      checkNonces blk b =
        .error (.error ⟨.ErrActionNonce, ["the nonce of the action is invalid"]⟩)) := by
  have hall : (b.confirmedNonceMap.entries.all
      (fun e => nonceLoop e.2 (sortNonces (b.received e.1)) 0) = true) ↔
      ∀ s c, sf s = .ok c →
        sortNonces (noncesOf l s) = consecutiveFrom c (noncesOf l s).length := by
    rw [List.all_eq_true]
    constructor
    · intro h s c hsc
      cases hl : b.confirmedNonceMap.lookup s with
      | none => rw [hb.seen s hl]; rfl
      | some c' =>
        have hc : c' = c := by
          have := hb.confirmed s c' hl
          rw [hsc] at this
          exact (Except.ok.inj this).symm
        subst hc
        have hmem : (⟨s, c'⟩ : Sigma (fun _ : String => Nat)) ∈ b.confirmedNonceMap.entries :=
          AList.mem_lookup_iff.mp hl
        have := h _ hmem
        rw [nonceLoop_iff, sortNonces_length, hb.received s] at this
        simpa using this
    · intro h e he
      have hl : b.confirmedNonceMap.lookup e.1 = some e.2 := AList.mem_lookup_iff.mpr he
      rw [nonceLoop_iff, sortNonces_length, hb.received e.1]
      simpa using h e.1 e.2 (hb.confirmed _ _ hl)
  unfold checkNonces
  rw [if_pos hh]
  by_cases hp : (b.confirmedNonceMap.entries.all
      (fun e => nonceLoop e.2 (sortNonces (b.received e.1)) 0) = true)
  · rw [if_pos hp]
    exact ⟨⟨fun _ => hall.mp hp, fun _ => rfl⟩, fun h => absurd rfl h⟩
  · rw [if_neg hp]
    exact ⟨Iff.intro (fun h => by cases h) (fun h => absurd (hall.mpr h) hp), fun _ => rfl⟩

/-- The method `Validate` on a block that is not a dummy block and passes the first two
phases, with a factory attached: it is `verifyActions`. -/
theorem Validate_eq_verifyActions (env : Env) (v : validator) (sf : Factory) (blk : Block)
    (tipHeight : Nat) (tipHash : Bytes) (cb : Bool)
    (hsf : v.sf = some sf) (hdummy : env.IsDummyBlock blk = false)
    (hlink : verifyHeightAndHash (some blk) tipHeight tipHash = .ok ())
    (hroot : verifySigAndRoot env blk = .ok ()) :
    Validate env v (some blk) tipHeight tipHash cb =
      verifyActions env sf v.validatorAddr blk cb := by
  simp [Validate, hlink, hroot, hsf, wrapStop, hdummy]

theorem ok_of_toBool {α : Type} (r : Except Stop α) (h : r.toBool = true) :
    ∃ a, r = .ok a := by
  cases r with
  | error e => simp [Except.toBool] at h
  | ok a => exact ⟨a, rfl⟩

theorem consecutiveFrom_eq_range' (c k : Nat) (h : c + k < ActPool.u64) :
    consecutiveFrom c k = List.range' (c + 1) k := by
  unfold consecutiveFrom
  rw [List.range'_eq_map_range]
  apply List.map_congr_left
  intro i hi
  rw [List.mem_range] at hi
  rw [Nat.mod_eq_of_lt (by omega)]
  omega

theorem Validate_ok_actions (env : Env) (v : validator) (sf : Factory) (blk : Block)
    (tipHeight : Nat) (tipHash : Bytes) (cb : Bool)
    (hsf : v.sf = some sf) (hdummy : env.IsDummyBlock blk = false)
    (h : Validate env v (some blk) tipHeight tipHash cb = .ok ()) :
    ∃ b, collectActions env sf v.validatorAddr blk cb = .ok b ∧ checkNonces blk b = .ok () := by
  unfold Validate at h
  split at h
  · cases h
  · simp only [hdummy, Bool.false_eq_true, if_false] at h
    split at h
    · cases h
    · rw [hsf] at h
      simp only at h
      unfold verifyActions at h
      split at h
      · cases h
      · rename_i b hb
        exact ⟨b, hb, h⟩

end Blockchain

namespace Blockchain

/-! ## The claims about the nonces of a block -/

/-- C9: for every block that is not a dummy block, has a height above 0 and is validated
with a state factory attached, once all the earlier phases pass (linkage, signature and
root, the three loops over the actions, the two counts, the witness and the secret
proposals), `Validate` returns `ErrActionNonce` if and only if for some sender `s` the
ascending sort of the nonces of all of `s`'s non-coinbase transfers, votes, executions,
secret witness and secret proposals (one list per sender, whatever the order of the
actions) differs from `confirmed+1, ..., confirmed+k`, these sums being `uint64` sums as
in the source; otherwise it succeeds. For a confirmed nonce below `2^64 - 1` the condition
is that of the natural numbers `confirmed+1, ..., confirmed+k`. A sender with confirmed
nonce 3 and the nonces 4 and 6 is rejected. -/
theorem C9_nonce_sequencing (env : Env) (v : validator) (sf : Factory) (blk : Block)
    (tipHeight : Nat) (tipHash : Bytes) (containCoinbase : Bool) (b : Book)
    (hsf : v.sf = some sf) (hdummy : env.IsDummyBlock blk = false)
    (hheight : 0 < blk.Header.height)
    (hlink : verifyHeightAndHash (some blk) tipHeight tipHash = .ok ())
    (hroot : verifySigAndRoot env blk = .ok ())
    (hcollect : collectActions env sf v.validatorAddr blk containCoinbase = .ok b) :
    (Validate env v (some blk) tipHeight tipHash containCoinbase =
        .error (.error ⟨.ErrActionNonce, ["the nonce of the action is invalid"]⟩) ↔
      ∃ s c, sf s = .ok c ∧
        sortNonces (noncesOf (senderNonces blk) s) ≠
          consecutiveFrom c (noncesOf (senderNonces blk) s).length) ∧
    (Validate env v (some blk) tipHeight tipHash containCoinbase = .ok () ↔
      ¬ ∃ s c, sf s = .ok c ∧
        sortNonces (noncesOf (senderNonces blk) s) ≠
          consecutiveFrom c (noncesOf (senderNonces blk) s).length) ∧
    (∀ s c, c + 1 < ActPool.u64 → (∀ n ∈ noncesOf (senderNonces blk) s, n < ActPool.u64) →
      (sortNonces (noncesOf (senderNonces blk) s) =
          consecutiveFrom c (noncesOf (senderNonces blk) s).length ↔
        sortNonces (noncesOf (senderNonces blk) s) =
          List.range' (c + 1) (noncesOf (senderNonces blk) s).length)) ∧
    (∀ s (l : List Nat), l.Perm (noncesOf (senderNonces blk) s) →
      sortNonces l = sortNonces (noncesOf (senderNonces blk) s)) ∧
    (∀ s, sf s = .ok 3 → (noncesOf (senderNonces blk) s).Perm [4, 6] →
      Validate env v (some blk) tipHeight tipHash containCoinbase =
        .error (.error ⟨.ErrActionNonce, ["the nonce of the action is invalid"]⟩)) := by
  have hinv := collectActions_inv env sf v.validatorAddr blk containCoinbase b hheight hcollect
  have hval : Validate env v (some blk) tipHeight tipHash containCoinbase = checkNonces blk b := by
    rw [Validate_eq_verifyActions env v sf blk tipHeight tipHash containCoinbase hsf hdummy
      hlink hroot]
    unfold verifyActions
    rw [hcollect]
  obtain ⟨hok, herr⟩ := checkNonces_ok_iff sf blk b _ hheight hinv
  have hperm : ∀ s (l : List Nat), l.Perm (noncesOf (senderNonces blk) s) →
      sortNonces l = sortNonces (noncesOf (senderNonces blk) s) := by
    intro s l hl
    exact List.eq_of_perm_of_sorted (r := (· ≤ ·))
      ((sortNonces_perm l).trans (hl.trans (sortNonces_perm _).symm))
      (sortNonces_sorted _) (sortNonces_sorted _)
  have hrej : Validate env v (some blk) tipHeight tipHash containCoinbase =
        .error (.error ⟨.ErrActionNonce, ["the nonce of the action is invalid"]⟩) ↔
      ∃ s c, sf s = .ok c ∧
        sortNonces (noncesOf (senderNonces blk) s) ≠
          consecutiveFrom c (noncesOf (senderNonces blk) s).length := by
    rw [hval]
    constructor
    · intro h
      by_contra hne
      have : checkNonces blk b = .ok () := by
        rw [hok]
        intro s c hsc
        by_contra hd
        exact hne ⟨s, c, hsc, hd⟩
      rw [this] at h
      cases h
    · rintro ⟨s, c, hsc, hd⟩
      apply herr
      intro h
      exact hd (hok.mp h s c hsc)
  refine ⟨hrej, ?_, ?_, hperm, ?_⟩
  · rw [hval, hok]
    constructor
    · rintro h ⟨s, c, hsc, hd⟩
      exact hd (h s c hsc)
    · intro h s c hsc
      by_contra hd
      exact h ⟨s, c, hsc, hd⟩
  · intro s c hc hbound
    constructor
    · intro h
      have hs := sortNonces_sorted (noncesOf (senderNonces blk) s)
      rw [h] at hs
      rw [h, consecutiveFrom_sorted _ c hs, Nat.mod_eq_of_lt hc]
    · intro h
      rw [h]
      symm
      cases hk : (noncesOf (senderNonces blk) s).length with
      | zero => rfl
      | succ k =>
        apply consecutiveFrom_eq_range'
        have hmem : c + 1 + k ∈ sortNonces (noncesOf (senderNonces blk) s) := by
          rw [h, hk, List.mem_range'_1]; omega
        have := hbound _ ((sortNonces_perm _).subset hmem)
        omega
  · intro s hs3 hp
    rw [hrej]
    refine ⟨s, 3, hs3, ?_⟩
    rw [← hperm s [4, 6] hp.symm, hp.length_eq]
    decide

theorem C9_nonce_sequencing_witness :
    scenarioValidator.sf = some scenarioFactory ∧
    scenarioEnv.IsDummyBlock scenarioBlockGap = false ∧
    0 < scenarioBlockGap.Header.height ∧
    verifyHeightAndHash (some scenarioBlockGap) 0 [] = .ok () ∧
    verifySigAndRoot scenarioEnv scenarioBlockGap = .ok () ∧
    (∃ b, collectActions scenarioEnv scenarioFactory scenarioValidator.validatorAddr
      scenarioBlockGap false = .ok b) ∧
    scenarioFactory "S" = .ok 3 ∧
    (noncesOf (senderNonces scenarioBlockGap) "S").Perm [4, 6] ∧
    Validate scenarioEnv scenarioValidator (some scenarioBlockGap) 0 [] false =
      .error (.error ⟨.ErrActionNonce, ["the nonce of the action is invalid"]⟩) := by
  obtain ⟨b, hb⟩ := ok_of_toBool
    (collectActions scenarioEnv scenarioFactory scenarioValidator.validatorAddr
      scenarioBlockGap false) (by decide)
  exact ⟨rfl, rfl, by decide, by decide, by decide, ⟨b, hb⟩, by decide, by decide,
    (C9_nonce_sequencing scenarioEnv scenarioValidator scenarioFactory scenarioBlockGap 0 []
      false b rfl rfl (by decide) (by decide) (by decide) hb).2.2.2.2 "S" (by decide)
      (by decide)⟩

/-- C10 (counterexample): a block of height 0 with one secret proposal of the sender `S`,
whose confirmed nonce is 3, with the nonce 5: `Validate` accepts it with the factory
attached, the nonce recorded for `S` is 5, and that is not `3 + 1`. -/
theorem C10_counterexample :
    Validate scenarioEnv scenarioValidator (some scenarioBlockGenesis) 0 [] false = .ok () ∧
    (∃ b, collectActions scenarioEnv scenarioFactory scenarioValidator.validatorAddr
        scenarioBlockGenesis false = .ok b ∧
      b.received "S" = [5] ∧ b.confirmedNonceMap.lookup "S" = some 3) ∧
    scenarioFactory "S" = .ok 3 ∧
    sortNonces [5] = [5] ∧ consecutiveFrom 3 1 = [4] ∧ List.range' (3 + 1) 1 = [4] := by
  refine ⟨by decide, ?_, by decide, by decide, by decide, by decide⟩
  obtain ⟨b, hb, hf⟩ := ActPool.ok_of_toOption
    (by decide : (collectActions scenarioEnv scenarioFactory scenarioValidator.validatorAddr
      scenarioBlockGenesis false).toOption.map
        (fun b => (b.received "S", (b.confirmedNonceMap.lookup "S" : Option Nat))) =
      some ([5], some 3))
  simp only [Prod.mk.injEq] at hf
  exact ⟨b, hb, hf.1, hf.2⟩

/-- C10 (amended): for every block of a height above 0 that is not a dummy block and that
`Validate` accepts with a state factory attached, the nonces recorded for each sender
while walking the block are the nonces of its actions, and for each sender with a
recorded nonce their ascending sort is `confirmed+1, ..., confirmed+k` (`uint64` sums; the
natural numbers when the confirmed nonce is below `2^64 - 1`), a run of consecutive
numbers without duplicates. -/
theorem C10_accepted_nonces (env : Env) (v : validator) (sf : Factory) (blk : Block)
    (tipHeight : Nat) (tipHash : Bytes) (containCoinbase : Bool)
    (hsf : v.sf = some sf) (hdummy : env.IsDummyBlock blk = false)
    (hheight : 0 < blk.Header.height)
    (hacc : Validate env v (some blk) tipHeight tipHash containCoinbase = .ok ()) :
    ∃ b, collectActions env sf v.validatorAddr blk containCoinbase = .ok b ∧
      ∀ s, b.received s = noncesOf (senderNonces blk) s ∧
        (b.received s ≠ [] →
          ∃ c, b.confirmedNonceMap.lookup s = some c ∧ sf s = .ok c ∧
            sortNonces (b.received s) = consecutiveFrom c (b.received s).length ∧
            sortNonces (b.received s) =
              List.range' ((c + 1) % ActPool.u64) (b.received s).length ∧
            (c + 1 < ActPool.u64 →
              sortNonces (b.received s) = List.range' (c + 1) (b.received s).length) ∧
            (sortNonces (b.received s)).Nodup) := by
  obtain ⟨b, hb, hcheck⟩ :=
    Validate_ok_actions env v sf blk tipHeight tipHash containCoinbase hsf hdummy hacc
  have hinv := collectActions_inv env sf v.validatorAddr blk containCoinbase b hheight hb
  have hall := (checkNonces_ok_iff sf blk b _ hheight hinv).1.mp hcheck
  refine ⟨b, hb, fun s => ⟨hinv.received s, ?_⟩⟩
  intro hne
  cases hl : b.confirmedNonceMap.lookup s with
  | none => exact absurd ((hinv.received s).trans (hinv.seen s hl)) hne
  | some c =>
    have hsc := hinv.confirmed s c hl
    have heq := hall s c hsc
    rw [← hinv.received s] at heq
    have hs := sortNonces_sorted (b.received s)
    rw [heq] at hs
    have hr := consecutiveFrom_sorted _ c hs
    refine ⟨c, rfl, hsc, heq, by rw [heq, hr], ?_, ?_⟩
    · intro hc
      rw [heq, hr, Nat.mod_eq_of_lt hc]
    · rw [heq, hr]
      exact List.nodup_range' _ _

theorem C10_accepted_nonces_witness :
    scenarioValidator.sf = some scenarioFactory ∧
    scenarioEnv.IsDummyBlock scenarioBlockGood = false ∧
    0 < scenarioBlockGood.Header.height ∧
    Validate scenarioEnv scenarioValidator (some scenarioBlockGood) 0 [] false = .ok () ∧
    ∃ b, collectActions scenarioEnv scenarioFactory scenarioValidator.validatorAddr
        scenarioBlockGood false = .ok b ∧
      ∀ s, b.received s = noncesOf (senderNonces scenarioBlockGood) s ∧
        (b.received s ≠ [] →
          ∃ c, b.confirmedNonceMap.lookup s = some c ∧ scenarioFactory s = .ok c ∧
            sortNonces (b.received s) = consecutiveFrom c (b.received s).length ∧
            sortNonces (b.received s) =
              List.range' ((c + 1) % ActPool.u64) (b.received s).length ∧
            (c + 1 < ActPool.u64 →
              sortNonces (b.received s) = List.range' (c + 1) (b.received s).length) ∧
            (sortNonces (b.received s)).Nodup) :=
  ⟨rfl, rfl, by decide, by decide,
    C10_accepted_nonces scenarioEnv scenarioValidator scenarioFactory scenarioBlockGood 0 []
      false rfl rfl (by decide) (by decide)⟩

end Blockchain

namespace ActPool

/-! ## Lemmas about `PendingActs` -/

/-- The loop of `PendingActs` on a run of `k` stored nonces that ends below `2^64`: it
returns the `k` actions of the run, in the order of the nonces. -/
theorem pendingLoop_ok (items : Items) :
    ∀ (k fuel n : Nat) (acts : List Action),
      (∀ i, i < k → (items.lookup (n + i)).isSome) → items.lookup (n + k) = none →
      n + k < u64 → k < fuel →
      ∃ l : List Action, pendingLoop items fuel n acts = .ok (acts ++ l) ∧ l.length = k ∧
        ∀ i, i < k → items.lookup (n + i) = l[i]? := by
  intro k
  induction k with
  | zero =>
    intro fuel n acts _ hstop _ hf
    obtain ⟨f, rfl⟩ : ∃ f, fuel = f + 1 := ⟨fuel - 1, by omega⟩
    refine ⟨[], ?_, rfl, fun i hi => absurd hi (Nat.not_lt_zero i)⟩
    simp only [Nat.add_zero] at hstop
    simp [pendingLoop, hstop]
  | succ k ih =>
    intro fuel n acts hk hstop hb hf
    obtain ⟨f, rfl⟩ : ∃ f, fuel = f + 1 := ⟨fuel - 1, by omega⟩
    have h0 := hk 0 (Nat.succ_pos k)
    simp only [Nat.add_zero] at h0
    obtain ⟨a, ha⟩ := Option.isSome_iff_exists.mp h0
    have hmod : (n + 1) % u64 = n + 1 := Nat.mod_eq_of_lt (by omega)
    obtain ⟨l, hl, hlen, hget⟩ := ih f (n + 1) (acts ++ [a])
      (fun i hi => by have := hk (i + 1) (by omega); rwa [show n + 1 + i = n + (i + 1) by omega])
      (by rwa [show n + 1 + k = n + (k + 1) by omega]) (by omega) (by omega)
    refine ⟨a :: l, ?_, by simp [hlen], ?_⟩
    · simp only [pendingLoop, ha, hmod, hl, List.append_assoc, List.singleton_append]
    · intro i hi
      cases i with
      | zero => simpa using ha
      | succ j =>
        have := hget j (by omega)
        rw [show n + 1 + j = n + (j + 1) by omega] at this
        simpa using this

/-- The method `PendingActs` of a queue whose map has no action at the nonce `2^64 - 1`: it
returns the actions of the run of stored nonces that begins at the start nonce. -/
theorem PendingActs_spec (q : actQueue) (hstart : q.startNonce < u64)
    (hmax : q.items.lookup (u64 - 1) = none) :
    ∃ (k : Nat) (acts : List Action), PendingActs q = .ok acts ∧ acts.length = k ∧
      q.startNonce + k < u64 ∧
      (∀ i, i < k → q.items.lookup (q.startNonce + i) = acts[i]?) ∧
      q.items.lookup (q.startNonce + k) = none := by
  have hex : ∃ k, q.items.lookup (q.startNonce + k) = none :=
    ⟨u64 - 1 - q.startNonce,
      by rwa [show q.startNonce + (u64 - 1 - q.startNonce) = u64 - 1 by omega]⟩
  classical
  let k := Nat.find hex
  have hk : q.items.lookup (q.startNonce + k) = none := Nat.find_spec hex
  have hmin : ∀ i, i < k → (q.items.lookup (q.startNonce + i)).isSome := by
    intro i hi
    have := Nat.find_min hex hi
    exact Option.ne_none_iff_isSome.mp this
  have hle : k ≤ u64 - 1 - q.startNonce := Nat.find_min' hex
    (by rwa [show q.startNonce + (u64 - 1 - q.startNonce) = u64 - 1 by omega])
  have hkeys : k ≤ q.items.keys.length := by
    have hsub : List.range' q.startNonce k ⊆ q.items.keys := by
      intro x hx
      obtain ⟨i, hi, rfl⟩ := List.mem_range'.mp hx
      simp only [Nat.one_mul] at *
      have := hmin i hi
      rw [mem_keys_iff_lookup]
      exact Option.isSome_iff_exists.mp this
    have := (List.subperm_of_subset (List.nodup_range' q.startNonce k) hsub).length_le
    simpa using this
  by_cases hl : Len q = 0
  · have hk0 : k = 0 := by
      have : q.items.keys.length = 0 := by simpa [Len] using hl
      omega
    refine ⟨0, [], by simp [PendingActs, hl], rfl, by omega,
      fun i hi => absurd hi (Nat.not_lt_zero i), ?_⟩
    rw [← hk0]; exact hk
  · obtain ⟨l, h1, h2, h3⟩ :=
      pendingLoop_ok q.items k (q.items.keys.length + 1) q.startNonce [] hmin hk (by omega)
        (by omega)
    exact ⟨k, l, by simpa [PendingActs, hl] using h1, h2, by omega, h3, hk⟩

end ActPool


namespace ActPool


/-! ## The claim about `PendingActs` -/

/-- The queue `scenarioWrap` is built by the methods of the queue. -/
theorem scenarioWrap_reachable : Reachable scenarioWrap :=
  Reachable.setStartNonce _ _
    (Reachable.put _ _ (Reachable.put _ _ Reachable.new (by decide)) (by decide)) (by decide)

/-- The method `PendingActs` on a queue built by the methods of the queue, with a 64-bit
start nonce, that holds no action with the nonce `2^64 - 1`: the walk does not wrap, and the
result is the run of stored actions from the start nonce, strictly ascending by nonce. -/
theorem PendingActs_ascending (q : actQueue) (hr : Reachable q) (hstart : q.startNonce < u64)
    (hmax : q.items.lookup (u64 - 1) = none) :
    ∃ (k : Nat) (acts : List Action), PendingActs q = .ok acts ∧ acts.length = k ∧
      (∀ i, i < k → q.items.lookup (q.startNonce + i) = acts[i]?) ∧
      q.items.lookup (q.startNonce + k) = none ∧
      (∀ m, q.startNonce ≤ m → m < q.startNonce + k → (q.items.lookup m).isSome) ∧
      acts.map Action.nonce = List.range' q.startNonce k ∧
      (acts.map Action.nonce).Sorted (· < ·) ∧
      (q.items.lookup q.startNonce = none → acts = []) := by
  obtain ⟨k, acts, hrun, hlen, _, hget, hstop⟩ := PendingActs_spec q hstart hmax
  have hnon : acts.map Action.nonce = List.range' q.startNonce k := by
    apply List.ext_getElem
    · simp [hlen]
    · intro i h1 h2
      have hi : i < k := by simpa [hlen] using h1
      have hi2 : i < acts.length := by omega
      have h := hget i hi
      rw [List.getElem?_eq_getElem hi2] at h
      have := (reachable_inv q hr).keyNonce _ _ h
      simp [this]
  refine ⟨k, acts, hrun, hlen, hget, hstop, ?_, hnon, ?_, ?_⟩
  · intro m h1 h2
    have h := hget (m - q.startNonce) (by omega)
    rw [show q.startNonce + (m - q.startNonce) = m by omega] at h
    rw [h, List.getElem?_eq_getElem (by omega)]
    rfl
  · rw [hnon]
    exact (List.pairwise_lt_range' q.startNonce k)
  · intro h0
    have hk0 : k = 0 := by
      by_contra hk
      have h := hget 0 (by omega)
      rw [Nat.add_zero, h0, List.getElem?_eq_getElem (by omega)] at h
      cases h
    exact List.length_eq_zero.mp (by omega)

/-- C20 (the code at the failing input, and what holds): the queue with start nonce
`2^64 - 1` that holds an action at the nonce `2^64 - 1` and one at the nonce 0: `nonce++`
wraps, so `PendingActs` returns the action of nonce `2^64 - 1` followed by the action of
nonce 0. The result is not ascending by nonce, against the comment of the method ("a
consecutive nonce-sorted slice"), and the loop runs past the nonce 0, which is not at or
after the start nonce, up to the missing nonce 1. On every queue built by the methods of
the queue that holds no action with the nonce `2^64 - 1` the walk cannot wrap: `PendingActs`
returns the actions at `start_nonce, ..., start_nonce + k - 1` in that order, where
`start_nonce + k` is the first nonce at or after the start nonce that is not in the map,
strictly ascending and consecutive by nonce, and the empty list when the map has no action
at the start nonce. The method has no assignment to the queue, so the embedding returns the
list alone. -/
theorem C20_pendingActs_wrap :
    Reachable scenarioWrap ∧ scenarioWrap.startNonce = u64 - 1 ∧
    PendingActs scenarioWrap = .ok [⟨u64 - 1, 0, 0⟩, ⟨0, 0, 1⟩] ∧
    ¬ ([(⟨u64 - 1, 0, 0⟩ : Action), ⟨0, 0, 1⟩].map Action.nonce).Sorted (· < ·) ∧
    scenarioWrap.items.lookup 0 ≠ none ∧ scenarioWrap.items.lookup 1 = none ∧
    (∀ q : actQueue, Reachable q → q.startNonce < u64 → q.items.lookup (u64 - 1) = none →
      ∃ (k : Nat) (acts : List Action), PendingActs q = .ok acts ∧ acts.length = k ∧
        (∀ i, i < k → q.items.lookup (q.startNonce + i) = acts[i]?) ∧
        q.items.lookup (q.startNonce + k) = none ∧
        (∀ m, q.startNonce ≤ m → m < q.startNonce + k → (q.items.lookup m).isSome) ∧
        acts.map Action.nonce = List.range' q.startNonce k ∧
        (acts.map Action.nonce).Sorted (· < ·) ∧
        (q.items.lookup q.startNonce = none → acts = [])) :=
  ⟨scenarioWrap_reachable, by decide, by decide, by decide, by decide, by decide,
    fun q hr hstart hmax => PendingActs_ascending q hr hstart hmax⟩

end ActPool

namespace Blockchain

/-! ## Lemmas about the loops and the counters of `verifyActions` -/

theorem forEach_append {α : Type} (step : Book → α → Except Stop Book) (l1 l2 : List α)
    (b : Book) :
    forEach step (l1 ++ l2) b =
      match forEach step l1 b with
      | .error e => .error e
      | .ok b1 => forEach step l2 b1 := by
  induction l1 generalizing b with
  | nil => rfl
  | cons x rest ih =>
    simp only [List.cons_append, forEach]
    cases step b x with
    | error e => rfl
    | ok b1 => exact ih b1

theorem forEach_error_at {α : Type} (step : Book → α → Except Stop Book) (pre post : List α)
    (x : α) (b0 b : Book) (e : Stop) (hpre : forEach step pre b0 = .ok b)
    (hx : step b x = .error e) : forEach step (pre ++ x :: post) b0 = .error e := by
  rw [forEach_append, hpre]
  simp only [forEach, hx]

theorem forEach_ok_mem {α : Type} (step : Book → α → Except Stop Book) (l : List α)
    (b b1 : Book) (h : forEach step l b = .ok b1) :
    ∀ x ∈ l, ∃ c c1, step c x = .ok c1 := by
  induction l generalizing b with
  | nil => intro x hx; cases hx
  | cons y rest ih =>
    intro x hx
    simp only [forEach] at h
    cases hy : step b y with
    | error e => rw [hy] at h; cases h
    | ok b2 =>
      rw [hy] at h
      rcases List.mem_cons.mp hx with rfl | hx
      · exact ⟨b, b2, hy⟩
      · exact ih b2 h x hx

theorem forEach_count {α : Type} (step : Book → α → Except Stop Book) (f : Book → Nat)
    (p : α → Bool)
    (hstep : ∀ b x b1, step b x = .ok b1 → f b1 = f b + if p x then 1 else 0)
    (l : List α) (b b1 : Book) (h : forEach step l b = .ok b1) :
    f b1 = f b + l.countP p := by
  induction l generalizing b with
  | nil => simp only [forEach, Except.ok.injEq] at h; subst h; simp
  | cons y rest ih =>
    simp only [forEach] at h
    cases hy : step b y with
    | error e => rw [hy] at h; cases h
    | ok b2 =>
      rw [hy] at h
      rw [ih b2 h, hstep b y b2 hy, List.countP_cons]
      omega

theorem checkGas_ok (env : Env) (gasLimit : Nat) (intrinsicGas : Nat × Option String)
    (msg : String) (h : checkGas env gasLimit intrinsicGas msg = .ok ()) :
    gasLimit ≤ env.GasLimit ∧ intrinsicGas.1 ≤ gasLimit ∧ intrinsicGas.2 = none := by
  unfold checkGas at h
  split at h
  · cases h
  · split at h
    · cases h
    · rename_i h1 h2
      simp only [not_or, Option.not_isSome_iff_eq_none, not_lt] at h2
      exact ⟨by omega, by omega, by simpa using h2.2⟩

theorem checkGas_high (env : Env) (gasLimit : Nat) (intrinsicGas : Nat × Option String)
    (msg : String) (h : env.GasLimit < gasLimit) :
    checkGas env gasLimit intrinsicGas msg =
      .error (.error ⟨.ErrGasHigherThanLimit, ["gas is higher than gas limit"]⟩) := by
  simp [checkGas, h]

theorem checkGas_insufficient (env : Env) (gasLimit : Nat) (intrinsicGas : Nat × Option String)
    (msg : String) (h : gasLimit ≤ env.GasLimit)
    (hi : gasLimit < intrinsicGas.1 ∨ intrinsicGas.2.isSome) :
    checkGas env gasLimit intrinsicGas msg = .error (.error ⟨.ErrInsufficientGas, [msg]⟩) := by
  have : ¬ gasLimit > env.GasLimit := by omega
  simp only [checkGas, this, if_false]
  rw [if_pos hi]

theorem transferStep_counters (env : Env) (sf : Factory) (blk : Block) (b b1 : Book)
    (tsf : Transfer) (h : transferStep env sf blk b tsf = .ok b1) :
    b1.coinbaseCount = b.coinbaseCount + (if isValidCoinbase env blk tsf then 1 else 0) ∧
    b1.correctAction = b.correctAction +
      (if (!tsf.IsCoinbase && signatureOK env tsf.SrcPubkey tsf.Hash tsf.Signature) then 1
        else 0) := by
  unfold transferStep at h
  split at h
  · cases h
  · split at h
    · cases h
    · rename_i b2 hb2
      have hc : b2.correctAction = b.correctAction ∧ b2.coinbaseCount = b.coinbaseCount := by
        split at hb2
        · split at hb2
          · cases hb2
          · exact recordNonce_counters _ _ _ _ _ _ hb2
        · simp only [Except.ok.injEq] at hb2; subst hb2; exact ⟨rfl, rfl⟩
      cases hcb : tsf.IsCoinbase with
      | true =>
        simp only [hcb, if_true] at h
        split at h
        · rename_i hne
          simp only [Except.ok.injEq] at h; subst h
          simp [isValidCoinbase, hcb, hne, hc.1, hc.2]
        · rename_i heq
          simp only [Except.ok.injEq] at h; subst h
          simp only [ne_eq, not_not] at heq
          simp [isValidCoinbase, hcb, heq, hc.1, hc.2]
      | false =>
        simp only [hcb, Bool.false_eq_true, if_false] at h
        split at h
        · rename_i hs
          simp only [Except.ok.injEq] at h; subst h
          have : signatureOK env tsf.SrcPubkey tsf.Hash tsf.Signature = false := by
            simp only [signatureOK]
            cases hv : Verify env tsf.SrcPubkey tsf.Hash tsf.Signature with
            | none => rw [hv] at hs; cases hs
            | some e => rfl
          simp [isValidCoinbase, hcb, this, hc.1, hc.2]
        · rename_i hs
          simp only [Except.ok.injEq] at h; subst h
          have : signatureOK env tsf.SrcPubkey tsf.Hash tsf.Signature = true := by
            simp only [signatureOK]
            cases hv : Verify env tsf.SrcPubkey tsf.Hash tsf.Signature with
            | none => rfl
            | some e => rw [hv] at hs; exact absurd rfl hs
          simp [isValidCoinbase, hcb, this, hc.1, hc.2]

theorem voteStep_counters (env : Env) (sf : Factory) (blk : Block) (b b1 : Book)
    (vote : Vote) (h : voteStep env sf blk b vote = .ok b1) :
    b1.coinbaseCount = b.coinbaseCount ∧
    b1.correctAction = b.correctAction +
      (if signatureOK env vote.SrcPubkey vote.Hash vote.Signature then 1 else 0) := by
  unfold voteStep at h
  split at h
  · cases h
  · split at h
    · cases h
    · split at h
      · cases h
      · rename_i b2 hb2
        have hc : b2.correctAction = b.correctAction ∧ b2.coinbaseCount = b.coinbaseCount := by
          split at hb2
          · split at hb2
            · cases hb2
            · exact recordNonce_counters _ _ _ _ _ _ hb2
          · simp only [Except.ok.injEq] at hb2; subst hb2; exact ⟨rfl, rfl⟩
        split at h
        · rename_i hs
          simp only [Except.ok.injEq] at h; subst h
          have : signatureOK env vote.SrcPubkey vote.Hash vote.Signature = false := by
            simp only [signatureOK]
            cases hv : Verify env vote.SrcPubkey vote.Hash vote.Signature with
            | none => rw [hv] at hs; cases hs
            | some e => rfl
          simp [this, hc.1, hc.2]
        · rename_i hs
          simp only [Except.ok.injEq] at h; subst h
          have : signatureOK env vote.SrcPubkey vote.Hash vote.Signature = true := by
            simp only [signatureOK]
            cases hv : Verify env vote.SrcPubkey vote.Hash vote.Signature with
            | none => rfl
            | some e => rw [hv] at hs; exact absurd rfl hs
          simp [this, hc.1, hc.2]

theorem executionStep_counters (env : Env) (sf : Factory) (blk : Block) (b b1 : Book)
    (execution : Execution) (h : executionStep env sf blk b execution = .ok b1) :
    b1.coinbaseCount = b.coinbaseCount ∧
    b1.correctAction = b.correctAction +
      (if signatureOK env execution.SrcPubkey execution.Hash execution.Signature then 1
        else 0) := by
  unfold executionStep at h
  split at h
  · cases h
  · split at h
    · cases h
    · split at h
      · cases h
      · rename_i b2 hb2
        have hc : b2.correctAction = b.correctAction ∧ b2.coinbaseCount = b.coinbaseCount := by
          split at hb2
          · exact recordNonce_counters _ _ _ _ _ _ hb2
          · simp only [Except.ok.injEq] at hb2; subst hb2; exact ⟨rfl, rfl⟩
        simp only at h
        split at h
        · cases h
        · split at h
          · cases h
          · simp only [Except.ok.injEq] at h; subst h
            cases hv : Verify env execution.SrcPubkey execution.Hash execution.Signature with
            | none => simp [signatureOK, hv, hc.1, hc.2]
            | some e => simp [signatureOK, hv, hc.1, hc.2]


theorem actionLoops_counts (env : Env) (sf : Factory) (blk : Block) (b3 : Book)
    (h : actionLoops env sf blk = .ok b3) :
    b3.coinbaseCount = validCoinbases env blk ∧
    b3.correctAction = verifiedSignatures env blk := by
  unfold actionLoops at h
  split at h
  · cases h
  · rename_i b1 h1
    split at h
    · cases h
    · rename_i b2 h2
      have c1 := forEach_count (transferStep env sf blk) Book.coinbaseCount
        (isValidCoinbase env blk)
        (fun b x b1 hs => (transferStep_counters env sf blk b b1 x hs).1) _ _ _ h1
      have a1 := forEach_count (transferStep env sf blk) Book.correctAction
        (fun t => !t.IsCoinbase && signatureOK env t.SrcPubkey t.Hash t.Signature)
        (fun b x b1 hs => (transferStep_counters env sf blk b b1 x hs).2) _ _ _ h1
      have c2 := forEach_count (voteStep env sf blk) Book.coinbaseCount (fun _ => false)
        (fun b x b1 hs => by simpa using (voteStep_counters env sf blk b b1 x hs).1) _ _ _ h2
      have a2 := forEach_count (voteStep env sf blk) Book.correctAction
        (fun v => signatureOK env v.SrcPubkey v.Hash v.Signature)
        (fun b x b1 hs => (voteStep_counters env sf blk b b1 x hs).2) _ _ _ h2
      have c3 := forEach_count (executionStep env sf blk) Book.coinbaseCount (fun _ => false)
        (fun b x b1 hs => by simpa using (executionStep_counters env sf blk b b1 x hs).1) _ _ _ h
      have a3 := forEach_count (executionStep env sf blk) Book.correctAction
        (fun e => signatureOK env e.SrcPubkey e.Hash e.Signature)
        (fun b x b1 hs => (executionStep_counters env sf blk b b1 x hs).2) _ _ _ h
      simp only [List.countP_false, Nat.add_zero] at c2 c3
      have e0 : Book.empty.coinbaseCount = 0 := rfl
      have e1 : Book.empty.correctAction = 0 := rfl
      constructor
      · rw [c3, c2, c1, e0, Nat.zero_add]; rfl
      · rw [a3, a2, a1, e1, Nat.zero_add]; rfl

theorem beforeProposals_of_loops_error (env : Env) (sf : Factory) (blk : Block) (cb : Bool)
    (e : Stop) (h : actionLoops env sf blk = .error e) :
    beforeProposals env sf blk cb = .error e := by
  simp only [beforeProposals, h]

theorem collectActions_eq (env : Env) (sf : Factory) (va : String) (blk : Block) (cb : Bool) :
    collectActions env sf va blk cb =
      match beforeProposals env sf blk cb with
      | .error e => .error e
      | .ok b4 => forEach (proposalStep env sf va blk) blk.SecretProposals b4 := by
  unfold collectActions beforeProposals actionLoops
  cases forEach (transferStep env sf blk) blk.Transfers Book.empty with
  | error e => rfl
  | ok b1 =>
    simp only
    cases forEach (voteStep env sf blk) blk.Votes b1 with
    | error e => rfl
    | ok b2 =>
      simp only
      cases forEach (executionStep env sf blk) blk.Executions b2 with
      | error e => rfl
      | ok b3 =>
        simp only
        cases checkCounts blk cb b3 with
        | error e => rfl
        | ok u => rfl

theorem verifyActions_of_before_error (env : Env) (sf : Factory) (va : String) (blk : Block)
    (cb : Bool) (e : Stop) (h : beforeProposals env sf blk cb = .error e) :
    verifyActions env sf va blk cb = .error e := by
  simp only [verifyActions, collectActions_eq, h]

theorem verifyActions_of_loops_error (env : Env) (sf : Factory) (va : String) (blk : Block)
    (cb : Bool) (e : Stop) (h : actionLoops env sf blk = .error e) :
    verifyActions env sf va blk cb = .error e :=
  verifyActions_of_before_error env sf va blk cb e
    (beforeProposals_of_loops_error env sf blk cb e h)

theorem verifyActions_of_counts_error (env : Env) (sf : Factory) (va : String) (blk : Block)
    (cb : Bool) (b3 : Book) (e : Stop) (h : actionLoops env sf blk = .ok b3)
    (hc : checkCounts blk cb b3 = .error e) :
    verifyActions env sf va blk cb = .error e :=
  verifyActions_of_before_error env sf va blk cb e (by simp only [beforeProposals, h, hc])

theorem collectActions_ok_loops (env : Env) (sf : Factory) (va : String) (blk : Block)
    (cb : Bool) (b : Book) (h : collectActions env sf va blk cb = .ok b) :
    ∃ b3, actionLoops env sf blk = .ok b3 ∧ checkCounts blk cb b3 = .ok () := by
  rw [collectActions_eq] at h
  unfold beforeProposals at h
  cases hl : actionLoops env sf blk with
  | error e => rw [hl] at h; cases h
  | ok b3 =>
    rw [hl] at h
    simp only at h
    cases hc : checkCounts blk cb b3 with
    | error e => rw [hc] at h; cases h
    | ok u => exact ⟨b3, rfl, hc⟩

theorem actionLoops_ok (env : Env) (sf : Factory) (blk : Block) (b3 : Book)
    (h : actionLoops env sf blk = .ok b3) :
    ∃ b1 b2, forEach (transferStep env sf blk) blk.Transfers Book.empty = .ok b1 ∧
      forEach (voteStep env sf blk) blk.Votes b1 = .ok b2 ∧
      forEach (executionStep env sf blk) blk.Executions b2 = .ok b3 := by
  unfold actionLoops at h
  split at h
  · cases h
  · rename_i b1 h1
    split at h
    · cases h
    · rename_i b2 h2
      exact ⟨b1, b2, h1, h2, h⟩

theorem transferStep_gas (env : Env) (sf : Factory) (blk : Block) (b b1 : Book)
    (tsf : Transfer) (hh : 0 < blk.Header.height) (hcb : tsf.IsCoinbase = false)
    (h : transferStep env sf blk b tsf = .ok b1) :
    tsf.GasLimit ≤ env.GasLimit ∧ tsf.IntrinsicGas.1 ≤ tsf.GasLimit ∧
      tsf.IntrinsicGas.2 = none := by
  unfold transferStep at h
  split at h
  · cases h
  · split at h
    · cases h
    · rename_i b2 hb2
      simp only [hh, hcb, decide_True, Bool.not_false, Bool.and_self, if_true] at hb2
      cases hg : checkGas env tsf.GasLimit tsf.IntrinsicGas "insufficient gas for transfer" with
      | error e => rw [hg] at hb2; cases hb2
      | ok u => exact checkGas_ok _ _ _ _ hg

theorem voteStep_gas (env : Env) (sf : Factory) (blk : Block) (b b1 : Book)
    (vote : Vote) (hh : 0 < blk.Header.height)
    (h : voteStep env sf blk b vote = .ok b1) :
    vote.GasLimit ≤ env.GasLimit ∧ vote.IntrinsicGas.1 ≤ vote.GasLimit ∧
      vote.IntrinsicGas.2 = none := by
  unfold voteStep at h
  split at h
  · cases h
  · split at h
    · cases h
    · split at h
      · cases h
      · rename_i b2 hb2
        simp only [hh, gt_iff_lt, if_true] at hb2
        cases hg : checkGas env vote.GasLimit vote.IntrinsicGas "insufficient gas for vote" with
        | error e => rw [hg] at hb2; cases hb2
        | ok u => exact checkGas_ok _ _ _ _ hg

theorem executionStep_gas (env : Env) (sf : Factory) (blk : Block) (b b1 : Book)
    (execution : Execution) (h : executionStep env sf blk b execution = .ok b1) :
    execution.GasLimit ≤ env.GasLimit ∧ execution.IntrinsicGas.1 ≤ execution.GasLimit ∧
      execution.IntrinsicGas.2 = none := by
  unfold executionStep at h
  split at h
  · cases h
  · split at h
    · cases h
    · split at h
      · cases h
      · simp only at h
        cases hg : checkGas env execution.GasLimit execution.IntrinsicGas
            "insufficient gas for execution" with
        | error e => rw [hg] at h; cases h
        | ok u => exact checkGas_ok _ _ _ _ hg

theorem transferStep_coinbase (env : Env) (sf : Factory) (blk : Block) (b : Book)
    (tsf : Transfer) (hcb : tsf.IsCoinbase = true) :
    ∃ b1, transferStep env sf blk b tsf = .ok b1 := by
  unfold transferStep
  simp only [hcb, Bool.not_true, Bool.false_eq_true, if_false, Bool.and_false, if_true]
  split
  · exact ⟨_, rfl⟩
  · exact ⟨_, rfl⟩

theorem countP_disjoint {α : Type} (p q : α → Bool)
    (hd : ∀ x, p x = true → q x = true → False) (l : List α) :
    l.countP p + l.countP q ≤ l.length ∧
      (l.countP p + l.countP q = l.length → ∀ x ∈ l, p x = true ∨ q x = true) := by
  induction l with
  | nil => simp
  | cons y rest ih =>
    obtain ⟨ih1, ih2⟩ := ih
    have hy := hd y
    simp only [List.countP_cons, List.length_cons, List.mem_cons, forall_eq_or_imp]
    cases hp : p y with
    | true =>
      cases hq : q y with
      | true => exact absurd hq (fun h => hy hp h)
      | false =>
        simp only [if_true, Bool.false_eq_true, if_false, true_or, true_and]
        exact ⟨by omega, fun h => ih2 (by omega)⟩
    | false =>
      cases hq : q y with
      | true =>
        simp only [if_true, Bool.false_eq_true, if_false, or_true, true_and]
        exact ⟨by omega, fun h => ih2 (by omega)⟩
      | false =>
        simp only [Bool.false_eq_true, if_false, or_self, false_and]
        exact ⟨by omega, fun h => by omega⟩

theorem checkCounts_ok (blk : Block) (cb : Bool) (b : Book)
    (h : checkCounts blk cb b = .ok ()) :
    (cb = true → b.coinbaseCount = 1) ∧ (cb = false → b.coinbaseCount = 0) ∧
    b.correctAction + b.coinbaseCount =
      blk.Transfers.length + blk.Votes.length + blk.Executions.length := by
  unfold checkCounts at h
  split at h
  · cases h
  · rename_i h1
    split at h
    · cases h
    · rename_i h2
      simp only [ne_eq, not_not] at h2
      cases cb <;> simp at h1 <;> exact ⟨by simp [h1], by simp [h1], h2⟩

theorem signatures_of_counts (env : Env) (blk : Block)
    (h : verifiedSignatures env blk + validCoinbases env blk =
      blk.Transfers.length + blk.Votes.length + blk.Executions.length) :
    (∀ t ∈ blk.Transfers, t.IsCoinbase = false →
      Verify env t.SrcPubkey t.Hash t.Signature = none) ∧
    (∀ v ∈ blk.Votes, Verify env v.SrcPubkey v.Hash v.Signature = none) ∧
    (∀ e ∈ blk.Executions, Verify env e.SrcPubkey e.Hash e.Signature = none) := by
  unfold verifiedSignatures validCoinbases at h
  have ht := countP_disjoint
    (fun t : Transfer => !t.IsCoinbase && signatureOK env t.SrcPubkey t.Hash t.Signature)
    (isValidCoinbase env blk)
    (fun x h1 h2 => by
      simp only [isValidCoinbase, Bool.and_eq_true] at h2
      simp only [Bool.and_eq_true, Bool.not_eq_true', h2.1] at h1
      exact absurd h1.1 (by simp)) blk.Transfers
  have hv := List.countP_le_length
    (fun v : Vote => signatureOK env v.SrcPubkey v.Hash v.Signature) (l := blk.Votes)
  have he := List.countP_le_length
    (fun e : Execution => signatureOK env e.SrcPubkey e.Hash e.Signature) (l := blk.Executions)
  refine ⟨?_, ?_, ?_⟩
  · intro t hmem hcb
    rcases ht.2 (by omega) t hmem with h1 | h1
    · simp only [Bool.and_eq_true, signatureOK, Option.isNone_iff_eq_none] at h1
      exact h1.2
    · simp only [isValidCoinbase, Bool.and_eq_true, hcb] at h1
      exact absurd h1.1 (by simp)
  · intro v hmem
    have := (List.countP_eq_length (p := fun v : Vote =>
      signatureOK env v.SrcPubkey v.Hash v.Signature)).mp (by omega) v hmem
    simpa [signatureOK] using this
  · intro e hmem
    have := (List.countP_eq_length (p := fun e : Execution =>
      signatureOK env e.SrcPubkey e.Hash e.Signature)).mp (by omega) e hmem
    simpa [signatureOK] using this

theorem actionLoops_error_transfer (env : Env) (sf : Factory) (blk : Block)
    (pre post : List Transfer) (t : Transfer) (b : Book) (e : Stop)
    (hs : blk.Transfers = pre ++ t :: post)
    (hpre : forEach (transferStep env sf blk) pre Book.empty = .ok b)
    (ht : transferStep env sf blk b t = .error e) : actionLoops env sf blk = .error e := by
  unfold actionLoops
  rw [hs, forEach_error_at _ pre post t _ b e hpre ht]

theorem actionLoops_error_vote (env : Env) (sf : Factory) (blk : Block)
    (pre post : List Vote) (x : Vote) (b1 b : Book) (e : Stop)
    (h1 : forEach (transferStep env sf blk) blk.Transfers Book.empty = .ok b1)
    (hs : blk.Votes = pre ++ x :: post)
    (hpre : forEach (voteStep env sf blk) pre b1 = .ok b)
    (hx : voteStep env sf blk b x = .error e) : actionLoops env sf blk = .error e := by
  unfold actionLoops
  rw [h1]
  simp only
  rw [hs, forEach_error_at _ pre post x _ b e hpre hx]

theorem actionLoops_error_execution (env : Env) (sf : Factory) (blk : Block)
    (pre post : List Execution) (x : Execution) (b1 b2 b : Book) (e : Stop)
    (h1 : forEach (transferStep env sf blk) blk.Transfers Book.empty = .ok b1)
    (h2 : forEach (voteStep env sf blk) blk.Votes b1 = .ok b2)
    (hs : blk.Executions = pre ++ x :: post)
    (hpre : forEach (executionStep env sf blk) pre b2 = .ok b)
    (hx : executionStep env sf blk b x = .error e) : actionLoops env sf blk = .error e := by
  unfold actionLoops
  rw [h1]
  simp only
  rw [h2]
  simp only
  rw [hs, forEach_error_at _ pre post x _ b e hpre hx]

theorem transferStep_gas_error (env : Env) (sf : Factory) (blk : Block) (b : Book)
    (t : Transfer) (e : Stop) (hh : 0 < blk.Header.height) (hcb : t.IsCoinbase = false)
    (hs : env.GetPubkeyHash t.Sender = none) (hr : env.GetPubkeyHash t.Recipient = none)
    (hg : checkGas env t.GasLimit t.IntrinsicGas "insufficient gas for transfer" = .error e) :
    transferStep env sf blk b t = .error e := by
  simp [transferStep, checkAddress, hcb, hs, hr, hh, hg]

theorem voteStep_gas_error (env : Env) (sf : Factory) (blk : Block) (b : Book)
    (x : Vote) (e : Stop) (hh : 0 < blk.Header.height)
    (hs : env.GetPubkeyHash x.Voter = none)
    (hr : x.Votee ≠ env.EmptyAddress → env.GetPubkeyHash x.Votee = none)
    (hg : checkGas env x.GasLimit x.IntrinsicGas "insufficient gas for vote" = .error e) :
    voteStep env sf blk b x = .error e := by
  by_cases hv : x.Votee = env.EmptyAddress
  · simp [voteStep, checkAddress, hs, hv, hh, hg]
  · simp [voteStep, checkAddress, hs, hv, hr hv, hh, hg]

theorem executionStep_gas_error (env : Env) (sf : Factory) (blk : Block) (b c : Book)
    (x : Execution) (e : Stop) (hh : 0 < blk.Header.height)
    (hs : env.GetPubkeyHash x.Executor = none)
    (hr : x.Contract ≠ env.EmptyAddress → env.GetPubkeyHash x.Contract = none)
    (hn : recordNonce sf b x.Executor x.Nonce "failed to get the nonce of the executor" = .ok c)
    (hg : checkGas env x.GasLimit x.IntrinsicGas "insufficient gas for execution" = .error e) :
    executionStep env sf blk b x = .error e := by
  by_cases hv : x.Contract = env.EmptyAddress
  · simp [executionStep, checkAddress, hs, hv, hh, hn, hg]
  · simp [executionStep, checkAddress, hs, hv, hr hv, hh, hn, hg]

theorem checkAddress_error (env : Env) (address msg : String) (e : Error)
    (h : checkAddress env address msg = .error (.error e)) :
    e.cause ≠ .ErrGasHigherThanLimit ∧ e.cause ≠ .ErrInsufficientGas := by
  unfold checkAddress at h
  split at h
  · simp only [Except.error.injEq, Stop.error.injEq] at h
    subst h
    exact ⟨by simp, by simp⟩
  · cases h

theorem verifyActions_error_proposal (env : Env) (sf : Factory) (va : String) (blk : Block)
    (cb : Bool) (pre post : List SecretProposal) (sp : SecretProposal) (b4 b5 : Book)
    (e : Stop) (hs : blk.SecretProposals = pre ++ sp :: post)
    (hbefore : beforeProposals env sf blk cb = .ok b4)
    (hpre : forEach (proposalStep env sf va blk) pre b4 = .ok b5)
    (hx : proposalStep env sf va blk b5 sp = .error e) :
    verifyActions env sf va blk cb = .error e := by
  simp only [verifyActions, collectActions_eq, hbefore, hs,
    forEach_error_at _ pre post sp b4 b5 e hpre hx]

end Blockchain

namespace Blockchain

/-! ## The claims about the phases of `Validate` -/

/-- C11: for every block reference, tip height and tip hash (64-bit heights), the linkage
phase `verifyHeightAndHash` fails with `ErrInvalidBlock` when the block is nil; otherwise with
`ErrInvalidTipHeight` when the height of the block is neither 0 nor the tip height plus one;
otherwise with `ErrInvalidBlock` ("wrong prev hash") when the previous hash of the block is
not the tip hash; otherwise it passes. When it fails, `Validate` returns that error, wrapped
with one more message and with the same cause, whatever the collaborators, the validator and
the coinbase flag are: no other check has a say. -/
theorem C11_linkage (env : Env) (v : validator) (blk : Option Block) (tipHeight : Nat)
    (tipHash : Bytes) (cb : Bool) (hh : tipHeight < ActPool.u64)
    (hb : ∀ b, blk = some b → b.Header.height < ActPool.u64) :
    verifyHeightAndHash blk tipHeight tipHash =
      (match blk with
       | none => .error (.error ⟨.ErrInvalidBlock, []⟩)
       | some b =>
         if b.Header.height ≠ 0 ∧ b.Header.height ≠ tipHeight + 1 then
           .error (.error ⟨.ErrInvalidTipHeight, ["wrong block height"]⟩)
         else if b.Header.prevBlockHash ≠ tipHash then
           .error (.error ⟨.ErrInvalidBlock, ["wrong prev hash"]⟩)
         else .ok ()) ∧
    (∀ e, verifyHeightAndHash blk tipHeight tipHash = .error (.error e) →
      Validate env v blk tipHeight tipHash cb =
        .error (.error (wrap e "failed to verify block's height and hash")) ∧
      (wrap e "failed to verify block's height and hash").cause = e.cause) := by
  constructor
  · cases blk with
    | none => rfl
    | some b =>
      have hlt := hb b rfl
      have hiff : (b.Header.height ≠ 0 ∧ b.Header.height ≠ (tipHeight + 1) % ActPool.u64) ↔
          (b.Header.height ≠ 0 ∧ b.Header.height ≠ tipHeight + 1) := by
        by_cases hw : tipHeight + 1 < ActPool.u64
        · rw [Nat.mod_eq_of_lt hw]
        · have : tipHeight + 1 = ActPool.u64 := by omega
          rw [this, Nat.mod_self]
          constructor
          · intro h; exact ⟨h.1, by omega⟩
          · intro h; exact ⟨h.1, h.1⟩
      simp only [verifyHeightAndHash, hiff]
  · intro e he
    refine ⟨?_, rfl⟩
    simp only [Validate, he, wrapStop]

theorem C11_linkage_witness :
    (0 : Nat) < ActPool.u64 ∧
    (∀ b, some scenarioBlockGap = some b → b.Header.height < ActPool.u64) ∧
    verifyHeightAndHash (some scenarioBlockGap) 0 [1] =
      .error (.error ⟨.ErrInvalidBlock, ["wrong prev hash"]⟩) ∧
    Validate scenarioEnv scenarioValidator (some scenarioBlockGap) 0 [1] false =
      .error (.error ⟨.ErrInvalidBlock,
        ["failed to verify block's height and hash", "wrong prev hash"]⟩) :=
  have hb : ∀ b, some scenarioBlockGap = some b → b.Header.height < ActPool.u64 := by
    intro b h; cases h; decide
  ⟨by decide, hb, by decide,
    ((C11_linkage scenarioEnv scenarioValidator (some scenarioBlockGap) 0 [1] false (by decide)
      hb).2 ⟨.ErrInvalidBlock, ["wrong prev hash"]⟩ (by decide)).1⟩

/-- C12: for every block that is not a dummy block, validated with a factory attached, that
passes the linkage and the signature and root checks and whose three loops over the
transfers, the votes and the executions return no error: the counter of coinbase transfers
is the number of coinbase transfers whose recipient is the address made of the chain id and
the public key of the header; if `containCoinbase` is true and that number is not 1, or
`containCoinbase` is false and it is not 0, `Validate` returns `ErrInvalidBlock` ("wrong
number of coinbase transfers"), whatever the number of verified signatures is, and `Validate`
returns the error of the signature count only when the number of coinbase transfers is
right. With `containCoinbase` true and no valid coinbase transfer the block is rejected. -/
theorem C12_coinbase_count (env : Env) (v : validator) (sf : Factory) (blk : Block)
    (tipHeight : Nat) (tipHash : Bytes) (cb : Bool) (b3 : Book)
    (hsf : v.sf = some sf) (hdummy : env.IsDummyBlock blk = false)
    (hlink : verifyHeightAndHash (some blk) tipHeight tipHash = .ok ())
    (hroot : verifySigAndRoot env blk = .ok ())
    (hloops : actionLoops env sf blk = .ok b3) :
    b3.coinbaseCount = validCoinbases env blk ∧
    (((cb = true ∧ validCoinbases env blk ≠ 1) ∨
        (cb = false ∧ validCoinbases env blk ≠ 0)) →
      Validate env v (some blk) tipHeight tipHash cb =
        .error (.error ⟨.ErrInvalidBlock, ["wrong number of coinbase transfers"]⟩)) ∧
    (cb = true → validCoinbases env blk = 0 →
      Validate env v (some blk) tipHeight tipHash cb =
        .error (.error ⟨.ErrInvalidBlock, ["wrong number of coinbase transfers"]⟩)) ∧
    (Validate env v (some blk) tipHeight tipHash cb =
        .error (.error ⟨.ErrInvalidBlock, ["failed to verify actions signature"]⟩) →
      (cb = true → validCoinbases env blk = 1) ∧
        (cb = false → validCoinbases env blk = 0)) := by
  have hc := (actionLoops_counts env sf blk b3 hloops).1
  have hval := Validate_eq_verifyActions env v sf blk tipHeight tipHash cb hsf hdummy hlink hroot
  have hbad : ((cb = true ∧ validCoinbases env blk ≠ 1) ∨
      (cb = false ∧ validCoinbases env blk ≠ 0)) →
      Validate env v (some blk) tipHeight tipHash cb =
        .error (.error ⟨.ErrInvalidBlock, ["wrong number of coinbase transfers"]⟩) := by
    intro h
    rw [hval]
    apply verifyActions_of_counts_error env sf v.validatorAddr blk cb b3 _ hloops
    unfold checkCounts
    rw [hc]
    rcases h with ⟨h1, h2⟩ | ⟨h1, h2⟩ <;> simp [h1, h2]
  refine ⟨hc, hbad, ?_, ?_⟩
  · intro h1 h2
    exact hbad (Or.inl ⟨h1, by omega⟩)
  · intro h
    constructor
    · intro h1
      by_contra h2
      rw [hbad (Or.inl ⟨h1, h2⟩)] at h
      exact absurd h (by decide)
    · intro h1
      by_contra h2
      rw [hbad (Or.inr ⟨h1, h2⟩)] at h
      exact absurd h (by decide)

theorem C12_coinbase_count_witness :
    scenarioValidator.sf = some scenarioFactory ∧
    scenarioEnv.IsDummyBlock scenarioBlockGood = false ∧
    verifyHeightAndHash (some scenarioBlockGood) 0 [] = .ok () ∧
    verifySigAndRoot scenarioEnv scenarioBlockGood = .ok () ∧
    (∃ b3, actionLoops scenarioEnv scenarioFactory scenarioBlockGood = .ok b3) ∧
    validCoinbases scenarioEnv scenarioBlockGood = 0 ∧
    Validate scenarioEnv scenarioValidator (some scenarioBlockGood) 0 [] true =
      .error (.error ⟨.ErrInvalidBlock, ["wrong number of coinbase transfers"]⟩) := by
  obtain ⟨b3, hb⟩ := ok_of_toBool
    (actionLoops scenarioEnv scenarioFactory scenarioBlockGood) (by decide)
  exact ⟨rfl, rfl, by decide, by decide, ⟨b3, hb⟩, by decide,
    (C12_coinbase_count scenarioEnv scenarioValidator scenarioFactory scenarioBlockGood 0 []
      true b3 rfl rfl (by decide) (by decide) hb).2.2.1 rfl (by decide)⟩

/-- The signature count of `verifyActions` on a block that is not a dummy block: the
counters are the numbers of verified signatures and of valid coinbase transfers, a wrong
total is `ErrInvalidBlock`, and in an accepted block every signature verifies. -/
theorem signature_totality (env : Env) (v : validator) (sf : Factory) (blk : Block)
    (tipHeight : Nat) (tipHash : Bytes) (cb : Bool)
    (hsf : v.sf = some sf) (hdummy : env.IsDummyBlock blk = false) :
    (∀ b3, verifyHeightAndHash (some blk) tipHeight tipHash = .ok () →
      verifySigAndRoot env blk = .ok () → actionLoops env sf blk = .ok b3 →
      (cb = true → validCoinbases env blk = 1) → (cb = false → validCoinbases env blk = 0) →
      b3.correctAction = verifiedSignatures env blk ∧
      b3.coinbaseCount = validCoinbases env blk ∧
      (verifiedSignatures env blk + validCoinbases env blk ≠
          blk.Transfers.length + blk.Votes.length + blk.Executions.length →
        Validate env v (some blk) tipHeight tipHash cb =
          .error (.error ⟨.ErrInvalidBlock, ["failed to verify actions signature"]⟩))) ∧
    (Validate env v (some blk) tipHeight tipHash cb = .ok () →
      verifiedSignatures env blk + validCoinbases env blk =
        blk.Transfers.length + blk.Votes.length + blk.Executions.length ∧
      (∀ t ∈ blk.Transfers, t.IsCoinbase = false →
        Verify env t.SrcPubkey t.Hash t.Signature = none) ∧
      (∀ x ∈ blk.Votes, Verify env x.SrcPubkey x.Hash x.Signature = none) ∧
      (∀ x ∈ blk.Executions, Verify env x.SrcPubkey x.Hash x.Signature = none)) := by
  constructor
  · intro b3 hlink hroot hloops h1 h0
    obtain ⟨hc, ha⟩ := actionLoops_counts env sf blk b3 hloops
    refine ⟨ha, hc, ?_⟩
    intro hne
    rw [Validate_eq_verifyActions env v sf blk tipHeight tipHash cb hsf hdummy hlink hroot]
    apply verifyActions_of_counts_error env sf v.validatorAddr blk cb b3 _ hloops
    unfold checkCounts
    rw [hc, ha]
    have hcoin : ((cb && decide (validCoinbases env blk ≠ 1)) ||
        (!cb && decide (validCoinbases env blk ≠ 0))) = false := by
      cases cb with
      | true => simp [h1 rfl]
      | false => simp [h0 rfl]
    rw [hcoin]
    simp only [Bool.false_eq_true, if_false]
    rw [if_pos hne]
  · intro hok
    obtain ⟨b, hb, _⟩ := Validate_ok_actions env v sf blk tipHeight tipHash cb hsf hdummy hok
    obtain ⟨b3, hloops, hcounts⟩ := collectActions_ok_loops env sf v.validatorAddr blk cb b hb
    obtain ⟨hc, ha⟩ := actionLoops_counts env sf blk b3 hloops
    have htot := (checkCounts_ok blk cb b3 hcounts).2.2
    rw [hc, ha] at htot
    exact ⟨htot, signatures_of_counts env blk htot⟩

/-- C13: for every block validated with a factory attached, a dummy block holding no
transfer, vote or execution: when the block has passed the earlier checks and the check of
the number of coinbase transfers, the two counters are the number of transfers (coinbase
transfers excluded), votes and executions whose signature verifies and the number of valid
coinbase transfers, and `Validate` returns `ErrInvalidBlock` ("failed to verify actions
signature") unless their sum is the number of transfers, votes and executions of the block;
and when `Validate` accepts the block, the sum is that number and the signature of every
transfer that is not a coinbase transfer, of every vote and of every execution verifies
over its own hash under its own public key. -/
theorem C13_signature_totality (env : Env) (v : validator) (sf : Factory) (blk : Block)
    (tipHeight : Nat) (tipHash : Bytes) (cb : Bool)
    (hsf : v.sf = some sf)
    (hdummy : env.IsDummyBlock blk = true →
      blk.Transfers = [] ∧ blk.Votes = [] ∧ blk.Executions = []) :
    (∀ b3, verifyHeightAndHash (some blk) tipHeight tipHash = .ok () →
      verifySigAndRoot env blk = .ok () → actionLoops env sf blk = .ok b3 →
      (cb = true → validCoinbases env blk = 1) → (cb = false → validCoinbases env blk = 0) →
      b3.correctAction = verifiedSignatures env blk ∧
      b3.coinbaseCount = validCoinbases env blk ∧
      (verifiedSignatures env blk + validCoinbases env blk ≠
          blk.Transfers.length + blk.Votes.length + blk.Executions.length →
        Validate env v (some blk) tipHeight tipHash cb =
          .error (.error ⟨.ErrInvalidBlock, ["failed to verify actions signature"]⟩))) ∧
    (Validate env v (some blk) tipHeight tipHash cb = .ok () →
      verifiedSignatures env blk + validCoinbases env blk =
        blk.Transfers.length + blk.Votes.length + blk.Executions.length ∧
      (∀ t ∈ blk.Transfers, t.IsCoinbase = false →
        Verify env t.SrcPubkey t.Hash t.Signature = none) ∧
      (∀ x ∈ blk.Votes, Verify env x.SrcPubkey x.Hash x.Signature = none) ∧
      (∀ x ∈ blk.Executions, Verify env x.SrcPubkey x.Hash x.Signature = none)) := by
  cases hd : env.IsDummyBlock blk with
  | false => exact signature_totality env v sf blk tipHeight tipHash cb hsf hd
  | true =>
    obtain ⟨ht, hv, he⟩ := hdummy hd
    have hsum : verifiedSignatures env blk + validCoinbases env blk =
        blk.Transfers.length + blk.Votes.length + blk.Executions.length := by
      simp [verifiedSignatures, validCoinbases, ht, hv, he]
    constructor
    · intro b3 _ _ hloops _ _
      obtain ⟨hc, ha⟩ := actionLoops_counts env sf blk b3 hloops
      exact ⟨ha, hc, fun hne => absurd hsum hne⟩
    · intro _
      refine ⟨hsum, ?_, ?_, ?_⟩
      · intro t hmem; rw [ht] at hmem; cases hmem
      · intro x hmem; rw [hv] at hmem; cases hmem
      · intro x hmem; rw [he] at hmem; cases hmem

theorem C13_signature_totality_witness :
    scenarioValidator.sf = some scenarioFactory ∧
    (scenarioEnv.IsDummyBlock scenarioBlockGood = true →
      scenarioBlockGood.Transfers = [] ∧ scenarioBlockGood.Votes = [] ∧
        scenarioBlockGood.Executions = []) ∧
    Validate scenarioEnv scenarioValidator (some scenarioBlockGood) 0 [] false = .ok () ∧
    (∀ t ∈ scenarioBlockGood.Transfers, t.IsCoinbase = false →
      Verify scenarioEnv t.SrcPubkey t.Hash t.Signature = none) :=
  ⟨rfl, fun h => absurd h (by decide), by decide,
    ((C13_signature_totality scenarioEnv scenarioValidator scenarioFactory scenarioBlockGood 0 []
      false rfl (fun h => absurd h (by decide))).2 (by decide)).2.1⟩

/-- The gas checks of `verifyActions` on a block of height above 0 that is not a dummy
block: the error of the first over-gassed action, the bounds in an accepted block, and the
exemption of coinbase transfers. -/
theorem gas_bounds (env : Env) (v : validator) (sf : Factory) (blk : Block)
    (tipHeight : Nat) (tipHash : Bytes) (cb : Bool)
    (hsf : v.sf = some sf) (hdummy : env.IsDummyBlock blk = false)
    (hheight : 0 < blk.Header.height)
    (hlink : verifyHeightAndHash (some blk) tipHeight tipHash = .ok ())
    (hroot : verifySigAndRoot env blk = .ok ()) :
    (∀ (pre post : List Transfer) (t : Transfer) (b : Book),
      blk.Transfers = pre ++ t :: post →
      forEach (transferStep env sf blk) pre Book.empty = .ok b →
      t.IsCoinbase = false →
      env.GetPubkeyHash t.Sender = none → env.GetPubkeyHash t.Recipient = none →
      (env.GasLimit < t.GasLimit →
        Validate env v (some blk) tipHeight tipHash cb =
          .error (.error ⟨.ErrGasHigherThanLimit, ["gas is higher than gas limit"]⟩)) ∧
      (t.GasLimit ≤ env.GasLimit → t.GasLimit < t.IntrinsicGas.1 →
        Validate env v (some blk) tipHeight tipHash cb =
          .error (.error ⟨.ErrInsufficientGas, ["insufficient gas for transfer"]⟩))) ∧
    (∀ (pre post : List Vote) (x : Vote) (b1 b : Book),
      forEach (transferStep env sf blk) blk.Transfers Book.empty = .ok b1 →
      blk.Votes = pre ++ x :: post →
      forEach (voteStep env sf blk) pre b1 = .ok b →
      env.GetPubkeyHash x.Voter = none →
      (x.Votee ≠ env.EmptyAddress → env.GetPubkeyHash x.Votee = none) →
      (env.GasLimit < x.GasLimit →
        Validate env v (some blk) tipHeight tipHash cb =
          .error (.error ⟨.ErrGasHigherThanLimit, ["gas is higher than gas limit"]⟩)) ∧
      (x.GasLimit ≤ env.GasLimit → x.GasLimit < x.IntrinsicGas.1 →
        Validate env v (some blk) tipHeight tipHash cb =
          .error (.error ⟨.ErrInsufficientGas, ["insufficient gas for vote"]⟩))) ∧
    (∀ (pre post : List Execution) (x : Execution) (b1 b2 b c : Book),
      forEach (transferStep env sf blk) blk.Transfers Book.empty = .ok b1 →
      forEach (voteStep env sf blk) blk.Votes b1 = .ok b2 →
      blk.Executions = pre ++ x :: post →
      forEach (executionStep env sf blk) pre b2 = .ok b →
      env.GetPubkeyHash x.Executor = none →
      (x.Contract ≠ env.EmptyAddress → env.GetPubkeyHash x.Contract = none) →
      recordNonce sf b x.Executor x.Nonce "failed to get the nonce of the executor" = .ok c →
      (env.GasLimit < x.GasLimit →
        Validate env v (some blk) tipHeight tipHash cb =
          .error (.error ⟨.ErrGasHigherThanLimit, ["gas is higher than gas limit"]⟩)) ∧
      (x.GasLimit ≤ env.GasLimit → x.GasLimit < x.IntrinsicGas.1 →
        Validate env v (some blk) tipHeight tipHash cb =
          .error (.error ⟨.ErrInsufficientGas, ["insufficient gas for execution"]⟩))) ∧
    (Validate env v (some blk) tipHeight tipHash cb = .ok () →
      (∀ t ∈ blk.Transfers, t.IsCoinbase = false →
        t.IntrinsicGas.1 ≤ t.GasLimit ∧ t.GasLimit ≤ env.GasLimit) ∧
      (∀ x ∈ blk.Votes, x.IntrinsicGas.1 ≤ x.GasLimit ∧ x.GasLimit ≤ env.GasLimit) ∧
      (∀ x ∈ blk.Executions,
        x.IntrinsicGas.1 ≤ x.GasLimit ∧ x.GasLimit ≤ env.GasLimit)) ∧
    (∀ (t : Transfer) (b : Book), t.IsCoinbase = true →
      ∃ b1, transferStep env sf blk b t = .ok b1) := by
  have hval := Validate_eq_verifyActions env v sf blk tipHeight tipHash cb hsf hdummy hlink hroot
  refine ⟨?_, ?_, ?_, ?_, ?_⟩
  · intro pre post t b hs hpre hcb ha1 ha2
    constructor
    · intro hg
      rw [hval]
      exact verifyActions_of_loops_error env sf _ blk cb _
        (actionLoops_error_transfer env sf blk pre post t b _ hs hpre
          (transferStep_gas_error env sf blk b t _ hheight hcb ha1 ha2
            (checkGas_high env _ _ _ hg)))
    · intro hle hg
      rw [hval]
      exact verifyActions_of_loops_error env sf _ blk cb _
        (actionLoops_error_transfer env sf blk pre post t b _ hs hpre
          (transferStep_gas_error env sf blk b t _ hheight hcb ha1 ha2
            (checkGas_insufficient env _ _ _ hle (Or.inl hg))))
  · intro pre post x b1 b h1 hs hpre ha1 ha2
    constructor
    · intro hg
      rw [hval]
      exact verifyActions_of_loops_error env sf _ blk cb _
        (actionLoops_error_vote env sf blk pre post x b1 b _ h1 hs hpre
          (voteStep_gas_error env sf blk b x _ hheight ha1 ha2 (checkGas_high env _ _ _ hg)))
    · intro hle hg
      rw [hval]
      exact verifyActions_of_loops_error env sf _ blk cb _
        (actionLoops_error_vote env sf blk pre post x b1 b _ h1 hs hpre
          (voteStep_gas_error env sf blk b x _ hheight ha1 ha2
            (checkGas_insufficient env _ _ _ hle (Or.inl hg))))
  · intro pre post x b1 b2 b c h1 h2 hs hpre ha1 ha2 hn
    constructor
    · intro hg
      rw [hval]
      exact verifyActions_of_loops_error env sf _ blk cb _
        (actionLoops_error_execution env sf blk pre post x b1 b2 b _ h1 h2 hs hpre
          (executionStep_gas_error env sf blk b c x _ hheight ha1 ha2 hn
            (checkGas_high env _ _ _ hg)))
    · intro hle hg
      rw [hval]
      exact verifyActions_of_loops_error env sf _ blk cb _
        (actionLoops_error_execution env sf blk pre post x b1 b2 b _ h1 h2 hs hpre
          (executionStep_gas_error env sf blk b c x _ hheight ha1 ha2 hn
            (checkGas_insufficient env _ _ _ hle (Or.inl hg))))
  · intro hok
    obtain ⟨b, hb, _⟩ := Validate_ok_actions env v sf blk tipHeight tipHash cb hsf hdummy hok
    obtain ⟨b3, hloops, _⟩ := collectActions_ok_loops env sf v.validatorAddr blk cb b hb
    obtain ⟨b1, b2, h1, h2, h3⟩ := actionLoops_ok env sf blk b3 hloops
    refine ⟨?_, ?_, ?_⟩
    · intro t ht hcb
      obtain ⟨c, c1, hstep⟩ := forEach_ok_mem _ _ _ _ h1 t ht
      have := transferStep_gas env sf blk c c1 t hheight hcb hstep
      exact ⟨this.2.1, this.1⟩
    · intro x hx
      obtain ⟨c, c1, hstep⟩ := forEach_ok_mem _ _ _ _ h2 x hx
      have := voteStep_gas env sf blk c c1 x hheight hstep
      exact ⟨this.2.1, this.1⟩
    · intro x hx
      obtain ⟨c, c1, hstep⟩ := forEach_ok_mem _ _ _ _ h3 x hx
      have := executionStep_gas env sf blk c c1 x hstep
      exact ⟨this.2.1, this.1⟩
  · intro t b hcb
    exact transferStep_coinbase env sf blk b t hcb

/-- C14: for every block of height above 0 validated with a factory attached, a dummy
block holding no transfer, vote or execution, that passes the linkage and the signature and
root checks: a transfer that is not a coinbase transfer, a vote or an execution, reached
with no error before it and with valid addresses (for an execution, with its nonce
recorded), makes `Validate` fail with `ErrGasHigherThanLimit` when its gas limit is above
`action.GasLimit`, and with `ErrInsufficientGas` when its gas limit is within
`action.GasLimit` and below its intrinsic gas. Hence in every such block that `Validate`
accepts, the intrinsic gas of every transfer that is not a coinbase transfer, of every vote
and of every execution is at most its gas limit, which is at most `action.GasLimit`. A
coinbase transfer never stops the loop: its gas is not looked at. -/
theorem C14_gas_bounds (env : Env) (v : validator) (sf : Factory) (blk : Block)
    (tipHeight : Nat) (tipHash : Bytes) (cb : Bool)
    (hsf : v.sf = some sf)
    (hdummy : env.IsDummyBlock blk = true →
      blk.Transfers = [] ∧ blk.Votes = [] ∧ blk.Executions = [])
    (hheight : 0 < blk.Header.height)
    (hlink : verifyHeightAndHash (some blk) tipHeight tipHash = .ok ())
    (hroot : verifySigAndRoot env blk = .ok ()) :
    (∀ (pre post : List Transfer) (t : Transfer) (b : Book),
      blk.Transfers = pre ++ t :: post →
      forEach (transferStep env sf blk) pre Book.empty = .ok b →
      t.IsCoinbase = false →
      env.GetPubkeyHash t.Sender = none → env.GetPubkeyHash t.Recipient = none →
      (env.GasLimit < t.GasLimit →
        Validate env v (some blk) tipHeight tipHash cb =
          .error (.error ⟨.ErrGasHigherThanLimit, ["gas is higher than gas limit"]⟩)) ∧
      (t.GasLimit ≤ env.GasLimit → t.GasLimit < t.IntrinsicGas.1 →
        Validate env v (some blk) tipHeight tipHash cb =
          .error (.error ⟨.ErrInsufficientGas, ["insufficient gas for transfer"]⟩))) ∧
    (∀ (pre post : List Vote) (x : Vote) (b1 b : Book),
      forEach (transferStep env sf blk) blk.Transfers Book.empty = .ok b1 →
      blk.Votes = pre ++ x :: post →
      forEach (voteStep env sf blk) pre b1 = .ok b →
      env.GetPubkeyHash x.Voter = none →
      (x.Votee ≠ env.EmptyAddress → env.GetPubkeyHash x.Votee = none) →
      (env.GasLimit < x.GasLimit →
        Validate env v (some blk) tipHeight tipHash cb =
          .error (.error ⟨.ErrGasHigherThanLimit, ["gas is higher than gas limit"]⟩)) ∧
      (x.GasLimit ≤ env.GasLimit → x.GasLimit < x.IntrinsicGas.1 →
        Validate env v (some blk) tipHeight tipHash cb =
          .error (.error ⟨.ErrInsufficientGas, ["insufficient gas for vote"]⟩))) ∧
    (∀ (pre post : List Execution) (x : Execution) (b1 b2 b c : Book),
      forEach (transferStep env sf blk) blk.Transfers Book.empty = .ok b1 →
      forEach (voteStep env sf blk) blk.Votes b1 = .ok b2 →
      blk.Executions = pre ++ x :: post →
      forEach (executionStep env sf blk) pre b2 = .ok b →
      env.GetPubkeyHash x.Executor = none →
      (x.Contract ≠ env.EmptyAddress → env.GetPubkeyHash x.Contract = none) →
      recordNonce sf b x.Executor x.Nonce "failed to get the nonce of the executor" = .ok c →
      (env.GasLimit < x.GasLimit →
        Validate env v (some blk) tipHeight tipHash cb =
          .error (.error ⟨.ErrGasHigherThanLimit, ["gas is higher than gas limit"]⟩)) ∧
      (x.GasLimit ≤ env.GasLimit → x.GasLimit < x.IntrinsicGas.1 →
        Validate env v (some blk) tipHeight tipHash cb =
          .error (.error ⟨.ErrInsufficientGas, ["insufficient gas for execution"]⟩))) ∧
    (Validate env v (some blk) tipHeight tipHash cb = .ok () →
      (∀ t ∈ blk.Transfers, t.IsCoinbase = false →
        t.IntrinsicGas.1 ≤ t.GasLimit ∧ t.GasLimit ≤ env.GasLimit) ∧
      (∀ x ∈ blk.Votes, x.IntrinsicGas.1 ≤ x.GasLimit ∧ x.GasLimit ≤ env.GasLimit) ∧
      (∀ x ∈ blk.Executions,
        x.IntrinsicGas.1 ≤ x.GasLimit ∧ x.GasLimit ≤ env.GasLimit)) ∧
    (∀ (t : Transfer) (b : Book), t.IsCoinbase = true →
      ∃ b1, transferStep env sf blk b t = .ok b1) := by
  cases hd : env.IsDummyBlock blk with
  | false => exact gas_bounds env v sf blk tipHeight tipHash cb hsf hd hheight hlink hroot
  | true =>
    obtain ⟨ht, hv, he⟩ := hdummy hd
    refine ⟨?_, ?_, ?_, ?_, ?_⟩
    · intro pre post t b hs
      rw [ht] at hs
      exact absurd hs (by simp)
    · intro pre post x b1 b _ hs
      rw [hv] at hs
      exact absurd hs (by simp)
    · intro pre post x b1 b2 b c _ _ hs
      rw [he] at hs
      exact absurd hs (by simp)
    · intro _
      refine ⟨?_, ?_, ?_⟩
      · intro t hmem; rw [ht] at hmem; cases hmem
      · intro x hmem; rw [hv] at hmem; cases hmem
      · intro x hmem; rw [he] at hmem; cases hmem
    · intro t b hcb
      exact transferStep_coinbase env sf blk b t hcb

theorem C14_gas_bounds_witness :
    scenarioValidator.sf = some scenarioFactory ∧
    (scenarioEnv.IsDummyBlock scenarioBlockOverGas = true →
      scenarioBlockOverGas.Transfers = [] ∧ scenarioBlockOverGas.Votes = [] ∧
        scenarioBlockOverGas.Executions = []) ∧
    0 < scenarioBlockOverGas.Header.height ∧
    verifyHeightAndHash (some scenarioBlockOverGas) 0 [] = .ok () ∧
    verifySigAndRoot scenarioEnv scenarioBlockOverGas = .ok () ∧
    Validate scenarioEnv scenarioValidator (some scenarioBlockOverGas) 0 [] false =
      .error (.error ⟨.ErrGasHigherThanLimit, ["gas is higher than gas limit"]⟩) :=
  ⟨rfl, fun h => absurd h (by decide), by decide, by decide, by decide,
    ((C14_gas_bounds scenarioEnv scenarioValidator scenarioFactory scenarioBlockOverGas 0 []
      false rfl (fun h => absurd h (by decide)) (by decide) (by decide) (by decide)).1 [] []
      { scenarioTransfer 4 with GasLimit := 2000000 } Book.empty rfl rfl rfl rfl rfl).1
      (by decide)⟩

/-- C15 (the code at the failing input, and what holds): the block of height 0 with one
execution whose gas limit is above `action.GasLimit` is rejected by `Validate`, with the
factory attached, with `ErrGasHigherThanLimit`; so is, at height 0, every execution with
valid addresses and such a gas limit by the loop over the executions. The loops over the
transfers and the votes return no gas error at height 0, and the nonces are not verified
at height 0. -/
theorem C15_genesis_execution_gas :
    scenarioValidator.sf = some scenarioFactory ∧
    scenarioBlockGenesisExecution.Header.height = 0 ∧
    Validate scenarioEnv scenarioValidator (some scenarioBlockGenesisExecution) 0 [] false =
      .error (.error ⟨.ErrGasHigherThanLimit, ["gas is higher than gas limit"]⟩) ∧
    (∀ (env : Env) (sf : Factory) (blk : Block) (b : Book) (x : Execution),
      blk.Header.height = 0 → env.GetPubkeyHash x.Executor = none →
      (x.Contract ≠ env.EmptyAddress → env.GetPubkeyHash x.Contract = none) →
      env.GasLimit < x.GasLimit →
      executionStep env sf blk b x =
        .error (.error ⟨.ErrGasHigherThanLimit, ["gas is higher than gas limit"]⟩)) ∧
    (∀ (env : Env) (sf : Factory) (blk : Block) (b : Book) (t : Transfer) (e : Error),
      blk.Header.height = 0 → transferStep env sf blk b t = .error (.error e) →
      e.cause ≠ .ErrGasHigherThanLimit ∧ e.cause ≠ .ErrInsufficientGas) ∧
    (∀ (env : Env) (sf : Factory) (blk : Block) (b : Book) (x : Vote) (e : Error),
      blk.Header.height = 0 → voteStep env sf blk b x = .error (.error e) →
      e.cause ≠ .ErrGasHigherThanLimit ∧ e.cause ≠ .ErrInsufficientGas) ∧
    (∀ (blk : Block) (b : Book), blk.Header.height = 0 → checkNonces blk b = .ok ()) := by
  refine ⟨rfl, rfl, by decide, ?_, ?_, ?_, ?_⟩
  · intro env sf blk b x hh hs hr hg
    by_cases hv : x.Contract = env.EmptyAddress
    · simp [executionStep, checkAddress, hs, hv, hh, checkGas_high env _ _ _ hg]
    · simp [executionStep, checkAddress, hs, hv, hr hv, hh, checkGas_high env _ _ _ hg]
  · intro env sf blk b t e hh h
    unfold transferStep at h
    split at h
    · rename_i e1 he1
      cases h
      split at he1
      · split at he1
        · rename_i e2 he2
          cases he1
          exact checkAddress_error _ _ _ _ he2
        · exact checkAddress_error _ _ _ _ he1
      · cases he1
    · split at h
      · rename_i e1 he1
        simp [hh] at he1
      · split at h
        · split at h <;> cases h
        · split at h <;> cases h
  · intro env sf blk b x e hh h
    unfold voteStep at h
    split at h
    · rename_i e1 he1
      cases h
      exact checkAddress_error _ _ _ _ he1
    · split at h
      · rename_i e1 he1
        cases h
        split at he1
        · exact checkAddress_error _ _ _ _ he1
        · cases he1
      · split at h
        · rename_i e1 he1
          simp [hh] at he1
        · split at h <;> cases h
  · intro blk b hh
    simp [checkNonces, hh]

/-- C16: for every block that is not a dummy block, validated with a factory attached, and
every secret proposal of the block that is reached with no error before it, with valid
addresses and its nonce recorded: if the destination of the proposal is the address of the
validator and the block has a witness, the result of
`ShareVerify(CreateID(validatorAddr), secret, witness)` decides: when its boolean is false,
`Validate` fails, with the error of the adapter as the cause when there is one and with
`ErrDKGSecretProposal` otherwise; when its boolean is true the proposal passes, whatever
error the adapter returns with it. If the destination is another address the proposal
passes whatever `ShareVerify` is: it is not called. -/
theorem C16_share_verify (env : Env) (v : validator) (sf : Factory) (blk : Block)
    (tipHeight : Nat) (tipHash : Bytes) (cb : Bool) (pre post : List SecretProposal)
    (sp : SecretProposal) (b4 b5 b6 : Book)
    (hsf : v.sf = some sf) (hdummy : env.IsDummyBlock blk = false)
    (hlink : verifyHeightAndHash (some blk) tipHeight tipHash = .ok ())
    (hroot : verifySigAndRoot env blk = .ok ())
    (hsplit : blk.SecretProposals = pre ++ sp :: post)
    (hbefore : beforeProposals env sf blk cb = .ok b4)
    (hpre : forEach (proposalStep env sf v.validatorAddr blk) pre b4 = .ok b5)
    (hsrc : env.GetPubkeyHash sp.SrcAddr = none) (hdst : env.GetPubkeyHash sp.DstAddr = none)
    (hrec : recordNonce sf b5 sp.SrcAddr sp.Nonce "failed to get the nonce of secret sender" =
      .ok b6) :
    (∀ sw, blk.SecretWitness = some sw → v.validatorAddr = sp.DstAddr →
      ((env.ShareVerify (env.CreateID v.validatorAddr) sp.Secret sw.Witness).1 = false →
        (∀ e, (env.ShareVerify (env.CreateID v.validatorAddr) sp.Secret sw.Witness).2 = some e →
          Validate env v (some blk) tipHeight tipHash cb =
            .error (.error ⟨.dkg e, ["failed to verify the DKG secret share"]⟩)) ∧
        ((env.ShareVerify (env.CreateID v.validatorAddr) sp.Secret sw.Witness).2 = none →
          Validate env v (some blk) tipHeight tipHash cb =
            .error (.error ⟨.ErrDKGSecretProposal,
              ["failed to verify the DKG secret share"]⟩))) ∧
      ((env.ShareVerify (env.CreateID v.validatorAddr) sp.Secret sw.Witness).1 = true →
        proposalStep env sf v.validatorAddr blk b5 sp = .ok b6)) ∧
    (v.validatorAddr ≠ sp.DstAddr →
      ∀ shareVerify : Bytes → List Nat → List Bytes → Bool × Option String,
        proposalStep { env with ShareVerify := shareVerify } sf v.validatorAddr blk b5 sp =
          .ok b6) := by
  have hval := Validate_eq_verifyActions env v sf blk tipHeight tipHash cb hsf hdummy hlink hroot
  constructor
  · intro sw hw hva
    refine ⟨fun hfalse => ⟨?_, ?_⟩, ?_⟩
    · intro e he
      rw [hval]
      apply verifyActions_error_proposal env sf v.validatorAddr blk cb pre post sp b4 b5 _
        hsplit hbefore hpre
      simp [proposalStep, checkAddress, hsrc, hdst, hrec, if_pos hva, hw, hfalse, he, wrap]
    · intro he
      rw [hval]
      apply verifyActions_error_proposal env sf v.validatorAddr blk cb pre post sp b4 b5 _
        hsplit hbefore hpre
      simp [proposalStep, checkAddress, hsrc, hdst, hrec, if_pos hva, hw, hfalse, he, wrap]
    · intro htrue
      simp [proposalStep, checkAddress, hsrc, hdst, hrec, if_pos hva, hw, htrue]
  · intro hne shareVerify
    simp [proposalStep, checkAddress, hsrc, hdst, hrec, hne]

theorem C16_share_verify_witness :
    ∃ b4 b6 : Book,
      scenarioValidator.sf = some scenarioFactory ∧
      scenarioEnvReject.IsDummyBlock scenarioBlockProposal = false ∧
      verifyHeightAndHash (some scenarioBlockProposal) 0 [] = .ok () ∧
      verifySigAndRoot scenarioEnvReject scenarioBlockProposal = .ok () ∧
      beforeProposals scenarioEnvReject scenarioFactory scenarioBlockProposal false = .ok b4 ∧
      recordNonce scenarioFactory b4 "S" 4 "failed to get the nonce of secret sender" =
        .ok b6 ∧
      Validate scenarioEnvReject scenarioValidator (some scenarioBlockProposal) 0 [] false =
        .error (.error ⟨.ErrDKGSecretProposal, ["failed to verify the DKG secret share"]⟩) := by
  obtain ⟨b4, b6, h4, h6⟩ : ∃ b4 b6 : Book,
      beforeProposals scenarioEnvReject scenarioFactory scenarioBlockProposal false = .ok b4 ∧
      recordNonce scenarioFactory b4 "S" 4 "failed to get the nonce of secret sender" =
        .ok b6 := ⟨_, _, rfl, rfl⟩
  exact ⟨b4, b6, rfl, rfl, by decide, by decide, h4, h6,
    (((C16_share_verify scenarioEnvReject scenarioValidator scenarioFactory
      scenarioBlockProposal 0 [] false [] [] ⟨"S", "V", 4, []⟩ b4 b4 b6 rfl rfl (by decide)
      (by decide) rfl h4 rfl rfl rfl h6).1 ⟨"T", 1, []⟩ rfl rfl).1 rfl).2 rfl⟩

/-- C17 (the code at the failing input): the block of height 1 with one secret proposal
addressed to the validator and no secret witness: `Validate`, with the factory attached,
does not return an error value: the call `blk.SecretWitness.Witness()` on the nil witness
stops it with a nil pointer dereference. The same holds for every proposal addressed to the
validator that passes the address checks and the recording of its nonce, in every block
without a witness. -/
theorem C17_missing_witness :
    scenarioValidator.sf = some scenarioFactory ∧
    scenarioBlockNoWitness.SecretWitness = none ∧
    (∃ sp ∈ scenarioBlockNoWitness.SecretProposals,
      sp.DstAddr = scenarioValidator.validatorAddr) ∧
    Validate scenarioEnv scenarioValidator (some scenarioBlockNoWitness) 0 [] false =
      .error .nilPointer ∧
    (∀ (env : Env) (sf : Factory) (va : String) (blk : Block) (b b1 : Book)
      (sp : SecretProposal),
      env.GetPubkeyHash sp.SrcAddr = none → env.GetPubkeyHash sp.DstAddr = none →
      recordNonce sf b sp.SrcAddr sp.Nonce "failed to get the nonce of secret sender" = .ok b1 →
      va = sp.DstAddr → blk.SecretWitness = none →
      proposalStep env sf va blk b sp = .error .nilPointer) := by
  refine ⟨rfl, rfl, ⟨⟨"S", "V", 4, []⟩, by decide, rfl⟩, by decide, ?_⟩
  intro env sf va blk b b1 sp hs hd hn hva hw
  simp [proposalStep, checkAddress, hs, hd, hn, hva, hw]

/-- C18: for every dummy block that passes the linkage check `verifyHeightAndHash`,
`Validate` returns nil, whatever the signature and the transaction root of the header, the
actions of the block, the flag `containCoinbase` and the factory of the validator (attached
or not) are. -/
theorem C18_dummy_block (env : Env) (v : validator) (blk : Block) (tipHeight : Nat)
    (tipHash : Bytes) (cb : Bool) (hdummy : env.IsDummyBlock blk = true)
    (hlink : verifyHeightAndHash (some blk) tipHeight tipHash = .ok ()) :
    Validate env v (some blk) tipHeight tipHash cb = .ok () := by
  simp [Validate, hlink, wrapStop, hdummy]

theorem C18_dummy_block_witness :
    scenarioEnvDummy.IsDummyBlock scenarioBlockGap = true ∧
    verifyHeightAndHash (some scenarioBlockGap) 0 [] = .ok () ∧
    Validate scenarioEnvDummy scenarioValidator (some scenarioBlockGap) 0 [] true = .ok () :=
  ⟨by decide, by decide,
    C18_dummy_block scenarioEnvDummy scenarioValidator scenarioBlockGap 0 [] true (by decide)
      (by decide)⟩

/-- C19: with no factory attached, for every block that is not a dummy block and passes the
linkage check, `Validate` returns nil if and only if the height is 0 or the signature of the
header verifies over `HashBlock()` under the public key of the header, and the transaction
root of the header is the computed `TxRoot()`; otherwise it returns an error whose cause is
`ErrInvalidBlock`. At height 0 the result depends on the transaction root alone, and a block
with the same header, the same hash and the same computed root gets the same result: no
action is looked at. -/
theorem C19_no_factory (env : Env) (v : validator) (blk : Block) (tipHeight : Nat)
    (tipHash : Bytes) (cb : Bool) (hsf : v.sf = none)
    (hdummy : env.IsDummyBlock blk = false)
    (hlink : verifyHeightAndHash (some blk) tipHeight tipHash = .ok ()) :
    (Validate env v (some blk) tipHeight tipHash cb = .ok () ↔
      (blk.Header.height = 0 ∨
        env.ecVerify blk.Header.Pubkey (env.HashBlock blk) blk.Header.blockSig = true) ∧
      blk.Header.txRoot = env.TxRoot blk) ∧
    (Validate env v (some blk) tipHeight tipHash cb ≠ .ok () →
      ∃ context, Validate env v (some blk) tipHeight tipHash cb =
        .error (.error ⟨.ErrInvalidBlock, context⟩)) ∧
    (blk.Header.height = 0 →
      (Validate env v (some blk) tipHeight tipHash cb = .ok () ↔
        blk.Header.txRoot = env.TxRoot blk)) ∧
    (∀ blk1 : Block, blk1.Header = blk.Header → env.IsDummyBlock blk1 = false →
      env.HashBlock blk1 = env.HashBlock blk → env.TxRoot blk1 = env.TxRoot blk →
      Validate env v (some blk1) tipHeight tipHash cb =
        Validate env v (some blk) tipHeight tipHash cb) := by
  have hval : ∀ b : Block, b.Header = blk.Header → env.IsDummyBlock b = false →
      Validate env v (some b) tipHeight tipHash cb =
        wrapStop (verifySigAndRoot env b)
          "failed to verify block's signature and merkle root" := by
    intro b hhd hd
    have hl : verifyHeightAndHash (some b) tipHeight tipHash = .ok () := by
      simpa only [verifyHeightAndHash, hhd] using hlink
    simp only [Validate, hl, wrapStop, hd, hsf]
    cases verifySigAndRoot env b with
    | error e => cases e <;> rfl
    | ok u => rfl
  have hv := hval blk rfl hdummy
  refine ⟨?_, ?_, ?_, ?_⟩
  · rw [hv]
    unfold verifySigAndRoot
    by_cases h1 : blk.Header.height > 0 ∧
        ¬ env.ecVerify blk.Header.Pubkey (env.HashBlock blk) blk.Header.blockSig = true
    · rw [if_pos h1]
      simp only [wrapStop, false_iff, not_and, reduceCtorEq]
      intro h; rcases h with h | h
      · omega
      · exact absurd h h1.2
    · rw [if_neg h1]
      have h1b : blk.Header.height = 0 ∨
          env.ecVerify blk.Header.Pubkey (env.HashBlock blk) blk.Header.blockSig = true := by
        by_cases hz : blk.Header.height = 0
        · exact Or.inl hz
        · right
          by_contra hc
          exact h1 ⟨by omega, hc⟩
      by_cases h2 : blk.Header.txRoot ≠ env.TxRoot blk
      · rw [if_pos h2]
        simp only [wrapStop, false_iff, not_and, reduceCtorEq]
        intro _; exact h2
      · rw [if_neg h2]
        simp only [ne_eq, not_not] at h2
        simp only [wrapStop, true_iff]
        exact ⟨h1b, h2⟩
  · rw [hv]
    unfold verifySigAndRoot
    split
    · intro _; exact ⟨_, rfl⟩
    · split
      · intro _; exact ⟨_, rfl⟩
      · intro h; exact absurd rfl h
  · intro hz
    rw [hv]
    unfold verifySigAndRoot
    have h1 : ¬ (blk.Header.height > 0 ∧
        ¬ env.ecVerify blk.Header.Pubkey (env.HashBlock blk) blk.Header.blockSig = true) := by
      intro h; omega
    rw [if_neg h1]
    by_cases h2 : blk.Header.txRoot ≠ env.TxRoot blk
    · rw [if_pos h2]
      simp only [wrapStop, false_iff, reduceCtorEq]
      exact h2
    · rw [if_neg h2]
      simp only [ne_eq, not_not] at h2
      simp only [wrapStop, true_iff]
      exact h2
  · intro blk1 hhd hd hh ht
    rw [hv, hval blk1 hhd hd]
    simp only [verifySigAndRoot, hhd, hh, ht]

theorem C19_no_factory_witness :
    scenarioValidatorBare.sf = none ∧
    scenarioEnv.IsDummyBlock scenarioBlockGap = false ∧
    verifyHeightAndHash (some scenarioBlockGap) 0 [] = .ok () ∧
    Validate scenarioEnv scenarioValidatorBare (some scenarioBlockGap) 0 [] false = .ok () :=
  ⟨rfl, rfl, by decide,
    (C19_no_factory scenarioEnv scenarioValidatorBare scenarioBlockGap 0 [] false rfl rfl
      (by decide)).1.mpr ⟨Or.inr (by decide), by decide⟩⟩

end Blockchain

namespace ActPool

/-! ## More lemmas about the queue -/

/-- A walk of `PendingActs` that runs out of fuel has met stored nonces only. -/
theorem pendingLoop_error (items : Items) (fuel : Nat) : ∀ (n : Nat) (acts : List Action)
    (e : Fault), n < u64 → pendingLoop items fuel n acts = .error e →
    ∀ i, i < fuel → (n + i) % u64 ∈ items.keys := by
  induction fuel with
  | zero => intro n acts e _ _ i hi; omega
  | succ f ih =>
    intro n acts e hn h i hi
    have hn0 : (n + 0) % u64 = n := by simpa using Nat.mod_eq_of_lt hn
    unfold pendingLoop at h
    cases hl : items.lookup n with
    | none => rw [hl] at h; simp at h
    | some act =>
      rw [hl] at h
      simp only at h
      cases i with
      | zero => rw [hn0, mem_keys_iff_lookup]; exact ⟨act, hl⟩
      | succ j =>
        have := ih _ _ e (Nat.mod_lt _ (by simp [u64])) h j (by omega)
        rw [seq_shift] at this
        exact this

/-- The method `PendingActs` returns when the map has fewer than `2^64` entries. -/
theorem PendingActs_total (q : actQueue) (hn : q.startNonce < u64) (hlen : Len q < u64) :
    ∃ acts, PendingActs q = .ok acts := by
  unfold PendingActs
  split
  · exact ⟨[], rfl⟩
  · cases h : pendingLoop q.items (q.items.keys.length + 1) q.startNonce [] with
    | ok r => exact ⟨r, rfl⟩
    | error e =>
      exfalso
      have hsub := pendingLoop_error q.items _ q.startNonce [] e hn h
      have hnd := walked_nodup q.startNonce (q.items.keys.length + 1)
        (by unfold Len at hlen; omega)
      have hsp : (walked q.startNonce (q.items.keys.length + 1)).Subperm q.items.keys := by
        refine hnd.subperm ?_
        intro x hx
        unfold walked at hx
        rw [List.mem_map] at hx
        obtain ⟨i, hi, rfl⟩ := hx
        exact hsub i (List.mem_range.mp hi)
      have := hsp.length_le
      simp [walked] at this

/-- The start nonce and the pending nonce of a queue built by the methods are 64-bit
values. -/
theorem reachable_nonces (q : actQueue) (h : Reachable q) :
    q.startNonce < u64 ∧ q.pendingNonce < u64 := by
  induction h with
  | new => exact ⟨by decide, by decide⟩
  | put q act _ _ ih =>
    by_cases hd : (q.items.lookup act.nonce).isSome
    · rw [Put_dup q act hd]; exact ih
    · rw [Put_fresh q act (by simpa using hd)]; exact ih
  | filterNonce q q1 t removed hr _ hrun ih =>
    obtain ⟨q1', heq, _, _, hs, hp, _⟩ := FilterNonce_spec q t (reachable_inv q hr)
    rw [hrun] at heq
    simp only [Except.ok.injEq, Prod.mk.injEq] at heq
    rw [heq.1, hs, hp]; exact ih
  | updateQueue q q1 n removed hr hn hrun ih =>
    obtain ⟨k, keep, drop, q1', removed', _, _, _, heq, _, _, hs, hp, _⟩ :=
      UpdateQueue_cut q n hn (UpdateQueue_ok_walk q n _ hrun)
        (fun x hx => (reachable_inv q hr).perm.subset hx)
    rw [hrun] at heq
    simp only [Except.ok.injEq, Prod.mk.injEq] at heq
    obtain ⟨rfl, rfl⟩ := heq
    rw [hs, hp]
    exact ⟨ih.1, Nat.mod_lt _ (by simp [u64])⟩
  | setStartNonce q nonce _ hn ih => exact ⟨hn, ih.2⟩
  | setPendingNonce q nonce _ hn ih => exact ⟨ih.1, hn⟩
  | setPendingBalance q balance _ ih => exact ih
  | allActs q _ ih =>
    unfold AllActs
    split
    · exact ih
    · exact ih

/-- The list that `AllActs` returns, for a queue whose index holds the keys of the map. -/
theorem AllActs_spec (q : actQueue) (hq : Inv q) :
    (AllActs q).1.items = q.items ∧
    (AllActs q).2 = (heldNonces q).map (fun x => q.items.lookup x) ∧
    (AllActs q).1.index.Sorted (· ≤ ·) ∧
    (AllActs q).1.startNonce = q.startNonce ∧ (AllActs q).1.pendingNonce = q.pendingNonce ∧
    (AllActs q).1.pendingBalance = q.pendingBalance := by
  unfold AllActs
  split
  · rename_i h0
    have hk : q.items.keys = [] := List.length_eq_zero.mp (by simpa [Len] using h0)
    have hi : q.index = [] := by
      have := hq.perm
      rw [hk] at this
      exact List.Perm.eq_nil this
    refine ⟨rfl, ?_, ?_, rfl, rfl, rfl⟩
    · simp [heldNonces, hk, sortIndex]
    · simp [hi]
  · refine ⟨rfl, ?_, sortIndex_sorted _, rfl, rfl, rfl⟩
    simp only
    rw [heldNonces_eq q hq.perm]

theorem costSum_snoc (items : Items) (n j : Nat) :
    costSum items (walked n (j + 1)) =
      costSum items (walked n j) + costAt items ((n + j) % u64) := by
  rw [walked_snoc]
  simp [costSum, List.map_append, List.sum_append]

theorem costAt_of_lookup (items : Items) (m : Nat) (a : Action)
    (h : items.lookup m = some a) : costAt items m = a.cost := by
  simp [costAt, h]

/-- The balance left by a walk over payable actions is not negative when the balance it
starts from is not negative. -/
theorem walk_balance_nonneg (items : Items) (b : Int) (n : Nat) (hb : 0 ≤ b) :
    ∀ k, (∀ i, i < k → ∃ a, items.lookup ((n + i) % u64) = some a ∧
      a.cost ≤ b - costSum items (walked n i)) →
    0 ≤ b - costSum items (walked n k)
  | 0, _ => by simpa [walked, costSum] using hb
  | k + 1, h => by
    obtain ⟨a, ha, hc⟩ := h k (Nat.lt_succ_self k)
    rw [costSum_snoc, costAt_of_lookup items _ a ha]
    omega

/-- The costs of stored actions that are not negative add up to a sum that is not
negative. -/
theorem costSum_nonneg (items : Items) (hcost : ∀ k a, items.lookup k = some a → 0 ≤ a.cost)
    (l : List Nat) : 0 ≤ costSum items l := by
  unfold costSum
  apply List.sum_nonneg
  intro x hx
  rw [List.mem_map] at hx
  obtain ⟨m, _, rfl⟩ := hx
  unfold costAt
  cases hl : items.lookup m with
  | none => simp
  | some a => simpa using hcost m a hl

/-- A map of a consistent queue without the nonce `2^64 - 1` has fewer than `2^64`
entries. -/
theorem len_lt_of_no_max (q : actQueue) (hq : Inv q)
    (hmax : q.items.lookup (u64 - 1) = none) : Len q < u64 := by
  have hsub : q.items.keys ⊆ List.range (u64 - 1) := by
    intro x hx
    rw [List.mem_range]
    have hb := hq.bound x hx
    have hne : x ≠ u64 - 1 := by
      intro he
      obtain ⟨a, ha⟩ := (mem_keys_iff_lookup _ _).mp hx
      rw [he, hmax] at ha
      cases ha
    omega
  have := (List.subperm_of_subset (AList.keys_nodup q.items) hsub).length_le
  rw [List.length_range] at this
  unfold Len
  have hpos : 0 < u64 := by decide
  omega

/-- What `UpdateQueue` leaves at and below the new pending nonce when the walk starts at
`n` and the map has no action at the nonce `2^64 - 1`: the walk does not wrap, the walked
nonces are kept and the pending nonce is not in the map. -/
theorem UpdateQueue_run (q : actQueue) (n : Nat) (hq : Inv q) (hn : n < u64)
    (hmax : q.items.lookup (u64 - 1) = none) :
    ∃ k q1 removed, UpdateQueue q n = .ok (q1, removed) ∧ n + k < u64 ∧
      q1.startNonce = q.startNonce ∧ q1.pendingNonce = n + k ∧
      q1.pendingBalance = q.pendingBalance - costSum q.items (walked n k) ∧
      (∀ i, i < k →
        ∃ a, q.items.lookup (n + i) = some a ∧ q1.items.lookup (n + i) = some a) ∧
      q1.items.lookup (n + k) = none ∧
      (∀ x, q1.items.lookup x = none ∨ q1.items.lookup x = q.items.lookup x) := by
  have hlen := len_lt_of_no_max q hq hmax
  obtain ⟨k, keep, drop, q1, removed, _, hpay, _, heq, hsplit, _, hs, hp, hpb, hlook, _, _,
    hsome, hnone⟩ :=
    UpdateQueue_cut q n hn (walkLoop_total q n hn hlen) (fun x hx => hq.perm.subset hx)
  have hnowrap : n + k < u64 := by
    by_contra hc
    obtain ⟨a, ha, _⟩ := hpay (u64 - 1 - n) (by omega)
    rw [show n + (u64 - 1 - n) = u64 - 1 by omega,
      Nat.mod_eq_of_lt (by decide : u64 - 1 < u64), hmax] at ha
    cases ha
  have hm : (n + k) % u64 = n + k := Nat.mod_eq_of_lt hnowrap
  rw [hm] at hp hsome hnone
  have hdrop : ∀ x ∈ drop, n + k ≤ x := by
    intro x hx
    cases hl : q.items.lookup (n + k) with
    | some a =>
      have := (hsome (by rw [hl]; rfl)).2
      rw [this] at hx
      simpa using (List.mem_filter.mp hx).2
    | none =>
      have := (hnone hl).2
      rw [this] at hx
      have := (List.dropWhile_sublist _).subset hx
      simpa using (List.mem_filter.mp this).2
  refine ⟨k, q1, removed, heq, hnowrap, hs, hp, hpb, ?_, ?_, ?_⟩
  · intro i hi
    obtain ⟨a, ha, _⟩ := hpay i hi
    rw [Nat.mod_eq_of_lt (by omega)] at ha
    refine ⟨a, ha, ?_⟩
    rw [hlook, if_neg, ha]
    intro hd
    have := hdrop _ hd
    omega
  · rw [hlook]
    cases hl : q.items.lookup (n + k) with
    | some a =>
      have hd := (hsome (by rw [hl]; rfl)).2
      have hmem : n + k ∈ drop := by
        rw [hd, List.mem_filter]
        refine ⟨?_, by simp⟩
        exact (sortIndex_perm _).symm.subset
          (hq.perm.symm.subset ((mem_keys_iff_lookup _ _).mpr ⟨a, hl⟩))
      rw [if_pos hmem]
    | none => split <;> rfl
  · intro x
    rw [hlook]
    split
    · exact Or.inl rfl
    · exact Or.inr rfl

end ActPool

namespace ActPool

/-! ## More claims about the action queue -/

/-- C21: for every queue built by the methods of the queue, `AllActs` returns every action
the map holds, each of them once, in strictly ascending order of the nonces, so the length
of the result is `Len()`; no position of the result is nil, and the map is left as it
was. -/
theorem C21_allActs (q : actQueue) (hr : Reachable q) :
    ∃ acts : List Action, (AllActs q).2 = acts.map some ∧
      (acts.map Action.nonce).Sorted (· < ·) ∧
      acts.Nodup ∧
      (∀ a, a ∈ acts ↔ q.items.lookup a.nonce = some a) ∧
      acts.length = Len q ∧
      (AllActs q).1.items = q.items := by
  have hq := reachable_inv q hr
  obtain ⟨hitems, hres, _⟩ := AllActs_spec q hq
  obtain ⟨acts, h1, h2, h3⟩ := actions_of_nonces q hq.keyNonce (heldNonces q)
    (fun x hx => (heldNonces_mem q x).mp hx)
  have hs : (acts.map Action.nonce).Sorted (· < ·) := by rw [h2]; exact heldNonces_strict q
  refine ⟨acts, by rw [hres, h1], hs, ?_, ?_, ?_, hitems⟩
  · exact List.Nodup.of_map _ hs.nodup
  · intro a
    rw [h3]
    constructor
    · exact fun h => h.1
    · intro h
      exact ⟨h, (heldNonces_mem q _).mpr ((mem_keys_iff_lookup _ _).mpr ⟨a, h⟩)⟩
  · have := congrArg List.length h2
    rw [List.length_map] at this
    rw [this]
    exact (sortIndex_perm _).length_eq

theorem C21_allActs_witness :
    Reachable scenarioFilter ∧
    ∃ acts : List Action, (AllActs scenarioFilter).2 = acts.map some ∧
      (acts.map Action.nonce).Sorted (· < ·) ∧
      acts.Nodup ∧
      (∀ a, a ∈ acts ↔ scenarioFilter.items.lookup a.nonce = some a) ∧
      acts.length = Len scenarioFilter ∧
      (AllActs scenarioFilter).1.items = scenarioFilter.items :=
  ⟨scenarioFilter_reachable, C21_allActs scenarioFilter scenarioFilter_reachable⟩

/-- The methods of the queue on stored actions that have a cost: on every queue built from
`NewActQueue` whose map has fewer than `2^64` entries, `FilterNonce`, `UpdateQueue`,
`PendingActs` and `AllActs` return, every position of the lists they return is a stored
action, and `Put` returns its error exactly when the nonce of the action is in the map. -/
theorem operations_total (q : actQueue) (hr : Reachable q) (hlen : Len q < u64) :
    (∀ t, ∃ (q1 : actQueue) (acts : List Action), FilterNonce q t = .ok (q1, acts.map some)) ∧
    (∀ n, n < u64 →
      ∃ (q1 : actQueue) (acts : List Action), UpdateQueue q n = .ok (q1, acts.map some)) ∧
    (∃ acts, PendingActs q = .ok acts) ∧
    (∃ acts : List Action, (AllActs q).2 = acts.map some) ∧
    (∀ act, (Put q act).2 = some .ErrNonce ↔ (q.items.lookup act.nonce).isSome) := by
  have hq := reachable_inv q hr
  have hsub : ∀ x ∈ sortIndex q.index, x ∈ q.items.keys :=
    fun x hx => hq.perm.subset ((sortIndex_perm _).subset hx)
  refine ⟨?_, ?_, ?_, ?_, ?_⟩
  · intro t
    obtain ⟨q1, heq, _⟩ := FilterNonce_spec q t hq
    obtain ⟨acts, h1, _⟩ := actions_of_nonces q hq.keyNonce
      ((sortIndex q.index).filter (fun x => decide (x < t)))
      (fun x hx => hsub x (List.mem_of_mem_filter hx))
    exact ⟨q1, acts, by rw [heq, h1]⟩
  · intro n hn
    obtain ⟨k, keep, drop, q1, removed, _, _, _, heq, hsplit, _, _, _, _, _, _, hrem, _⟩ :=
      UpdateQueue_cut q n hn (walkLoop_total q n hn hlen) (fun x hx => hq.perm.subset hx)
    have hnd : q.index.Nodup := (List.Perm.nodup_iff hq.perm).mpr (AList.keys_nodup _)
    obtain ⟨acts, h1, _⟩ := actions_of_nonces q hq.keyNonce drop
      (fun x hx => hsub x (by rw [← hsplit]; exact List.mem_append_right _ hx))
    exact ⟨q1, acts, by rw [heq, hrem hnd, h1]⟩
  · exact PendingActs_total q (reachable_nonces q hr).1 hlen
  · obtain ⟨_, hres, _⟩ := AllActs_spec q hq
    obtain ⟨acts, h1, _⟩ := actions_of_nonces q hq.keyNonce (heldNonces q)
      (fun x hx => (heldNonces_mem q x).mp hx)
    exact ⟨acts, by rw [hres, h1]⟩
  · intro act
    by_cases hd : (q.items.lookup act.nonce).isSome
    · rw [Put_dup q act hd]; simp [hd]
    · rw [Put_fresh q act (by simpa using hd)]; simp [hd]

/-- C25: the index of every queue built from `NewActQueue` by the methods of the queue is a
min-heap: no element is smaller than its parent, so `index[0]` is the smallest nonce of
the map. The property holds again after `Put`, after `FilterNonce`, after `UpdateQueue`
and after `AllActs`, which leaves the index in ascending order. -/
theorem C25_heap (q : actQueue) (hr : Reachable q) :
    IsHeap q.index ∧
    (∀ x ∈ q.items.keys, q.index.getD 0 0 ≤ x) ∧
    (q.index ≠ [] → q.index.getD 0 0 ∈ q.items.keys) ∧
    (∀ act : Action, act.nonce < u64 → IsHeap (Put q act).1.index) ∧
    (∀ t q1 removed, t < u64 → FilterNonce q t = .ok (q1, removed) → IsHeap q1.index) ∧
    (∀ n q1 removed, n < u64 → UpdateQueue q n = .ok (q1, removed) → IsHeap q1.index) ∧
    IsHeap (AllActs q).1.index ∧ (AllActs q).1.index.Sorted (· ≤ ·) := by
  have hq := reachable_inv q hr
  refine ⟨hq.heap, ?_, ?_, ?_, ?_, ?_, ?_, ?_⟩
  · intro x hx
    exact heap_root_le_mem q.index hq.heap x (hq.perm.symm.subset hx)
  · intro hne
    apply hq.perm.subset
    cases hi : q.index with
    | nil => exact absurd hi hne
    | cons a t => simp
  · intro act ha
    exact (reachable_inv _ (Reachable.put q act hr ha)).heap
  · intro t q1 removed ht h
    exact (reachable_inv _ (Reachable.filterNonce q q1 t removed hr ht h)).heap
  · intro n q1 removed hn h
    exact (reachable_inv _ (Reachable.updateQueue q q1 n removed hr hn h)).heap
  · exact (reachable_inv _ (Reachable.allActs q hr)).heap
  · exact (AllActs_spec q hq).2.2.1

theorem C25_heap_witness :
    Reachable scenarioFilter ∧ IsHeap scenarioFilter.index ∧
    (∀ x ∈ scenarioFilter.items.keys, scenarioFilter.index.getD 0 0 ≤ x) :=
  ⟨scenarioFilter_reachable, (C25_heap scenarioFilter scenarioFilter_reachable).1,
    (C25_heap scenarioFilter scenarioFilter_reachable).2.1⟩

/-- C28: for every queue built by the methods of the queue that holds no action with the
nonce `2^64 - 1`, `UpdateQueue(StartNonce())` returns, and `PendingActs` right after it
returns the actions at the nonces `start_nonce, ..., pending_nonce - 1` in that order: the
length of the list is `pending_nonce - start_nonce`, and the sum of the costs of its actions
is the pending balance before the call of `UpdateQueue` minus the pending balance after
it. -/
theorem C28_pending_after_update (q : actQueue) (hr : Reachable q)
    (hmax : q.items.lookup (u64 - 1) = none) :
    ∃ (q1 : actQueue) (removed : List (Option Action)) (acts : List Action),
      UpdateQueue q (StartNonce q) = .ok (q1, removed) ∧ PendingActs q1 = .ok acts ∧
      q1.startNonce = q.startNonce ∧ q1.startNonce ≤ q1.pendingNonce ∧
      acts.length = q1.pendingNonce - q1.startNonce ∧
      (∀ i, i < q1.pendingNonce - q1.startNonce →
        q1.items.lookup (q1.startNonce + i) = acts[i]?) ∧
      acts.map Action.nonce = List.range' q1.startNonce (q1.pendingNonce - q1.startNonce) ∧
      (acts.map Action.cost).sum = q.pendingBalance - q1.pendingBalance := by
  have hq := reachable_inv q hr
  have hs := (reachable_nonces q hr).1
  obtain ⟨k, q1, removed, heq, hnw, hst, hp, hpb, hkept, hstop, hsub⟩ :=
    UpdateQueue_run q q.startNonce hq hs hmax
  have hq1 : Inv q1 := inv_updateQueue q q1 q.startNonce removed hq hs heq
  have hmax1 : q1.items.lookup (u64 - 1) = none := by
    rcases hsub (u64 - 1) with h | h
    · exact h
    · rw [h]; exact hmax
  obtain ⟨k1, acts, hrun, hlen, _, hget, hstop1⟩ :=
    PendingActs_spec q1 (by rw [hst]; exact hs) hmax1
  rw [hst] at hget hstop1
  have hk : k1 = k := by
    rcases Nat.lt_trichotomy k1 k with h | h | h
    · obtain ⟨a, _, ha⟩ := hkept k1 h
      rw [hstop1] at ha
      cases ha
    · exact h
    · have := hget k h
      rw [hstop, List.getElem?_eq_getElem (by omega)] at this
      cases this
  subst hk
  have hdiff : q1.pendingNonce - q1.startNonce = k1 := by rw [hp, hst]; omega
  refine ⟨q1, removed, acts, heq, hrun, hst, by rw [hp, hst]; omega, by rw [hdiff]; exact hlen,
    ?_, ?_, ?_⟩
  · rw [hdiff, hst]; exact hget
  · rw [hdiff, hst]
    apply List.ext_getElem
    · simp [hlen]
    · intro i h1 h2
      have hi : i < k1 := by simpa [hlen] using h1
      have h := hget i hi
      rw [List.getElem?_eq_getElem (by omega)] at h
      have := hq1.keyNonce _ _ h
      simp [this]
  · rw [hpb, walked_eq_range' _ _ (by omega)]
    have hcosts : acts.map Action.cost = (List.range' q.startNonce k1).map (costAt q.items) := by
      apply List.ext_getElem
      · simp [hlen]
      · intro i h1 h2
        have hi : i < k1 := by simpa [hlen] using h1
        obtain ⟨a, ha, ha1⟩ := hkept i hi
        have h := hget i hi
        rw [ha1, List.getElem?_eq_getElem (by omega)] at h
        simp only [Option.some.injEq] at h
        have hir : i < (List.range' q.startNonce k1).length := by simpa using hi
        have hidx : (List.range' q.startNonce k1)[i] = q.startNonce + i := by
          simp [List.getElem_range'_1]
        rw [List.getElem_map, List.getElem_map, hidx, ← h]
        simp [costAt, ha]
    rw [hcosts]
    simp [costSum]

theorem C28_pending_after_update_witness :
    Reachable scenarioBalance ∧ scenarioBalance.items.lookup (u64 - 1) = none ∧
    ∃ (q1 : actQueue) (removed : List (Option Action)) (acts : List Action),
      UpdateQueue scenarioBalance (StartNonce scenarioBalance) = .ok (q1, removed) ∧
      PendingActs q1 = .ok acts ∧
      q1.startNonce = scenarioBalance.startNonce ∧ q1.startNonce ≤ q1.pendingNonce ∧
      acts.length = q1.pendingNonce - q1.startNonce ∧
      (∀ i, i < q1.pendingNonce - q1.startNonce →
        q1.items.lookup (q1.startNonce + i) = acts[i]?) ∧
      acts.map Action.nonce = List.range' q1.startNonce (q1.pendingNonce - q1.startNonce) ∧
      (acts.map Action.cost).sum = scenarioBalance.pendingBalance - q1.pendingBalance :=
  ⟨scenarioBalance_reachable, by decide,
    C28_pending_after_update scenarioBalance scenarioBalance_reachable (by decide)⟩

/-- C29: for every queue built by the methods of the queue (its map has fewer than `2^64`
entries) and every 64-bit nonce `n`, `UpdateQueue(n)` returns, and `UpdateQueue(PendingNonce())`
right after it returns the empty list and leaves the map, the start nonce, the pending nonce
and the pending balance as they were: nothing is deducted a second time. -/
theorem C29_update_idempotent (q : actQueue) (n : Nat) (hr : Reachable q) (hn : n < u64)
    (hlen : Len q < u64) :
    ∃ (q1 q2 : actQueue) (removed : List (Option Action)),
      UpdateQueue q n = .ok (q1, removed) ∧
      UpdateQueue q1 (PendingNonce q1) = .ok (q2, []) ∧
      (∀ x, q2.items.lookup x = q1.items.lookup x) ∧ q2.items.keys = q1.items.keys ∧
      q2.startNonce = q1.startNonce ∧ q2.pendingNonce = q1.pendingNonce ∧
      q2.pendingBalance = q1.pendingBalance := by
  have hq := reachable_inv q hr
  obtain ⟨k, keep, drop, q1, removed, _, _, _, heq, hsplit, hidx, _, hp, hpb, hlook, hkeys, _,
    hsome, hnone⟩ :=
    UpdateQueue_cut q n hn (walkLoop_total q n hn hlen) (fun x hx => hq.perm.subset hx)
  have hq1 : Inv q1 := inv_updateQueue q q1 n removed hq hn heq
  have hm : q1.pendingNonce < u64 := by rw [hp]; exact Nat.mod_lt _ (by decide)
  have hnd : (keep ++ drop).Nodup := by
    rw [hsplit]
    exact (List.Perm.nodup_iff ((sortIndex_perm _).trans hq.perm)).mpr (AList.keys_nodup _)
  have hdisj : ∀ x ∈ keep, x ∉ drop := fun x hx hd => (List.nodup_append.mp hnd).2.2 hx hd
  have hlen1 : Len q1 < u64 := by
    unfold Len at hlen ⊢
    rw [hkeys]
    exact lt_of_le_of_lt (List.length_filter_le _ _) hlen
  -- the pending nonce is not in the map after the first call
  have habs : q1.items.lookup q1.pendingNonce = none := by
    rw [hlook, hp]
    cases hl : q.items.lookup ((n + k) % u64) with
    | some a =>
      have hd := (hsome (by rw [hl]; rfl)).2
      have hmem : (n + k) % u64 ∈ drop := by
        rw [hd, List.mem_filter]
        refine ⟨?_, by simp⟩
        exact (sortIndex_perm _).symm.subset
          (hq.perm.symm.subset ((mem_keys_iff_lookup _ _).mpr ⟨a, hl⟩))
      rw [if_pos hmem]
    | none => split <;> rfl
  -- every kept nonce at or above the pending nonce is payable
  have hpayable : ∀ x ∈ keep, q1.pendingNonce ≤ x →
      costAt q1.items x ≤ q1.pendingBalance := by
    intro x hx hge
    have hsame : costAt q1.items x = costAt q.items x := by
      unfold costAt
      rw [hlook, if_neg (hdisj x hx)]
    rw [hsame, hpb]
    rw [hp] at hge
    cases hl : q.items.lookup ((n + k) % u64) with
    | some a =>
      have hk := (hsome (by rw [hl]; rfl)).1
      rw [hk] at hx
      have := (List.mem_filter.mp hx).2
      simp only [decide_eq_true_eq] at this
      omega
    | none =>
      have hk := (hnone hl).1
      rw [hk] at hx
      rcases List.mem_append.mp hx with h1 | h1
      · have := (List.mem_filter.mp h1).2
        simp only [decide_eq_true_eq] at this
        omega
      · simpa using List.mem_takeWhile_imp h1
  obtain ⟨k2, keep2, drop2, q2, removed2, _, hpay2, _, heq2, hsplit2, _, hs2, hp2, hpb2, hlook2,
    hkeys2, hrem2, _, hnone2⟩ :=
    UpdateQueue_cut q1 q1.pendingNonce hm (walkLoop_total q1 _ hm hlen1)
      (fun x hx => hq1.perm.subset hx)
  have hk2 : k2 = 0 := by
    by_contra hne
    obtain ⟨a, ha, _⟩ := hpay2 0 (by omega)
    rw [Nat.add_zero, Nat.mod_eq_of_lt hm, habs] at ha
    cases ha
  subst hk2
  rw [Nat.add_zero, Nat.mod_eq_of_lt hm] at hp2 hnone2
  have hw0 : walked q1.pendingNonce 0 = [] := walked_zero _
  rw [hw0] at hpb2 hnone2
  have hc0 : costSum q1.items [] = 0 := by simp [costSum]
  rw [hc0, sub_zero] at hpb2 hnone2
  have hsorted : sortIndex q1.index = q1.index := by
    rw [hidx]
    have hks : keep.Sorted (· ≤ ·) := by
      have := sortIndex_sorted q.index
      rw [← hsplit] at this
      exact (List.pairwise_append.mp this).1
    exact List.Sorted.insertionSort_eq hks
  have hdrop2 : drop2 = [] := by
    rw [(hnone2 habs).2, List.dropWhile_eq_nil_iff]
    intro x hx
    have hx1 := List.mem_filter.mp hx
    rw [hsorted, hidx] at hx1
    simpa using hpayable x hx1.1 (by simpa using hx1.2)
  have hnd1 : q1.index.Nodup := (List.Perm.nodup_iff hq1.perm).mpr (AList.keys_nodup _)
  have hr2 : removed2 = [] := by rw [hrem2 hnd1, hdrop2]; rfl
  rw [hr2] at heq2
  refine ⟨q1, q2, removed, heq, heq2, ?_, ?_, hs2, hp2, hpb2⟩
  · intro x
    rw [hlook2, hdrop2]
    simp
  · rw [hkeys2, hdrop2]
    simp

theorem C29_update_idempotent_witness :
    Reachable scenarioBalance ∧ 1 < u64 ∧ Len scenarioBalance < u64 ∧
    ∃ (q1 q2 : actQueue) (removed : List (Option Action)),
      UpdateQueue scenarioBalance 1 = .ok (q1, removed) ∧
      UpdateQueue q1 (PendingNonce q1) = .ok (q2, []) ∧
      (∀ x, q2.items.lookup x = q1.items.lookup x) ∧ q2.items.keys = q1.items.keys ∧
      q2.startNonce = q1.startNonce ∧ q2.pendingNonce = q1.pendingNonce ∧
      q2.pendingBalance = q1.pendingBalance :=
  ⟨scenarioBalance_reachable, by decide, by decide,
    C29_update_idempotent scenarioBalance 1 scenarioBalance_reachable (by decide) (by decide)⟩

/-- C30: for every queue (a map with fewer than `2^64` entries, an index that holds stored
nonces only) whose pending balance is not negative and whose actions have costs that are not
negative, and every 64-bit argument `n`, `UpdateQueue n` returns and the pending balance
after the call is at least 0 and at most the pending balance before the call. -/
theorem C30_balance_bounds (q : actQueue) (n : Nat) (hn : n < u64) (hlen : Len q < u64)
    (hidx : ∀ x ∈ q.index, x ∈ q.items.keys) (hb : 0 ≤ q.pendingBalance)
    (hcost : ∀ k a, q.items.lookup k = some a → 0 ≤ a.cost) :
    ∃ q1 removed, UpdateQueue q n = .ok (q1, removed) ∧
      0 ≤ q1.pendingBalance ∧ q1.pendingBalance ≤ q.pendingBalance := by
  obtain ⟨k, _, _, q1, removed, _, hpay, _, heq, _, _, _, _, hpb, _⟩ :=
    UpdateQueue_cut q n hn (walkLoop_total q n hn hlen) hidx
  refine ⟨q1, removed, heq, ?_, ?_⟩
  · rw [hpb]
    exact walk_balance_nonneg q.items q.pendingBalance n hb k hpay
  · rw [hpb]
    have := costSum_nonneg q.items hcost (walked n k)
    omega

theorem C30_balance_bounds_witness :
    1 < u64 ∧ Len scenarioBalance < u64 ∧
    (∀ x ∈ scenarioBalance.index, x ∈ scenarioBalance.items.keys) ∧
    0 ≤ scenarioBalance.pendingBalance ∧
    (∀ k a, scenarioBalance.items.lookup k = some a → 0 ≤ a.cost) ∧
    ∃ q1 removed, UpdateQueue scenarioBalance 1 = .ok (q1, removed) ∧
      0 ≤ q1.pendingBalance ∧ q1.pendingBalance ≤ scenarioBalance.pendingBalance :=
  have hcost : ∀ k a, scenarioBalance.items.lookup k = some a → 0 ≤ a.cost := by
    intro k a h
    have hk : k ∈ scenarioBalance.items.keys := (mem_keys_iff_lookup _ _).mpr ⟨a, h⟩
    have hk3 : k = 3 ∨ k = 2 ∨ k = 1 := by
      have : scenarioBalance.items.keys = [3, 2, 1] := by decide
      rw [this] at hk
      simpa using hk
    rcases hk3 with rfl | rfl | rfl
    · have : scenarioBalance.items.lookup 3 = some ⟨3, 3, 0⟩ := by decide
      rw [this] at h; cases h; decide
    · have : scenarioBalance.items.lookup 2 = some ⟨2, 5, 0⟩ := by decide
      rw [this] at h; cases h; decide
    · have : scenarioBalance.items.lookup 1 = some ⟨1, 4, 0⟩ := by decide
      rw [this] at h; cases h; decide
  ⟨by decide, by decide, by decide, by decide, hcost,
    C30_balance_bounds scenarioBalance 1 (by decide) (by decide) (by decide) (by decide) hcost⟩

end ActPool

namespace Blockchain

/-! ## Lemmas about `StopSubChain` and about the order of the checks -/

/-- The bytes of zero: none. -/
theorem bigBytes_zero : bigBytes 0 = [] := by simp [bigBytes]

theorem bigBytes_spec (p : Int) (hp : p ≠ 0) :
    bigBytes p ≠ [] ∧ (bigBytes p).head? ≠ some 0 ∧ (∀ b ∈ bigBytes p, b < 256) ∧
      Nat.ofDigits 256 (bigBytes p).reverse = p.natAbs := by
  have hn : p.natAbs ≠ 0 := by simpa using hp
  have hne : Nat.digits 256 p.natAbs ≠ [] := by
    rw [Ne, Nat.digits_eq_nil_iff_eq_zero]; exact hn
  unfold bigBytes
  refine ⟨?_, ?_, ?_, ?_⟩
  · simpa using hne
  · have hlast := Nat.getLast_digit_ne_zero 256 hn
    rw [List.head?_reverse, List.getLast?_eq_getLast _ hne]
    intro h
    exact hlast (Option.some.inj h)
  · intro b hb
    exact Nat.digits_lt_base (by norm_num) (List.mem_reverse.mp hb)
  · rw [List.reverse_reverse, Nat.ofDigits_digits]

theorem bigSetBytes_bigBytes (p : Int) (hp : 0 ≤ p) : bigSetBytes (bigBytes p) = p := by
  unfold bigSetBytes bigBytes
  rw [List.reverse_reverse, Nat.ofDigits_digits]
  exact Int.natAbs_of_nonneg hp

theorem bigBytes_length_zero (p : Int) : (bigBytes p).length = 0 ↔ p = 0 := by
  unfold bigBytes
  rw [List.length_reverse, List.length_eq_zero, Nat.digits_eq_nil_iff_eq_zero, Int.natAbs_eq_zero]

theorem copyBytes_full (dst src : Bytes) (h : src.length = dst.length) :
    copyBytes dst src = src := by
  unfold copyBytes
  rw [← h, List.take_length, List.drop_of_length_le (by omega), List.append_nil]

/-- When the two counters add up to the number of actions, every coinbase transfer has the
address of the producer as its recipient. -/
theorem coinbases_of_counts (env : Env) (blk : Block)
    (h : verifiedSignatures env blk + validCoinbases env blk =
      blk.Transfers.length + blk.Votes.length + blk.Executions.length) :
    ∀ t ∈ blk.Transfers, t.IsCoinbase = true → isValidCoinbase env blk t = true := by
  unfold verifiedSignatures validCoinbases at h
  have ht := countP_disjoint
    (fun t : Transfer => !t.IsCoinbase && signatureOK env t.SrcPubkey t.Hash t.Signature)
    (isValidCoinbase env blk)
    (fun x h1 h2 => by
      simp only [isValidCoinbase, Bool.and_eq_true] at h2
      simp only [Bool.and_eq_true, Bool.not_eq_true', h2.1] at h1
      exact absurd h1.1 (by simp)) blk.Transfers
  have hv := List.countP_le_length
    (fun v : Vote => signatureOK env v.SrcPubkey v.Hash v.Signature) (l := blk.Votes)
  have he := List.countP_le_length
    (fun e : Execution => signatureOK env e.SrcPubkey e.Hash e.Signature) (l := blk.Executions)
  intro t hmem hcb
  rcases ht.2 (by omega) t hmem with h1 | h1
  · simp only [Bool.and_eq_true, Bool.not_eq_true', hcb] at h1
    exact absurd h1.1 (by simp)
  · exact h1

theorem executionStep_nonce_error (env : Env) (sf : Factory) (blk : Block) (b : Book)
    (x : Execution) (e : Stop) (hh : 0 < blk.Header.height)
    (hs : env.GetPubkeyHash x.Executor = none)
    (hr : x.Contract ≠ env.EmptyAddress → env.GetPubkeyHash x.Contract = none)
    (hn : recordNonce sf b x.Executor x.Nonce "failed to get the nonce of the executor" =
      .error e) :
    executionStep env sf blk b x = .error e := by
  by_cases hv : x.Contract = env.EmptyAddress
  · simp [executionStep, checkAddress, hs, hv, hh, hn]
  · simp [executionStep, checkAddress, hs, hv, hr hv, hh, hn]

theorem recordNonce_error (sf : Factory) (b : Book) (address msg e : String) (nonce : Nat)
    (hl : b.confirmedNonceMap.lookup address = none) (he : sf address = .error e) :
    recordNonce sf b address nonce msg = .error (.error ⟨.factory e, [msg]⟩) := by
  simp [recordNonce, hl, he]

/-- The message of the fields of a message is the message. -/
theorem pbOfFields_pbFields (m : ActionPb) : pbOfFields (pbFields m) = m := by
  obtain ⟨s, v, n, g, p, sig⟩ := m
  cases s with
  | none => rfl
  | some s => rfl

/-- The unmarshalling of the scenarios gives back the message that the marshalling of the
scenarios was given. -/
theorem scenario_codec (m : ActionPb) (buf : Bytes)
    (h : scenarioCodecEnv.Marshal m = (buf, none)) : scenarioCodecEnv.Unmarshal buf = .ok m := by
  simp only [scenarioCodecEnv, scenarioMarshal, Prod.mk.injEq, and_true] at h
  subst h
  simp only [scenarioCodecEnv, scenarioUnmarshal, Encodable.encodek, pbOfFields_pbFields]

/-- The conversion to a message and back on the zero value gives the action back. -/
theorem round_trip_convert (a : StopSubChain) (p : Int) (keyLength : Nat)
    (hp : a.gasPrice = some p) (h0 : 0 ≤ p) (hk : a.srcPubkey.length = keyLength) :
    ConvertFromActionPb (emptyStopSubChain keyLength) (ConvertToActionPb a) = a := by
  obtain ⟨⟨version, nonce, srcAddr, srcPubkey, dstAddr, gasLimit, gasPrice, signature⟩,
    chainID, stopHeight⟩ := a
  simp only at hp hk
  subst hp
  have hcopy : copyBytes (List.replicate keyLength 0) srcPubkey = srcPubkey :=
    copyBytes_full _ _ (by simp [hk])
  by_cases hz : (bigBytes p).length > 0
  · simp [ConvertFromActionPb, ConvertToActionPb, emptyStopSubChain, hz, hcopy,
      bigSetBytes_bigBytes p h0]
  · have hp0 : p = 0 := (bigBytes_length_zero p).mp (by omega)
    subst hp0
    simp [ConvertFromActionPb, ConvertToActionPb, emptyStopSubChain, bigBytes_zero, hcopy]

end Blockchain

namespace Blockchain

/-! ## The claims about `StopSubChain`, the order of the checks and the coinbase -/

/-- C23: for every `StopSubChain`, `ByteStream` is the concatenation, in this order, of
`Uint32ToBytes(version)`, `Uint64ToBytes(nonce)`, `Uint64ToBytes(gasLimit)`, the bytes of the
source public key, of the source address and of the destination address, the bytes of the
gas price, `Uint32ToBytes(chainID)` and `Uint64ToBytes(stopHeight)`. The bytes of the gas
price are none when the price is nil or zero, and otherwise the big-endian magnitude without
a leading zero byte. The signature has no part in it. When `Uint32ToBytes` gives 4 bytes and
`Uint64ToBytes` gives 8 bytes, the fixed fields take 32 bytes. The stream of the action of
the scenarios is computed. -/
theorem C23_byteStream (env : ActionEnv) (ssc : StopSubChain) :
    ByteStream env ssc =
      env.Uint32ToBytes ssc.version ++ env.Uint64ToBytes ssc.nonce ++
        env.Uint64ToBytes ssc.gasLimit ++ ssc.srcPubkey ++ ssc.srcAddr ++ ssc.dstAddr ++
        (match ssc.gasPrice with
         | some p => bigBytes p
         | none => []) ++
        env.Uint32ToBytes ssc.chainID ++ env.Uint64ToBytes ssc.stopHeight ∧
    bigBytes 0 = [] ∧
    (∀ p : Int, p ≠ 0 →
      bigBytes p ≠ [] ∧ (bigBytes p).head? ≠ some 0 ∧ (∀ b ∈ bigBytes p, b < 256) ∧
        Nat.ofDigits 256 (bigBytes p).reverse = p.natAbs) ∧
    (∀ signature : Bytes, ByteStream env { ssc with signature := signature } =
      ByteStream env ssc) ∧
    ((∀ n, (env.Uint32ToBytes n).length = 4) → (∀ n, (env.Uint64ToBytes n).length = 8) →
      (ByteStream env ssc).length =
        32 + ssc.srcPubkey.length + ssc.srcAddr.length + ssc.dstAddr.length +
          (match ssc.gasPrice with
           | some p => (bigBytes p).length
           | none => 0)) ∧
    ByteStream scenarioActionEnv scenarioStop =
      [0, 0, 0, 1, 0, 0, 0, 0, 0, 0, 0, 7, 0, 0, 0, 0, 0, 0, 3, 232, 4, 5, 6, 97, 98, 99, 1, 2,
        0, 0, 0, 2, 0, 0, 0, 0, 0, 0, 1, 44] := by
  have hstream : ByteStream env ssc =
      env.Uint32ToBytes ssc.version ++ env.Uint64ToBytes ssc.nonce ++
        env.Uint64ToBytes ssc.gasLimit ++ ssc.srcPubkey ++ ssc.srcAddr ++ ssc.dstAddr ++
        (match ssc.gasPrice with
         | some p => bigBytes p
         | none => []) ++
        env.Uint32ToBytes ssc.chainID ++ env.Uint64ToBytes ssc.stopHeight := by
    unfold ByteStream
    cases hg : ssc.gasPrice with
    | none => simp
    | some p =>
      by_cases h0 : (bigBytes p).length > 0
      · simp [h0]
      · have : bigBytes p = [] := List.length_eq_zero.mp (by omega)
        simp [this]
  refine ⟨hstream, bigBytes_zero, bigBytes_spec, fun _ => rfl, ?_, ?_⟩
  · intro h4 h8
    rw [hstream]
    simp only [List.length_append, h4, h8]
    cases ssc.gasPrice with
    | none => simp only [List.length_nil]; omega
    | some p => simp only; omega
  · have h258 : bigBytes 258 = [1, 2] := by
      unfold bigBytes
      norm_num
    simp only [ByteStream, scenarioStop, h258]
    decide

/-- C24: for every `StopSubChain` whose gas price is present and not negative,
`ConvertFromActionPb` on the zero value of `StopSubChain`, applied to the result of
`ConvertToActionPb`, gives the action back: all its fields (version, nonce, gas limit, gas
price, signature, source address, source public key, destination address, chain id, stop
height) are equal. When `proto.Unmarshal` inverts `proto.Marshal`, `Deserialize` on the zero
value, applied to the bytes that `Serialize` returns, gives the action back as well;
`Serialize` is `proto.Marshal` on the result of `ConvertToActionPb`. -/
theorem C24_round_trip (env : ActionEnv) (a : StopSubChain) (p : Int) (keyLength : Nat)
    (hp : a.gasPrice = some p) (h0 : 0 ≤ p) (hk : a.srcPubkey.length = keyLength)
    (hcodec : ∀ m buf, env.Marshal m = (buf, none) → env.Unmarshal buf = .ok m) :
    ConvertFromActionPb (emptyStopSubChain keyLength) (ConvertToActionPb a) = a ∧
    (∀ buf, Serialize env a = (buf, none) →
      Deserialize env (emptyStopSubChain keyLength) buf = (a, none)) ∧
    Serialize env a = env.Marshal (ConvertToActionPb a) := by
  have hconv := round_trip_convert a p keyLength hp h0 hk
  refine ⟨hconv, ?_, rfl⟩
  intro buf hs
  have hu := hcodec (ConvertToActionPb a) buf hs
  simp only [Deserialize, hu, hconv]

theorem C24_round_trip_witness :
    scenarioStop.gasPrice = some 258 ∧ (0 : Int) ≤ 258 ∧ scenarioStop.srcPubkey.length = 3 ∧
    (∀ m buf, scenarioCodecEnv.Marshal m = (buf, none) →
      scenarioCodecEnv.Unmarshal buf = .ok m) ∧
    ConvertFromActionPb (emptyStopSubChain 3) (ConvertToActionPb scenarioStop) = scenarioStop ∧
    ∃ buf, Serialize scenarioCodecEnv scenarioStop = (buf, none) ∧
      Deserialize scenarioCodecEnv (emptyStopSubChain 3) buf = (scenarioStop, none) :=
  ⟨rfl, by decide, rfl, scenario_codec,
    (C24_round_trip scenarioCodecEnv scenarioStop 258 3 rfl (by decide) rfl scenario_codec).1,
    _, rfl,
    (C24_round_trip scenarioCodecEnv scenarioStop 258 3 rfl (by decide) rfl
      scenario_codec).2.1 _ rfl⟩

/-- C26 (counterexample): a block of height 1 whose only action is an execution with valid
addresses and a gas limit above `action.GasLimit`, of an executor whose nonce the factory
does not know: `Validate` returns the error of the factory, not `ErrGasHigherThanLimit`. -/
theorem C26_counterexample :
    scenarioValidatorStrict.sf = some scenarioFactoryStrict ∧
    scenarioEnv.IsDummyBlock scenarioBlockExecutionOverGas = false ∧
    0 < scenarioBlockExecutionOverGas.Header.height ∧
    (∃ x ∈ scenarioBlockExecutionOverGas.Executions,
      scenarioEnv.GetPubkeyHash x.Executor = none ∧ scenarioEnv.GasLimit < x.GasLimit ∧
      scenarioFactoryStrict x.Executor = .error "no account") ∧
    Validate scenarioEnv scenarioValidatorStrict (some scenarioBlockExecutionOverGas) 0 []
        false =
      .error (.error ⟨.factory "no account", ["failed to get the nonce of the executor"]⟩) :=
  ⟨rfl, rfl, by decide,
    ⟨⟨"X", "", 2000000, (10, none), 0, 1, [], [], []⟩, by decide, rfl, by decide,
      by decide⟩,
    by decide⟩

/-- C26 (amended): the loop over the executions checks the addresses, then fetches the
confirmed nonce and records the nonce, then checks the gas and the amount. So for every
block of height above 0 that is not a dummy block, validated with a factory attached, whose
first offending action is an execution with valid addresses and a gas limit above
`action.GasLimit`: `Validate` returns `ErrGasHigherThanLimit` when the nonce of the executor
is recorded without error, and returns the error of the factory when the look-up of the
nonce of the executor fails. A transfer that is not a coinbase transfer and a vote are
checked for gas before the factory is asked: with valid addresses and such a gas limit their
step returns `ErrGasHigherThanLimit` whatever the factory is. -/
theorem C26_check_order (env : Env) (v : validator) (sf : Factory) (blk : Block)
    (tipHeight : Nat) (tipHash : Bytes) (cb : Bool) (pre post : List Execution)
    (x : Execution) (b1 b2 b : Book)
    (hsf : v.sf = some sf) (hdummy : env.IsDummyBlock blk = false)
    (hheight : 0 < blk.Header.height)
    (hlink : verifyHeightAndHash (some blk) tipHeight tipHash = .ok ())
    (hroot : verifySigAndRoot env blk = .ok ())
    (h1 : forEach (transferStep env sf blk) blk.Transfers Book.empty = .ok b1)
    (h2 : forEach (voteStep env sf blk) blk.Votes b1 = .ok b2)
    (hsplit : blk.Executions = pre ++ x :: post)
    (hpre : forEach (executionStep env sf blk) pre b2 = .ok b)
    (hexecutor : env.GetPubkeyHash x.Executor = none)
    (hcontract : x.Contract ≠ env.EmptyAddress → env.GetPubkeyHash x.Contract = none)
    (hgas : env.GasLimit < x.GasLimit) :
    (∀ c, recordNonce sf b x.Executor x.Nonce "failed to get the nonce of the executor" =
        .ok c →
      Validate env v (some blk) tipHeight tipHash cb =
        .error (.error ⟨.ErrGasHigherThanLimit, ["gas is higher than gas limit"]⟩)) ∧
    (∀ e, b.confirmedNonceMap.lookup x.Executor = none → sf x.Executor = .error e →
      Validate env v (some blk) tipHeight tipHash cb =
        .error (.error ⟨.factory e, ["failed to get the nonce of the executor"]⟩)) ∧
    (∀ (sf1 : Factory) (c : Book) (t : Transfer), t.IsCoinbase = false →
      env.GetPubkeyHash t.Sender = none → env.GetPubkeyHash t.Recipient = none →
      env.GasLimit < t.GasLimit →
      transferStep env sf1 blk c t =
        .error (.error ⟨.ErrGasHigherThanLimit, ["gas is higher than gas limit"]⟩)) ∧
    (∀ (sf1 : Factory) (c : Book) (y : Vote), env.GetPubkeyHash y.Voter = none →
      (y.Votee ≠ env.EmptyAddress → env.GetPubkeyHash y.Votee = none) →
      env.GasLimit < y.GasLimit →
      voteStep env sf1 blk c y =
        .error (.error ⟨.ErrGasHigherThanLimit, ["gas is higher than gas limit"]⟩)) := by
  have hval := Validate_eq_verifyActions env v sf blk tipHeight tipHash cb hsf hdummy hlink hroot
  refine ⟨?_, ?_, ?_, ?_⟩
  · intro c hn
    rw [hval]
    exact verifyActions_of_loops_error env sf _ blk cb _
      (actionLoops_error_execution env sf blk pre post x b1 b2 b _ h1 h2 hsplit hpre
        (executionStep_gas_error env sf blk b c x _ hheight hexecutor hcontract hn
          (checkGas_high env _ _ _ hgas)))
  · intro e hl he
    rw [hval]
    exact verifyActions_of_loops_error env sf _ blk cb _
      (actionLoops_error_execution env sf blk pre post x b1 b2 b _ h1 h2 hsplit hpre
        (executionStep_nonce_error env sf blk b x _ hheight hexecutor hcontract
          (recordNonce_error sf b _ _ e _ hl he)))
  · intro sf1 c t hcb hs hr hg
    exact transferStep_gas_error env sf1 blk c t _ hheight hcb hs hr
      (checkGas_high env _ _ _ hg)
  · intro sf1 c y hs hr hg
    exact voteStep_gas_error env sf1 blk c y _ hheight hs hr (checkGas_high env _ _ _ hg)

theorem C26_check_order_witness :
    scenarioValidatorStrict.sf = some scenarioFactoryStrict ∧
    scenarioEnv.IsDummyBlock scenarioBlockExecutionOverGas = false ∧
    0 < scenarioBlockExecutionOverGas.Header.height ∧
    verifyHeightAndHash (some scenarioBlockExecutionOverGas) 0 [] = .ok () ∧
    verifySigAndRoot scenarioEnv scenarioBlockExecutionOverGas = .ok () ∧
    Validate scenarioEnv scenarioValidatorStrict (some scenarioBlockExecutionOverGas) 0 []
        false =
      .error (.error ⟨.factory "no account", ["failed to get the nonce of the executor"]⟩) :=
  ⟨rfl, rfl, by decide, by decide, by decide,
    (C26_check_order scenarioEnv scenarioValidatorStrict scenarioFactoryStrict
      scenarioBlockExecutionOverGas 0 [] false [] []
      ⟨"X", "", 2000000, (10, none), 0, 1, [], [], []⟩ Book.empty Book.empty Book.empty
      rfl rfl (by decide) (by decide) (by decide) rfl rfl rfl rfl rfl (fun _ => rfl)
      (by decide)).2.1 "no account" rfl (by decide)⟩

/-- C27: for every block that is not a dummy block and that `Validate` accepts with a
factory attached: the recipient of every coinbase transfer of the block is the address made
of the chain id and the public key of the header; if `containCoinbase` is false the block
has no coinbase transfer, and if `containCoinbase` is true it has exactly one. -/
theorem C27_coinbase (env : Env) (v : validator) (sf : Factory) (blk : Block)
    (tipHeight : Nat) (tipHash : Bytes) (cb : Bool)
    (hsf : v.sf = some sf) (hdummy : env.IsDummyBlock blk = false)
    (hok : Validate env v (some blk) tipHeight tipHash cb = .ok ()) :
    (∀ t ∈ blk.Transfers, t.IsCoinbase = true →
      env.producerAddress blk.Header.chainID blk.Header.Pubkey = t.Recipient) ∧
    (cb = false → ∀ t ∈ blk.Transfers, t.IsCoinbase = false) ∧
    (cb = true → blk.Transfers.countP (fun t => t.IsCoinbase) = 1) := by
  obtain ⟨b, hb, _⟩ := Validate_ok_actions env v sf blk tipHeight tipHash cb hsf hdummy hok
  obtain ⟨b3, hloops, hcounts⟩ := collectActions_ok_loops env sf v.validatorAddr blk cb b hb
  obtain ⟨hc, ha⟩ := actionLoops_counts env sf blk b3 hloops
  obtain ⟨h1, h0, htot⟩ := checkCounts_ok blk cb b3 hcounts
  rw [hc, ha] at htot
  rw [hc] at h1 h0
  have hvalid := coinbases_of_counts env blk htot
  have hcount : blk.Transfers.countP (fun t => t.IsCoinbase) = validCoinbases env blk := by
    unfold validCoinbases
    apply List.countP_congr
    intro t ht
    constructor
    · intro h; exact hvalid t ht h
    · intro h
      simp only [isValidCoinbase, Bool.and_eq_true] at h
      exact h.1
  refine ⟨?_, ?_, ?_⟩
  · intro t ht hcb
    have := hvalid t ht hcb
    simp only [isValidCoinbase, Bool.and_eq_true, decide_eq_true_eq] at this
    exact this.2
  · intro hf t ht
    have hz := h0 hf
    rw [← hcount, List.countP_eq_zero] at hz
    simpa using hz t ht
  · intro ht
    rw [hcount]; exact h1 ht

theorem C27_coinbase_witness :
    scenarioValidator.sf = some scenarioFactory ∧
    scenarioEnv.IsDummyBlock scenarioBlockCoinbase = false ∧
    Validate scenarioEnv scenarioValidator (some scenarioBlockCoinbase) 0 [] true = .ok () ∧
    scenarioBlockCoinbase.Transfers.countP (fun t => t.IsCoinbase) = 1 :=
  ⟨rfl, rfl, by decide,
    (C27_coinbase scenarioEnv scenarioValidator scenarioFactory scenarioBlockCoinbase 0 [] true
      rfl rfl (by decide)).2.2 rfl⟩

end Blockchain

namespace Blockchain

/-! ## Lemmas about the stream of a `StopSubChain` -/

/-- The stream of a `StopSubChain` as one concatenation. -/
theorem ByteStream_eq (env : ActionEnv) (ssc : StopSubChain) :
    ByteStream env ssc =
      env.Uint32ToBytes ssc.version ++ (env.Uint64ToBytes ssc.nonce ++
        (env.Uint64ToBytes ssc.gasLimit ++ (ssc.srcPubkey ++ (ssc.srcAddr ++ (ssc.dstAddr ++
        ((match ssc.gasPrice with
          | some p => bigBytes p
          | none => []) ++
        (env.Uint32ToBytes ssc.chainID ++ env.Uint64ToBytes ssc.stopHeight))))))) := by
  unfold ByteStream
  cases hg : ssc.gasPrice with
  | none => simp
  | some p =>
    by_cases h0 : (bigBytes p).length > 0
    · simp [h0]
    · have : bigBytes p = [] := List.length_eq_zero.mp (by omega)
      simp [this]

/-- The hash of a `StopSubChain` does not depend on its signature. -/
theorem Hash_signature (env : ActionEnv) (ssc : StopSubChain) (signature : Bytes) :
    Hash env { ssc with signature := signature } = Hash env ssc := rfl

theorem scenario_uint32_length (n : Nat) : (scenarioActionEnv.Uint32ToBytes n).length = 4 := by
  simp [scenarioActionEnv]

theorem scenario_uint64_length (n : Nat) : (scenarioActionEnv.Uint64ToBytes n).length = 8 := by
  simp [scenarioActionEnv]

theorem scenario_uint32_injective (x y : Nat) (hx : x < 2 ^ 32) (hy : y < 2 ^ 32)
    (h : scenarioActionEnv.Uint32ToBytes x = scenarioActionEnv.Uint32ToBytes y) : x = y := by
  simp only [scenarioActionEnv, List.range, List.range.loop, List.reverse_cons, List.reverse_nil,
    List.nil_append, List.cons_append, List.map_cons, List.map_nil, List.cons.injEq,
    and_true] at h
  norm_num at h hx hy
  omega

theorem scenario_uint64_injective (x y : Nat) (hx : x < 2 ^ 64) (hy : y < 2 ^ 64)
    (h : scenarioActionEnv.Uint64ToBytes x = scenarioActionEnv.Uint64ToBytes y) : x = y := by
  simp only [scenarioActionEnv, List.range, List.range.loop, List.reverse_cons, List.reverse_nil,
    List.nil_append, List.cons_append, List.map_cons, List.map_nil, List.cons.injEq,
    and_true] at h
  norm_num at h hx hy
  omega

theorem bigBytes_injective (p q : Int) (hp : 0 ≤ p) (hq : 0 ≤ q)
    (h : bigBytes p = bigBytes q) : p = q := by
  rw [← bigSetBytes_bigBytes p hp, ← bigSetBytes_bigBytes q hq, h]

/-- A source that covers the array makes `copy` forget what the array held. -/
theorem copyBytes_cover (dst1 dst2 src : Bytes) (h1 : dst1.length ≤ src.length)
    (h : dst1.length = dst2.length) : copyBytes dst1 src = copyBytes dst2 src := by
  unfold copyBytes
  rw [List.drop_of_length_le h1, List.drop_of_length_le (by omega), h]

end Blockchain

namespace Blockchain

/-! ## The claims about signing, the stream and the conversion of a `StopSubChain` -/

/-- C31: for every `StopSubChain` and private key for which `Sign` returns nil, `Verify`
on the action that `Sign` leaves returns nil, when the scheme accepts the signatures it
makes under the public key of the private key. `Sign` stores the public key before it takes
the hash, the signature it stores is the signature of that hash, and the hash does not
depend on the signature, so the hash that `Verify` takes is the hash that was signed. -/
theorem C31_sign_verify (env : Env) (aenv : ActionEnv) (senv : SignEnv) (a a1 : StopSubChain)
    (sk : Bytes)
    (hscheme : ∀ pk h s, senv.NewPubKey sk = .ok pk → senv.ecSign sk h = some s →
      env.ecVerify pk h s = true)
    (hsign : Sign aenv senv a sk = (a1, none)) :
    Verify env a1.srcPubkey (Hash aenv a1) a1.signature = none ∧
    senv.NewPubKey sk = .ok a1.srcPubkey ∧
    senv.ecSign sk (Hash aenv { a with srcPubkey := a1.srcPubkey }) = some a1.signature ∧
    Hash aenv a1 = Hash aenv { a with srcPubkey := a1.srcPubkey } ∧
    (∀ signature : Bytes, Hash aenv { a1 with signature := signature } = Hash aenv a1) := by
  unfold Sign at hsign
  cases haddr : senv.IotxAddressToAddress a.srcAddr with
  | error err => rw [haddr] at hsign; simp at hsign
  | ok srcAddr =>
    rw [haddr] at hsign
    cases hpk : senv.NewPubKey sk with
    | error err => rw [hpk] at hsign; simp at hsign
    | ok pk =>
      rw [hpk] at hsign
      simp only at hsign
      by_cases hne : srcAddr ≠ senv.HashPubKey pk
      · rw [if_pos hne] at hsign; simp at hsign
      · rw [if_neg hne] at hsign
        cases hs : senv.ecSign sk (Hash aenv { a with srcPubkey := pk }) with
        | none => rw [hs] at hsign; simp at hsign
        | some signature =>
          rw [hs] at hsign
          simp only [Prod.mk.injEq, and_true] at hsign
          subst hsign
          refine ⟨?_, rfl, hs, rfl, fun _ => rfl⟩
          have hv := hscheme pk _ signature hpk hs
          simp only [Verify]
          rw [show Hash aenv
            { toaction := { a.toaction with srcPubkey := pk, signature := signature },
              chainID := a.chainID, stopHeight := a.stopHeight } =
            Hash aenv { a with srcPubkey := pk } from rfl, hv]
          rfl

theorem C31_sign_verify_witness :
    (∀ pk h s, scenarioSignEnv.NewPubKey [0] = .ok pk →
      scenarioSignEnv.ecSign [0] h = some s →
      scenarioEnv.ecVerify pk h s = true) ∧
    ∃ a1, Sign scenarioActionEnv scenarioSignEnv scenarioStop [0] = (a1, none) ∧
      Verify scenarioEnv a1.srcPubkey (Hash scenarioActionEnv a1) a1.signature = none :=
  ⟨fun _ _ _ _ _ => rfl, _, rfl,
    (C31_sign_verify scenarioEnv scenarioActionEnv scenarioSignEnv scenarioStop _ [0]
      (fun _ _ _ _ _ => rfl) rfl).1⟩

/-- C32 (counterexample): `ByteStream` puts the source address, the destination address and
the bytes of the gas price one after the other with no length between them, and takes the
magnitude of the gas price. The action of the scenarios has the same stream as the action
whose addresses are cut one byte earlier, as the action whose destination address takes the
first byte of the gas price, and as the action with the opposite gas price, whatever the
encoders of the integers are. -/
theorem C32_counterexample :
    ByteStream scenarioActionEnv scenarioStop =
      ByteStream scenarioActionEnv scenarioStopShifted ∧
    scenarioStop.srcAddr ≠ scenarioStopShifted.srcAddr ∧
    scenarioStop.dstAddr ≠ scenarioStopShifted.dstAddr ∧
    (∀ env : ActionEnv, ByteStream env scenarioStop = ByteStream env scenarioStopShifted) ∧
    (∀ env : ActionEnv, ByteStream env scenarioStop = ByteStream env scenarioStopPrice) ∧
    scenarioStop.gasPrice ≠ scenarioStopPrice.gasPrice ∧
    (∀ env : ActionEnv, ByteStream env scenarioStop = ByteStream env scenarioStopDebt) ∧
    scenarioStop.gasPrice ≠ scenarioStopDebt.gasPrice := by
  have h258 : bigBytes 258 = [1, 2] := by unfold bigBytes; norm_num
  have h2 : bigBytes 2 = [2] := by unfold bigBytes; norm_num
  have hneg : bigBytes (-258) = [1, 2] := by unfold bigBytes; norm_num
  have hshift : ∀ env : ActionEnv,
      ByteStream env scenarioStop = ByteStream env scenarioStopShifted := by
    intro env
    rw [ByteStream_eq, ByteStream_eq]
    simp [scenarioStop, scenarioStopShifted]
  refine ⟨hshift _, by decide, by decide, hshift, ?_, by decide, ?_, by decide⟩
  · intro env
    rw [ByteStream_eq, ByteStream_eq]
    simp [scenarioStop, scenarioStopPrice, h258, h2]
  · intro env
    rw [ByteStream_eq, ByteStream_eq]
    simp [scenarioStop, scenarioStopDebt, h258, hneg]

/-- C32 (amended): when `Uint32ToBytes` and `Uint64ToBytes` give 4 and 8 bytes and are
injective on `uint32` and `uint64`, two `StopSubChain` actions with integers in the ranges of
their types, public keys of the same length, source addresses of the same length,
destination addresses of the same length and gas prices that are present and not negative,
which have the same stream, have the same version, nonce, gas limit, source public key,
source address, destination address, gas price, chain id and stop height, and the same
hash. -/
theorem C32_byteStream_injective (env : ActionEnv) (a b : StopSubChain) (p q : Int)
    (h4 : ∀ n, (env.Uint32ToBytes n).length = 4)
    (h8 : ∀ n, (env.Uint64ToBytes n).length = 8)
    (hi4 : ∀ x y, x < 2 ^ 32 → y < 2 ^ 32 →
      env.Uint32ToBytes x = env.Uint32ToBytes y → x = y)
    (hi8 : ∀ x y, x < 2 ^ 64 → y < 2 ^ 64 →
      env.Uint64ToBytes x = env.Uint64ToBytes y → x = y)
    (ha : inRange a) (hb : inRange b)
    (hkey : a.srcPubkey.length = b.srcPubkey.length)
    (hsrc : a.srcAddr.length = b.srcAddr.length)
    (hdst : a.dstAddr.length = b.dstAddr.length)
    (hp : a.gasPrice = some p) (hq : b.gasPrice = some q) (hp0 : 0 ≤ p) (hq0 : 0 ≤ q)
    (hstream : ByteStream env a = ByteStream env b) :
    a.version = b.version ∧ a.nonce = b.nonce ∧ a.gasLimit = b.gasLimit ∧
    a.srcPubkey = b.srcPubkey ∧ a.srcAddr = b.srcAddr ∧ a.dstAddr = b.dstAddr ∧
    a.gasPrice = b.gasPrice ∧ a.chainID = b.chainID ∧ a.stopHeight = b.stopHeight ∧
    Hash env a = Hash env b := by
  have hhash : Hash env a = Hash env b := by unfold Hash; rw [hstream]
  rw [ByteStream_eq, ByteStream_eq, hp, hq] at hstream
  simp only at hstream
  obtain ⟨hv, r1⟩ := List.append_inj hstream (by rw [h4, h4])
  obtain ⟨hn, r2⟩ := List.append_inj r1 (by rw [h8, h8])
  obtain ⟨hg, r3⟩ := List.append_inj r2 (by rw [h8, h8])
  obtain ⟨hk, r4⟩ := List.append_inj r3 hkey
  obtain ⟨hs, r5⟩ := List.append_inj r4 hsrc
  obtain ⟨hd, r6⟩ := List.append_inj r5 hdst
  obtain ⟨hgp, r7⟩ := List.append_inj' r6 (by simp [h4, h8])
  obtain ⟨hc, hh⟩ := List.append_inj r7 (by rw [h4, h4])
  obtain ⟨a1, a2, a3, a4, a5⟩ := ha
  obtain ⟨b1, b2, b3, b4, b5⟩ := hb
  refine ⟨hi4 _ _ a1 b1 hv, hi8 _ _ a2 b2 hn, hi8 _ _ a3 b3 hg, hk, hs, hd, ?_,
    hi4 _ _ a4 b4 hc, hi8 _ _ a5 b5 hh, hhash⟩
  rw [hp, hq, bigBytes_injective p q hp0 hq0 hgp]

theorem C32_byteStream_injective_witness :
    inRange scenarioStop ∧ scenarioStop.gasPrice = some 258 ∧
    ByteStream scenarioActionEnv scenarioStop =
      ByteStream scenarioActionEnv { scenarioStop with signature := [] } ∧
    scenarioStop.nonce = ({ scenarioStop with signature := [] } : StopSubChain).nonce :=
  have hr : inRange scenarioStop := by
    unfold inRange
    decide
  ⟨hr, rfl, rfl,
    (C32_byteStream_injective scenarioActionEnv scenarioStop
      { scenarioStop with signature := [] } 258 258 scenario_uint32_length
      scenario_uint64_length scenario_uint32_injective scenario_uint64_injective hr hr rfl rfl
      rfl rfl rfl (by decide) (by decide) rfl).2.1⟩

/-- C33 (counterexample): on a message without a gas price and without a `StopSubChain`,
`ConvertFromActionPb` leaves the gas price 0, the chain id 0 and an empty source address in
a zero receiver, and the gas price 258, the chain id 2 and the source address of before in
the receiver `scenarioStop`; on a message whose public key has one byte, the two receivers
keep the last two bytes of their own keys. -/
theorem C33_counterexample :
    (ConvertFromActionPb (emptyStopSubChain 3) scenarioPbBare).gasPrice = some 0 ∧
    (ConvertFromActionPb scenarioStop scenarioPbBare).gasPrice = some 258 ∧
    (ConvertFromActionPb (emptyStopSubChain 3) scenarioPbBare).chainID = 0 ∧
    (ConvertFromActionPb scenarioStop scenarioPbBare).chainID = 2 ∧
    (ConvertFromActionPb (emptyStopSubChain 3) scenarioPbBare).srcAddr = [] ∧
    (ConvertFromActionPb scenarioStop scenarioPbBare).srcAddr = [97, 98] ∧
    (ConvertFromActionPb (emptyStopSubChain 3) scenarioPbShortKey).srcPubkey = [7, 0, 0] ∧
    (ConvertFromActionPb scenarioStop scenarioPbShortKey).srcPubkey = [7, 5, 6] :=
  ⟨by decide, by decide, by decide, by decide, by decide, by decide, by decide, by decide⟩

/-- C33 (amended): for every message that has a gas price of at least one byte and a
`StopSubChain` whose public key covers the key array, and every two receivers (with key
arrays of the same length), `ConvertFromActionPb` leaves the same action in both, and so
does `Deserialize` on bytes that `proto.Unmarshal` turns into such a message. For every
message and every two receivers the results agree on the version, the nonce, the gas limit
and the signature. -/
theorem C33_message_alone (r1 r2 : StopSubChain) (m : ActionPb) (pb : StopSubChainPb)
    (hprice : 0 < m.GasPrice.length) (hpb : m.StopSubChain = some pb)
    (hkey : r1.srcPubkey.length = r2.srcPubkey.length)
    (hcover : r1.srcPubkey.length ≤ pb.OwnerPublicKey.length) :
    ConvertFromActionPb r1 m = ConvertFromActionPb r2 m ∧
    (∀ (env : ActionEnv) (buf : Bytes), env.Unmarshal buf = .ok m →
      Deserialize env r1 buf = Deserialize env r2 buf) ∧
    (∀ (s1 s2 : StopSubChain) (m1 : ActionPb),
      (ConvertFromActionPb s1 m1).version = (ConvertFromActionPb s2 m1).version ∧
      (ConvertFromActionPb s1 m1).nonce = (ConvertFromActionPb s2 m1).nonce ∧
      (ConvertFromActionPb s1 m1).gasLimit = (ConvertFromActionPb s2 m1).gasLimit ∧
      (ConvertFromActionPb s1 m1).signature = (ConvertFromActionPb s2 m1).signature) := by
  have hconv : ConvertFromActionPb r1 m = ConvertFromActionPb r2 m := by
    have hc := copyBytes_cover r1.srcPubkey r2.srcPubkey pb.OwnerPublicKey hcover hkey
    unfold ConvertFromActionPb
    simp only [hpb, gt_iff_lt, hprice, if_true]
    cases h1 : r1.gasPrice <;> cases h2 : r2.gasPrice <;> simp [hc]
  refine ⟨hconv, ?_, ?_⟩
  · intro env buf hu
    simp only [Deserialize, hu, hconv]
  · intro s1 s2 m1
    unfold ConvertFromActionPb
    cases m1.StopSubChain <;> cases s1.gasPrice <;> cases s2.gasPrice <;>
      by_cases hl : m1.GasPrice.length > 0 <;> simp [hl]

theorem C33_message_alone_witness :
    0 < scenarioPb.GasPrice.length ∧
    scenarioPb.StopSubChain = some ⟨2, 300, [97, 98], [4, 5, 6], [99]⟩ ∧
    (emptyStopSubChain 3).srcPubkey.length = scenarioStopDebt.srcPubkey.length ∧
    (emptyStopSubChain 3).srcPubkey.length ≤ 3 ∧
    ConvertFromActionPb (emptyStopSubChain 3) scenarioPb =
      ConvertFromActionPb scenarioStopDebt scenarioPb :=
  ⟨by decide, rfl, by decide, by decide,
    (C33_message_alone (emptyStopSubChain 3) scenarioStopDebt scenarioPb
      ⟨2, 300, [97, 98], [4, 5, 6], [99]⟩ (by decide) rfl (by decide) (by decide)).1⟩

end Blockchain

namespace Blockchain

/-! ## The claim about the faults of the queue -/

/-- The method `Cost` of a `StopSubChain` without a gas price panics, and so does
`enoughBalance` on it. -/
theorem enoughBalanceOf_nil (g : Nat) (ssc : StopSubChain) (h : ssc.gasPrice = none)
    (q : ActPool.actQueue) (b : Bool) :
    Cost g ssc = .error .nilPointer ∧ enoughBalanceOf g q ssc b = .error .nilPointer := by
  have hc : Cost g ssc = .error .nilPointer := by simp [Cost, h]
  exact ⟨hc, by simp [enoughBalanceOf, hc]⟩

/-- C22 (the code at the failing input, and what holds): `NewStopSubChain` accepts a nil gas
price, and on the action it makes, with the nonce 1, `Cost()` dereferences the nil gas price
in `big.Int.Mul`. So `enoughBalance` panics on it, whatever the queue and the flag are, and
`UpdateQueue(1)` on a queue that holds the action at the nonce 1 panics in the first step of
its walk, which calls `enoughBalance` on the action stored at the nonce 1. The same holds for
every `StopSubChain` without a gas price; with a gas price `enoughBalance` goes on with the
cost `gasPrice * StopSubChainIntrinsicGas`. When every stored action has a cost (the queue
of the embedding), on every queue built from `NewActQueue` whose map has fewer than `2^64`
entries `FilterNonce`, `UpdateQueue`, `PendingActs` and `AllActs` return, every position of
the lists they return is a stored action, and `Put` returns its error exactly when the
nonce of the action is in the map. -/
theorem C22_cost_fault :
    scenarioStopFree.gasPrice = none ∧ scenarioStopFree.nonce = 1 ∧
    Cost 10 scenarioStopFree = .error .nilPointer ∧
    enoughBalanceOf 10 ActPool.NewActQueue scenarioStopFree true = .error .nilPointer ∧
    (∀ (g : Nat) (ssc : StopSubChain), ssc.gasPrice = none →
      ∀ (q : ActPool.actQueue) (b : Bool),
        Cost g ssc = .error .nilPointer ∧ enoughBalanceOf g q ssc b = .error .nilPointer) ∧
    (∀ (g : Nat) (ssc : StopSubChain) (p : Int), ssc.gasPrice = some p →
      ∀ (q : ActPool.actQueue) (b : Bool),
        enoughBalanceOf g q ssc b = .ok (ActPool.enoughBalance q ⟨ssc.nonce, p * g, 0⟩ b)) ∧
    (∀ q : ActPool.actQueue, ActPool.Reachable q → ActPool.Len q < ActPool.u64 →
      (∀ t, ∃ (q1 : ActPool.actQueue) (acts : List ActPool.Action),
        ActPool.FilterNonce q t = .ok (q1, acts.map some)) ∧
      (∀ n, n < ActPool.u64 →
        ∃ (q1 : ActPool.actQueue) (acts : List ActPool.Action),
          ActPool.UpdateQueue q n = .ok (q1, acts.map some)) ∧
      (∃ acts, ActPool.PendingActs q = .ok acts) ∧
      (∃ acts : List ActPool.Action, (ActPool.AllActs q).2 = acts.map some) ∧
      (∀ act, (ActPool.Put q act).2 = some .ErrNonce ↔
        (q.items.lookup act.nonce).isSome)) :=
  ⟨rfl, rfl, rfl, rfl,
    fun g ssc h q b => enoughBalanceOf_nil g ssc h q b,
    fun g ssc p h q b => by simp [enoughBalanceOf, Cost, h],
    fun q hr hlen => ActPool.operations_total q hr hlen⟩

end Blockchain
